import Mathlib

/-!
# Telegraph controller: Morse timing recovery and pattern codec

A shallow embedding of `Elements.h`, `CwDecoderLogic.h` and `CwTimingLogic.h`.

* `byte` values are natural numbers, with `% 256` wherever the source can wrap.
* `float` values are rational numbers: the arithmetic is exact.
* `unsigned` pulse lengths are natural numbers.
* Buffers written through a `char *` are the list of characters written, in order.
-/

namespace CW

/-! ## Elements.h -/

/-- A detected CW element: a pulse (`Mark`) or a space, with its length. -/
structure CwElement where
  Length : Nat
  Mark : Bool
  deriving DecidableEq, Repr

/-- Element types, in the order of the source enumeration. -/
inductive MorseElements where
  | DotSpace
  | DashSpace
  | WordSpace
  | Dot
  | Dash
  deriving DecidableEq, Repr

/-! ## CircularBuffer.h -/

/-- Modelled from the spec: `CircularBuffer.h` is included by the sources but is not among
them. The spec describes a fixed-capacity FIFO with append, remove-front, peek-at-index,
count, a full predicate and bulk-remove-N. `items` is the content, front first. -/
structure CircularBuffer (α : Type) where
  items : List α
  capacity : Nat

namespace CircularBuffer

variable {α : Type}

/-- Number of queued items. -/
def Count (b : CircularBuffer α) : Nat := b.items.length

/-- The full predicate. -/
def Full (b : CircularBuffer α) : Bool := decide (b.capacity ≤ b.items.length)

/-- Append at the back. A full buffer is left as it is. -/
def Add (b : CircularBuffer α) (x : α) : CircularBuffer α :=
  if b.Full then b else { b with items := b.items ++ [x] }

/-- Remove the front item, if there is one. -/
def Remove (b : CircularBuffer α) : Option (α × CircularBuffer α) :=
  match b.items with
  | [] => none
  | x :: rest => some (x, { b with items := rest })

/-- Peek at the item at an index. -/
def ItemAt (b : CircularBuffer α) (i : Nat) : Option α := b.items.get? i

/-- Remove the first `n` items. -/
def RemoveItems (b : CircularBuffer α) (n : Nat) : CircularBuffer α :=
  { b with items := b.items.drop n }

/-- An empty buffer of a given capacity. -/
def empty (cap : Nat) : CircularBuffer α := { items := [], capacity := cap }

end CircularBuffer

/-! ## CwDecoderLogic.h -/

/-- A table entry, the `byte[3]` array `{ length, pattern, decoded_char }`. -/
structure Row where
  len : Nat
  pattern : Nat
  value : Char
  deriving DecidableEq, Repr

/-- The loop of `MakeTableEntry`: set the mask bit for every dash, shift the mask. -/
def makePattern : List Char → Nat → Nat → Nat
  | [], _, pattern => pattern
  | c :: rest, mask, pattern =>
    makePattern rest ((mask * 2) % 256) (if c = '-' then pattern ||| mask else pattern)

/-- Converts a string/char pair into a table entry. -/
def MakeTableEntry (sPattern : String) (decodedValue : Char) : Row :=
  { len := sPattern.toList.length % 256
    pattern := makePattern sPattern.toList 1 0
    value := decodedValue }

/-- The dot/dash literals and characters of the `MakeTableEntry` calls of the constructor,
in order; the calls inside comments are left out. -/
def tableLiterals : List (String × Char) :=
  [ (".", 'E'), ("-", 'T'),
    (".-", 'A'), ("..", 'I'), ("--", 'M'), ("-.", 'N'),
    ("-..", 'D'), ("--.", 'G'), ("---", 'O'), ("-.-", 'K'),
    (".-.", 'R'), ("...", 'S'), ("..-", 'U'), (".--", 'W'),
    ("-...", 'B'), ("-.-.", 'C'), ("..-.", 'F'), ("....", 'H'),
    (".---", 'J'), (".-..", 'L'), (".--.", 'P'), ("--.-", 'Q'),
    ("...-", 'V'), ("-..-", 'X'), ("-.--", 'Y'), ("--..", 'Z'),
    (".-.-", '\n'),
    ("-----", '0'), (".----", '1'), ("..---", '2'), ("...--", '3'),
    ("....-", '4'), (".....", '5'), ("-....", '6'), ("--...", '7'),
    ("---..", '8'), ("----.", '9'),
    (".-.-.-", '.'), ("--..--", ',') ]

/-- The rows the constructor assigns, in order (`*bp++ = MakeTableEntry(...)`). -/
def tableRows : List Row := tableLiterals.map (fun p => MakeTableEntry p.1 p.2)

/-- The state of a `CwDecoderLogic` object. -/
structure CwDecoderLogic where
  m_Mapping : List Row
  m_Hashes : List Nat
  m_MaxElements : Nat
  m_MappingLength : Nat
  ErrorSymbol : Char

/-- The row read when a slot index is outside the modelled array. -/
def nullRow : Row := { len := 0, pattern := 0, value := Char.ofNat 0 }

/-- One pass of the constructor's loop computing the maximum element size. -/
def maxStep (mapping : List Row) (mx i : Nat) : Nat :=
  if (mapping.getD i nullRow).len > mx then (mapping.getD i nullRow).len else mx

/-- The constructor's loop computing the maximum element size over `n` slots. -/
def computeMaxElements (mapping : List Row) (n : Nat) : Nat :=
  (List.range n).foldl (maxStep mapping) 0

/-- One pass of the constructor's loop configuring the hashes table. -/
def hashStep (mapping : List Row) (hashes : List Nat) (i : Nat) : List Nat :=
  if (mapping.getD i nullRow).len > 1 ∧ hashes.getD ((mapping.getD i nullRow).len - 1) 0 = 0 then
    hashes.set ((mapping.getD i nullRow).len - 1) (i % 256)
  else hashes

/-- The constructor's loop configuring the hashes table over `n` slots. -/
def configureHashes (mapping : List Row) (n : Nat) (hashes : List Nat) : List Nat :=
  (List.range n).foldl (hashStep mapping) hashes

/-- The constructor. `m_MappingLength` is 56 and 39 slots are assigned; the content of the
17 slots that are never assigned is the parameter `unassigned` (slot `39 + k` holds
`unassigned k`). -/
def CwDecoderLogic.new (unassigned : Nat → Row) : CwDecoderLogic :=
  let mappingLength := 56
  let mapping := tableRows ++ (List.range (mappingLength - tableRows.length)).map unassigned
  let maxElements := computeMaxElements mapping mappingLength
  { m_Mapping := mapping
    m_Hashes := configureHashes mapping mappingLength (List.replicate maxElements 0)
    m_MaxElements := maxElements
    m_MappingLength := mappingLength
    ErrorSymbol := '~' }

/-- Unassigned slots that all hold three zero bytes. -/
def zeroSlots : Nat → Row := fun _ => nullRow

namespace CwDecoderLogic

/-- Returns the number of symbols in the lookup table. -/
def SymbolCount (D : CwDecoderLogic) : Nat := D.m_MappingLength

/-- The scan of `Lookup(byte, byte)`: `n` slots remain before `m_MappingLength`, `i` is the
slot index. -/
def lookupLoop (D : CwDecoderLogic) (symbol sLen : Nat) : Nat → Nat → Char
  | 0, _ => D.ErrorSymbol
  | n + 1, i =>
    let entry := D.m_Mapping.getD i nullRow
    if entry.len ≠ sLen then D.ErrorSymbol
    else if entry.pattern = symbol then entry.value
    else lookupLoop D symbol sLen n (i + 1)

/-- Search for a pattern: `Lookup(byte symbol, byte sLen)`. -/
def Lookup (D : CwDecoderLogic) (symbol sLen : Nat) : Char :=
  if sLen ≤ 0 ∨ sLen > D.m_MaxElements then D.ErrorSymbol
  else
    lookupLoop D symbol sLen (D.m_MappingLength - D.m_Hashes.getD (sLen - 1) 0)
      (D.m_Hashes.getD (sLen - 1) 0)

/-- The scan of `Lookup(char, byte&, byte&)`. -/
def lookupCharLoop (D : CwDecoderLogic) (ch : Char) : Nat → Nat → Option (Nat × Nat)
  | 0, _ => none
  | n + 1, i =>
    let entry := D.m_Mapping.getD i nullRow
    if entry.value = ch then some (entry.pattern, entry.len)
    else lookupCharLoop D ch n (i + 1)

/-- Find a symbol encoding: `Lookup(char ch, byte &pattern, byte &length)`; the result is
`some (pattern, length)` when the source returns true. -/
def LookupChar (D : CwDecoderLogic) (ch : Char) : Option (Nat × Nat) :=
  lookupCharLoop D ch D.m_MappingLength 0

/-- The local variables of one pass of the outer loop of `Decode`. -/
structure Scan where
  count : Nat
  symbol : Nat
  mask : Nat
  bits : Nat
  done : Bool
  word : Bool
  deriving DecidableEq, Repr

/-- The values the locals are reset to at the start of a pass. -/
def Scan.reset : Scan :=
  { count := 0, symbol := 0, mask := 1, bits := 0, done := false, word := false }

/-- The `switch` on one element. -/
def scanElement (element : MorseElements) (s : Scan) : Scan :=
  match element with
  | .WordSpace => { s with word := true, done := true }
  | .DashSpace => { s with done := true }
  | .Dot => { s with mask := (s.mask * 2) % 256, bits := (s.bits + 1) % 256 }
  | .Dash =>
    { s with bits := (s.bits + 1) % 256, symbol := s.symbol ||| s.mask,
             mask := (s.mask * 2) % 256 }
  | .DotSpace => s

/-- The body of the inner `for` loop of `Decode`, with the increment of `count`. -/
def scanBody (D : CwDecoderLogic) (element : MorseElements) (s : Scan) : Scan :=
  let s1 := scanElement element s
  let s2 := if s1.bits ≥ D.m_MaxElements then { s1 with done := true } else s1
  { s2 with count := s2.count + 1 }

/-- The inner `for` loop of `Decode` over the items from index `count` on. -/
def scanLoop (D : CwDecoderLogic) : List MorseElements → Scan → Scan
  | [], s => s
  | element :: rest, s =>
    if (scanBody D element s).done then scanBody D element s
    else scanLoop D rest (scanBody D element s)

/-- The characters one pass writes once an entire symbol was read. -/
def emit (D : CwDecoderLogic) (s : Scan) : List Char :=
  (if s.bits ≠ 0 then
    (if D.Lookup s.symbol s.bits ≠ Char.ofNat 0 then [D.Lookup s.symbol s.bits] else [])
   else []) ++
  (if s.word then [' '] else [])

/-- The `do ... while (done)` loop of `Decode`, at most `fuel` passes. -/
def decodeLoop (D : CwDecoderLogic) :
    Nat → CircularBuffer MorseElements → List Char →
      Option (Nat × List Char × CircularBuffer MorseElements)
  | 0, _, _ => none
  | fuel + 1, rxBuffer, buffer =>
    let s := scanLoop D rxBuffer.items Scan.reset
    if s.done then
      decodeLoop D fuel (rxBuffer.RemoveItems s.count) (buffer ++ emit D s)
    else some (buffer.length, buffer, rxBuffer)

/-- Do the decoding. The result is the returned count, the characters written to `buffer`
and the buffer left behind; `buflen` is not read by the source. -/
def Decode (D : CwDecoderLogic) (rxBuffer : CircularBuffer MorseElements) (_buflen : Int) :
    Option (Nat × List Char × CircularBuffer MorseElements) :=
  decodeLoop D (rxBuffer.Count + 1) rxBuffer []

/-- The C library `isspace` in the default locale. -/
def isspace (ch : Char) : Bool :=
  ch = ' ' ∨ ch = '\t' ∨ ch = '\n' ∨ ch = Char.ofNat 11 ∨ ch = Char.ofNat 12 ∨ ch = '\r'

/-- The inner loop of `Encode` over the `n` remaining bits of a pattern. -/
def encodeBits (pattern : Nat) :
    Nat → Nat → CircularBuffer MorseElements → Bool → CircularBuffer MorseElements × Bool
  | 0, _, txBuffer, marked => (txBuffer, marked)
  | n + 1, mask, txBuffer, marked =>
    let tx1 := if marked then txBuffer.Add .DotSpace else txBuffer
    let tx2 := tx1.Add (if pattern &&& mask ≠ 0 then .Dash else .Dot)
    encodeBits pattern n ((mask * 2) % 256) tx2 true

/-- The outer loop of `Encode` over the characters of the text. -/
def encodeLoop (D : CwDecoderLogic) :
    List Char → CircularBuffer MorseElements → Nat → Bool →
      Nat × CircularBuffer MorseElements
  | [], txBuffer, result, _ => (result, txBuffer)
  | ch :: rest, txBuffer, result, marked =>
    if isspace ch then
      encodeLoop D rest (txBuffer.Add .WordSpace) (result + 1) marked
    else
      match D.LookupChar ch with
      | none => encodeLoop D rest txBuffer result marked
      | some (pattern, patLen) =>
        let r := encodeBits pattern patLen 1 txBuffer marked
        encodeLoop D rest (r.1.Add .DashSpace) (result + 1) r.2

/-- Do the encoding: the returned count and the buffer after the call. -/
def Encode (D : CwDecoderLogic) (txBuffer : CircularBuffer MorseElements) (buffer : List Char) :
    Nat × CircularBuffer MorseElements :=
  encodeLoop D buffer txBuffer 0 false

end CwDecoderLogic

/-! ## CwTimingLogic.h -/

/-- Speed control states. -/
inductive SpeedSources where
  | SpeedManual
  | SpeedAuto
  deriving DecidableEq, Repr

/-- Conversion of a `float` to `int`: truncation toward zero. -/
def truncToInt (q : ℚ) : Int := Int.tdiv q.num q.den

/-- Conversion of an `int` to `unsigned`: reduction modulo `2 ^ 32`. -/
def toUnsigned (z : Int) : Nat := (z % 4294967296).toNat

/-- The constant `FLT_MAX` of `float.h`. -/
def FLT_MAX : ℚ := 340282346638528859811704183484516925440

/-- The state of a `CwTimingLogic` object. -/
structure CwTimingLogic where
  m_DotLength : ℚ
  m_TxDotLength : ℚ
  m_RxDotLength : ℚ
  m_BoxCar : List ℚ
  m_BoxCarSum : ℚ
  m_BoxCarAverage : ℚ
  m_MinimumAverageDistance : ℚ
  m_BoxCarIndex : Nat
  m_BoxCarSize : Nat
  m_SafetyGap : Int
  m_TxSpeedSource : SpeedSources
  m_RxSpeedSource : SpeedSources
  MaximumDotLength : ℚ
  MinimumWordSpace : ℚ
  MinimumMark : ℚ
  MaximumMark : ℚ

namespace CwTimingLogic

/-- Allocate the boxcar space: the new array holds no defined values yet. -/
def AllocateBoxCar (T : CwTimingLogic) (bcLength : Nat) : CwTimingLogic :=
  { T with m_BoxCarSize := bcLength, m_BoxCar := List.replicate bcLength 0 }

/-- Initialize the boxcar with a specific dot length (an `int` parameter). -/
def InitializeBoxCar (T : CwTimingLogic) (dotLength : Int) : CwTimingLogic :=
  let boxCar : List ℚ := List.replicate T.m_BoxCarSize (dotLength : ℚ)
  let sum : ℚ := boxCar.foldl (fun acc x => acc + x) 0
  let average : ℚ := sum / T.m_BoxCarSize
  { T with
    m_BoxCar := boxCar
    m_BoxCarSum := sum
    m_BoxCarAverage := average
    m_DotLength := average / 2
    m_SafetyGap := truncToInt (T.m_MinimumAverageDistance * average)
    m_BoxCarIndex := 0 }

/-- Construct a new timing object. The constructor leaves `m_RxDotLength` and
`m_TxDotLength` unassigned; their content is the parameters `rx0` and `tx0`. -/
def new (dotLength : ℚ) (bcLength : Nat) (rx0 tx0 : ℚ) : CwTimingLogic :=
  let T0 : CwTimingLogic :=
    { m_DotLength := 0
      m_TxDotLength := tx0
      m_RxDotLength := rx0
      m_BoxCar := []
      m_BoxCarSum := 0
      m_BoxCarAverage := 0
      m_MinimumAverageDistance := 35 / 100
      m_BoxCarIndex := 0
      m_BoxCarSize := 0
      m_SafetyGap := 0
      m_TxSpeedSource := .SpeedAuto
      m_RxSpeedSource := .SpeedAuto
      MaximumDotLength := 2
      MinimumWordSpace := 45 / 10
      MinimumMark := 0
      MaximumMark := FLT_MAX }
  let T1 := (T0.AllocateBoxCar bcLength).InitializeBoxCar (truncToInt dotLength)
  { T1 with m_TxSpeedSource := .SpeedAuto, m_RxSpeedSource := .SpeedAuto }

/-- Set the new minimum average distance. -/
def setMinimumAverageDistance (T : CwTimingLogic) (mad : ℚ) : CwTimingLogic :=
  let T1 := { T with m_MinimumAverageDistance := mad }
  T1.InitializeBoxCar (truncToInt T1.m_DotLength)

/-- Return the current boxcar length. -/
def BoxCarLength (T : CwTimingLogic) : Nat := T.m_BoxCarSize

/-- Set a new boxcar length. -/
def setBoxCarLength (T : CwTimingLogic) (bcLength : Nat) : CwTimingLogic :=
  let dl := truncToInt T.m_DotLength
  (T.AllocateBoxCar bcLength).InitializeBoxCar dl

/-- Return the current average dot length from the tracker. -/
def DotLength (T : CwTimingLogic) : ℚ := T.m_DotLength

/-- Set the RX WPM, and drop into manual RX mode. -/
def RxWPM (T : CwTimingLogic) (wpm : Int) : CwTimingLogic :=
  let newLength : Int := Int.tdiv 1200 wpm
  let T1 := { T with m_RxSpeedSource := .SpeedManual, m_RxDotLength := (newLength : ℚ) }
  T1.InitializeBoxCar (newLength * 2)

/-- Set the TX WPM, and drop into manual TX mode. -/
def TxWPM (T : CwTimingLogic) (wpm : Int) : CwTimingLogic :=
  let newLength : Int := Int.tdiv 1200 wpm
  { T with m_TxSpeedSource := .SpeedManual, m_TxDotLength := (newLength : ℚ) }

/-- Set the RX speed source. -/
def RxMode (T : CwTimingLogic) (src : SpeedSources) : CwTimingLogic :=
  { T with m_RxSpeedSource := src }

/-- Set the TX speed source. -/
def TxMode (T : CwTimingLogic) (src : SpeedSources) : CwTimingLogic :=
  { T with m_TxSpeedSource := src }

/-- The condition under which `Decode` writes the element length into the boxcar. -/
def qualifies (T : CwTimingLogic) (element : CwElement) : Bool :=
  element.Mark && decide ((element.Length : ℚ) > T.MinimumMark) &&
    decide ((element.Length : ℚ) < T.MaximumMark) &&
    (decide ((element.Length : ℚ) < T.m_BoxCarAverage - (T.m_SafetyGap : ℚ)) ||
      decide ((element.Length : ℚ) > T.m_BoxCarAverage + (T.m_SafetyGap : ℚ)))

/-- The boxcar write and the recomputation of the averages. -/
def pushBoxCar (T : CwTimingLogic) (element : CwElement) : CwTimingLogic :=
  let sum : ℚ := T.m_BoxCarSum - T.m_BoxCar.getD T.m_BoxCarIndex 0 + (element.Length : ℚ)
  let average : ℚ := sum / T.m_BoxCarSize
  { T with
    m_BoxCarSum := sum
    m_BoxCar := T.m_BoxCar.set T.m_BoxCarIndex (element.Length : ℚ)
    m_BoxCarIndex := (T.m_BoxCarIndex + 1) % T.m_BoxCarSize
    m_BoxCarAverage := average
    m_DotLength := average / 2
    m_SafetyGap := truncToInt (T.m_MinimumAverageDistance * average) }

/-- Update the element length average. -/
def updateAverage (T : CwTimingLogic) (element : CwElement) : CwTimingLogic :=
  if T.qualifies element then T.pushBoxCar element else T

/-- Copy the tracked dot length into each direction that is in automatic mode. -/
def refreshSpeeds (T : CwTimingLogic) : CwTimingLogic :=
  let T1 := if T.m_RxSpeedSource = .SpeedAuto then { T with m_RxDotLength := T.m_DotLength } else T
  if T1.m_TxSpeedSource = .SpeedAuto then { T1 with m_TxDotLength := T1.m_DotLength } else T1

/-- Decode the specific element type: the element added and whether `space` is set. -/
def classify (T : CwTimingLogic) (element : CwElement) : MorseElements × Bool :=
  if (element.Length : ℚ) ≤ T.MaximumDotLength * T.m_RxDotLength then
    (if element.Mark then .Dot else .DotSpace, false)
  else if (element.Length : ℚ) ≥ T.MinimumWordSpace * T.m_RxDotLength ∧ ¬ element.Mark then
    (.WordSpace, true)
  else
    (if element.Mark then .Dash else .DashSpace, !element.Mark)

/-- The state after the average update and the speed refresh for one raw element. -/
def processPulse (T : CwTimingLogic) (element : CwElement) : CwTimingLogic :=
  (T.updateAverage element).refreshSpeeds

/-- The `while` loop of `Decode` over the queued raw elements. -/
def decodeLoop :
    CwTimingLogic → List CwElement → CircularBuffer MorseElements → Bool →
      CwTimingLogic × List CwElement × CircularBuffer MorseElements × Bool
  | T, [], result, space => (T, [], result, space)
  | T, element :: rest, result, space =>
    if result.Full then (T, element :: rest, result, space)
    else
      decodeLoop (T.processPulse element) rest
        (result.Add ((T.processPulse element).classify element).1)
        (space || ((T.processPulse element).classify element).2)

/-- Do the decoding: the state, the raw buffer and the result buffer after the call, and
the returned flag. -/
def Decode (T : CwTimingLogic) (raw : CircularBuffer CwElement)
    (result : CircularBuffer MorseElements) :
    CwTimingLogic × CircularBuffer CwElement × CircularBuffer MorseElements × Bool :=
  let r := decodeLoop T raw.items result false
  (r.1, { raw with items := r.2.1 }, r.2.2.1, r.2.2.2)

/-- The pulse `Encode` produces for one element. -/
def encodeElement (dotSpace dashSpace wordSpace : Int) : MorseElements → CwElement
  | .Dot => { Mark := true, Length := toUnsigned dotSpace }
  | .Dash => { Mark := true, Length := toUnsigned dashSpace }
  | .DotSpace => { Mark := false, Length := toUnsigned dotSpace }
  | .DashSpace => { Mark := false, Length := toUnsigned dashSpace }
  | .WordSpace => { Mark := false, Length := toUnsigned wordSpace }

/-- The `while (txBuffer.Remove(el))` loop of `Encode`. -/
def encodeLoop (dotSpace dashSpace wordSpace : Int) :
    List MorseElements → CircularBuffer CwElement → Nat → Nat × CircularBuffer CwElement
  | [], cwBuffer, result => (result, cwBuffer)
  | el :: rest, cwBuffer, result =>
    encodeLoop dotSpace dashSpace wordSpace rest
      (cwBuffer.Add (encodeElement dotSpace dashSpace wordSpace el)) (result + 1)

/-- Do the encoding: the returned count, the emptied element buffer and the pulse buffer
after the call. -/
def Encode (T : CwTimingLogic) (txBuffer : CircularBuffer MorseElements)
    (cwBuffer : CircularBuffer CwElement) :
    Nat × CircularBuffer MorseElements × CircularBuffer CwElement :=
  let dotSpace : Int := truncToInt T.m_TxDotLength
  let dashSpace : Int := dotSpace * 3
  let wordSpace : Int := dotSpace * 5
  let r := encodeLoop dotSpace dashSpace wordSpace txBuffer.items cwBuffer 0
  (r.1, { txBuffer with items := [] }, r.2)

end CwTimingLogic

/-! ## Auxiliary definitions for the statements and proofs -/

/-- The first-index entries for the lengths 1 to 6. -/
def firstIndex : List Nat := [0, 2, 6, 14, 27, 37]

namespace CircularBuffer

variable {α : Type}

/-- Append the items of a list one by one with `Add`. -/
def addAll (b : CircularBuffer α) (xs : List α) : CircularBuffer α := xs.foldl Add b

end CircularBuffer

namespace CwDecoderLogic

/-- The elements the inner loop of `Encode` adds for the `n` remaining bits. -/
def bitElems (pattern : Nat) : Nat → Nat → Bool → List MorseElements
  | 0, _, _ => []
  | n + 1, mask, marked =>
    (if marked then [MorseElements.DotSpace] else []) ++
      (if pattern &&& mask ≠ 0 then MorseElements.Dash else MorseElements.Dot) ::
        bitElems pattern n ((mask * 2) % 256) true

/-- The elements `Encode` adds for a text, from a given value of `marked`. -/
def textElems (D : CwDecoderLogic) : List Char → Bool → List MorseElements
  | [], _ => []
  | ch :: rest, marked =>
    if isspace ch then MorseElements.WordSpace :: textElems D rest marked
    else
      match D.LookupChar ch with
      | none => textElems D rest marked
      | some (pattern, patLen) =>
        bitElems pattern patLen 1 marked ++
          MorseElements.DashSpace :: textElems D rest (marked || decide (patLen ≠ 0))

/-- The scan of `Lookup(byte, byte)` over a list of rows: `none` when the rows run out,
`some none` when a row of another length ends the scan, `some (some c)` on a match. -/
def lookupIn (symbol sLen : Nat) : List Row → Option (Option Char)
  | [] => none
  | entry :: rest =>
    if entry.len ≠ sLen then some none
    else if entry.pattern = symbol then some (some entry.value)
    else lookupIn symbol sLen rest

/-- The value `Lookup(byte, byte)` returns for an outcome of `lookupIn`. -/
def lookupResult (errorSymbol : Char) : Option (Option Char) → Char
  | some (some c) => c
  | _ => errorSymbol

/-- The scan of `Lookup(char, byte&, byte&)` over a list of rows. -/
def lookupCharIn (ch : Char) (rows : List Row) : Option (Nat × Nat) :=
  (rows.find? (fun r => decide (r.value = ch))).map (fun r => (r.pattern, r.len))

/-- Assignment to the public field `ErrorSymbol`. -/
def withErrorSymbol (D : CwDecoderLogic) (e : Char) : CwDecoderLogic :=
  { D with ErrorSymbol := e }

/-- Dots and dashes. -/
def isMark : MorseElements → Bool
  | .Dot => true
  | .Dash => true
  | _ => false

/-- The elements that end the scan of a pass of `Decode`: `DashSpace` and `WordSpace`. -/
def isBoundary : MorseElements → Bool
  | .DashSpace => true
  | .WordSpace => true
  | _ => false

/-- The shift register after the marks of a list of elements, from a mask and a symbol. -/
def patternOf : List MorseElements → Nat → Nat → Nat
  | [], _, symbol => symbol
  | .Dot :: rest, mask, symbol => patternOf rest ((mask * 2) % 256) symbol
  | .Dash :: rest, mask, symbol => patternOf rest ((mask * 2) % 256) (symbol ||| mask)
  | _ :: rest, mask, symbol => patternOf rest mask symbol

/-- The mask after the marks of a list of elements. -/
def maskOf : List MorseElements → Nat → Nat
  | [], mask => mask
  | .Dot :: rest, mask => maskOf rest ((mask * 2) % 256)
  | .Dash :: rest, mask => maskOf rest ((mask * 2) % 256)
  | _ :: rest, mask => maskOf rest mask

/-- The number of marks in a list of elements. -/
def markCount (xs : List MorseElements) : Nat := (xs.filter isMark).length

/-- The marks of a dot/dash literal. -/
def literalMarks (sPattern : String) : List MorseElements :=
  sPattern.toList.map (fun c => if c = '-' then MorseElements.Dash else MorseElements.Dot)

/-- A list of marks with a `DotSpace` between successive marks wherever the flag at that
position is set. -/
def gapped : List MorseElements → List Bool → List MorseElements
  | [], _ => []
  | [m], _ => [m]
  | m :: m' :: ms, [] => m :: gapped (m' :: ms) []
  | m :: m' :: ms, g :: gs =>
    m :: ((if g then [MorseElements.DotSpace] else []) ++ gapped (m' :: ms) gs)

/-- `Decode` with the fuel one pass more than the queue length. -/
def decodeRun (D : CwDecoderLogic) (rxBuffer : CircularBuffer MorseElements)
    (buffer : List Char) : Option (Nat × List Char × CircularBuffer MorseElements) :=
  decodeLoop D (rxBuffer.items.length + 1) rxBuffer buffer

/-- The character one pass writes for a symbol with at least one bit. -/
def emitChar (D : CwDecoderLogic) (symbol bits : Nat) : List Char :=
  if D.Lookup symbol bits ≠ Char.ofNat 0 then [D.Lookup symbol bits] else []

/-- The row of the table with a given length and pattern, if there is one. -/
def findRow (sLen symbol : Nat) : Option Row :=
  tableRows.find? (fun r => decide (r.len = sLen) && decide (r.pattern = symbol))

/-- The value of `marked` after `Encode` has gone through a text. -/
def markedAfter (D : CwDecoderLogic) : List Char → Bool → Bool
  | [], marked => marked
  | ch :: rest, marked =>
    if isspace ch then markedAfter D rest marked
    else
      match D.LookupChar ch with
      | none => markedAfter D rest marked
      | some (_, patLen) => markedAfter D rest (marked || decide (patLen ≠ 0))

/-- The marks of a pattern of `len` bits, least-significant bit first: a `Dash` for a set
bit, a `Dot` for a clear bit. -/
def patternMarks (pattern len : Nat) : List MorseElements :=
  (List.range len).map (fun j => if pattern.testBit j then MorseElements.Dash else MorseElements.Dot)

/-- The characters of a text that `Encode` counts. -/
def counted (D : CwDecoderLogic) (ch : Char) : Bool :=
  isspace ch || (D.LookupChar ch).isSome

/-- The number of passes of the `do ... while (done)` loop of `Decode`, at most `fuel`. -/
def passCount (D : CwDecoderLogic) : Nat → CircularBuffer MorseElements → Option Nat
  | 0, _ => none
  | fuel + 1, rxBuffer =>
    let s := scanLoop D rxBuffer.items Scan.reset
    if s.done then (passCount D fuel (rxBuffer.RemoveItems s.count)).map (fun p => p + 1)
    else some 1

/-- The slot indices `i` of the reads `m_Mapping[i]` the scan of `Lookup(byte, byte)` makes,
in order. -/
def lookupLoopReads (D : CwDecoderLogic) (symbol sLen : Nat) : Nat → Nat → List Nat
  | 0, _ => []
  | n + 1, i =>
    let entry := D.m_Mapping.getD i nullRow
    i :: (if entry.len ≠ sLen then []
      else if entry.pattern = symbol then []
      else lookupLoopReads D symbol sLen n (i + 1))

/-- The slot indices `Lookup(byte symbol, byte sLen)` reads. -/
def LookupReads (D : CwDecoderLogic) (symbol sLen : Nat) : List Nat :=
  if sLen ≤ 0 ∨ sLen > D.m_MaxElements then []
  else
    lookupLoopReads D symbol sLen (D.m_MappingLength - D.m_Hashes.getD (sLen - 1) 0)
      (D.m_Hashes.getD (sLen - 1) 0)

/-- The slot indices the scan of `Lookup(char, byte&, byte&)` reads, in order. -/
def lookupCharLoopReads (D : CwDecoderLogic) (ch : Char) : Nat → Nat → List Nat
  | 0, _ => []
  | n + 1, i =>
    i :: (if (D.m_Mapping.getD i nullRow).value = ch then []
      else lookupCharLoopReads D ch n (i + 1))

/-- The slot indices `Lookup(char ch, byte &pattern, byte &length)` reads. -/
def LookupCharReads (D : CwDecoderLogic) (ch : Char) : List Nat :=
  lookupCharLoopReads D ch D.m_MappingLength 0

/-- The slot indices each of the two constructor loops
`for (int i = 0; i != m_MappingLength; ++i)` reads. -/
def constructorReads (D : CwDecoderLogic) : List Nat := List.range D.m_MappingLength

end CwDecoderLogic

/-- Unassigned slots of which the first, slot 39, holds the bytes `{1, 0, '#'}` and the
others hold zero bytes. -/
def hashSlots : Nat → Row := fun k => if k = 0 then { len := 1, pattern := 0, value := '#' } else nullRow

/-- Unassigned slots of which the first, slot 39, holds the bytes `{6, 0, ' '}` and the
others hold zero bytes. -/
def spaceSlots : Nat → Row :=
  fun k => if k = 0 then { len := 6, pattern := 0, value := ' ' } else nullRow

/-- Unassigned slots of which the first, slot 39, holds the row of the 7-element literal
`"...-..-"` for '$' (a `MakeTableEntry` call the constructor has in a comment) and the
others hold zero bytes. -/
def longSlots : Nat → Row :=
  fun k => if k = 0 then MakeTableEntry "...-..-" '$' else nullRow

/-- The characters of the round-trip property: A-Z, 0-9, space, period and comma. -/
def roundTripAlphabet : List Char := "ABCDEFGHIJKLMNOPQRSTUVWXYZ0123456789 .,".toList

/-- Classification of a pulse in the words of the spec: short up to `maxDot` units, a word
gap for a gap of at least `minWord` units, long otherwise. -/
def classifySpec (duration : Nat) (mark : Bool) (unit maxDot minWord : ℚ) : MorseElements :=
  if (duration : ℚ) ≤ maxDot * unit then (if mark then .Dot else .DotSpace)
  else if mark = false ∧ (duration : ℚ) ≥ minWord * unit then .WordSpace
  else (if mark then .Dash else .DashSpace)

/-- The number of dot units `Encode` gives an element. -/
def dotUnits : MorseElements → Nat
  | .Dot => 1
  | .DotSpace => 1
  | .Dash => 3
  | .DashSpace => 3
  | .WordSpace => 5

namespace CwTimingLogic

/-- The state after a list of raw elements has been processed, one after the other. -/
def track (T : CwTimingLogic) (pulses : List CwElement) : CwTimingLogic :=
  pulses.foldl processPulse T

/-- The elements `Decode` adds for a list of raw elements, from a given state. -/
def classified : CwTimingLogic → List CwElement → List MorseElements
  | _, [] => []
  | T, element :: rest =>
    ((T.processPulse element).classify element).1 :: classified (T.processPulse element) rest

/-- The value of `space` after a list of raw elements, from a given state. -/
def spaceAfter : CwTimingLogic → List CwElement → Bool
  | _, [] => false
  | T, element :: rest =>
    ((T.processPulse element).classify element).2 || spaceAfter (T.processPulse element) rest

/-- Assignment to the public tunables `MaximumDotLength`, `MinimumWordSpace`, `MinimumMark`
and `MaximumMark`. -/
def setTunables (T : CwTimingLogic) (maxDot minWord minMark maxMark : ℚ) : CwTimingLogic :=
  { T with
    MaximumDotLength := maxDot
    MinimumWordSpace := minWord
    MinimumMark := minMark
    MaximumMark := maxMark }

/-- The states reachable from the constructor with a boxcar length of at least 1, through
`Decode`, the WPM setters, the mode setters, `MinimumAverageDistance(x)`,
`BoxCarLength(n)` with `n ≥ 1`, and assignments to the public tunables. -/
inductive Reachable : CwTimingLogic → Prop
  | new (dotLength : ℚ) (bcLength : Nat) (rx0 tx0 : ℚ) (h : 1 ≤ bcLength) :
      Reachable (CwTimingLogic.new dotLength bcLength rx0 tx0)
  | Decode (T : CwTimingLogic) (raw : CircularBuffer CwElement)
      (result : CircularBuffer MorseElements) : Reachable T → Reachable (T.Decode raw result).1
  | RxWPM (T : CwTimingLogic) (wpm : Int) : Reachable T → Reachable (T.RxWPM wpm)
  | TxWPM (T : CwTimingLogic) (wpm : Int) : Reachable T → Reachable (T.TxWPM wpm)
  | RxMode (T : CwTimingLogic) (src : SpeedSources) : Reachable T → Reachable (T.RxMode src)
  | TxMode (T : CwTimingLogic) (src : SpeedSources) : Reachable T → Reachable (T.TxMode src)
  | setMinimumAverageDistance (T : CwTimingLogic) (mad : ℚ) :
      Reachable T → Reachable (T.setMinimumAverageDistance mad)
  | setBoxCarLength (T : CwTimingLogic) (bcLength : Nat) (h : 1 ≤ bcLength) :
      Reachable T → Reachable (T.setBoxCarLength bcLength)
  | setTunables (T : CwTimingLogic) (maxDot minWord minMark maxMark : ℚ) :
      Reachable T → Reachable (T.setTunables maxDot minWord minMark maxMark)

/-- The boxcar invariant: `N ≥ 1` entries, the sum is the sum of the entries, the average is
the sum over `N`, the dot length is half the average, the write index is below `N`. -/
def BoxCarInv (T : CwTimingLogic) : Prop :=
  1 ≤ T.m_BoxCarSize ∧
    T.m_BoxCar.length = T.m_BoxCarSize ∧
    T.m_BoxCarSum = T.m_BoxCar.sum ∧
    T.m_BoxCarAverage = T.m_BoxCarSum / T.m_BoxCarSize ∧
    T.m_DotLength = T.m_BoxCarAverage / 2 ∧
    T.m_BoxCarIndex < T.m_BoxCarSize

/-- The safety gap is the product of the minimum average distance and the average,
truncated to an `int`. -/
def GapInv (T : CwTimingLogic) : Prop :=
  T.m_SafetyGap = truncToInt (T.m_MinimumAverageDistance * T.m_BoxCarAverage)

/-- The boxcar as natural numbers with its write index, for a boxcar of length 8, the
minimum average distance 35/100 and the mark range from 0 to `FLT_MAX`: the effect of one
mark of length `L`. The safety gap is `⌊35/100 * (sum / 8)⌋ = 7 * sum / 160`. -/
def natStep (s : List Nat × Nat) (L : Nat) : List Nat × Nat :=
  if 0 < L ∧ (8 * L + 8 * (7 * s.1.sum / 160) < s.1.sum ∨
      s.1.sum + 8 * (7 * s.1.sum / 160) < 8 * L) then
    (s.1.set s.2 L, (s.2 + 1) % 8)
  else s

/-- The state `T` has the boxcar `s.1` and the write index `s.2`, the derived fields agree
with them, and the constants are those `natStep` assumes. -/
def Tracks (T : CwTimingLogic) (s : List Nat × Nat) : Prop :=
  T.m_BoxCarSize = 8 ∧ T.m_MinimumAverageDistance = 35 / 100 ∧ T.MinimumMark = 0 ∧
    T.MaximumMark = FLT_MAX ∧ s.1.length = 8 ∧ s.2 < 8 ∧
    T.m_BoxCar = s.1.map (fun (n : Nat) => (n : ℚ)) ∧ T.m_BoxCarIndex = s.2 ∧
    T.m_BoxCarSum = (s.1.sum : ℚ) ∧ T.m_BoxCarAverage = (s.1.sum : ℚ) / 8 ∧
    T.m_DotLength = (s.1.sum : ℚ) / 16 ∧ T.m_SafetyGap = ((7 * s.1.sum / 160 : ℕ) : ℤ)

/-- The effect of one raw element on the boxcar as natural numbers: a gap leaves it as it
is. -/
def natPulse (s : List Nat × Nat) (e : CwElement) : List Nat × Nat :=
  if e.Mark then natStep s e.Length else s

/-- The number of raw elements of a list that are written into the boxcar, from a given
state. -/
def pushCount : CwTimingLogic → List CwElement → Nat
  | _, [] => 0
  | T, e :: rest => (if T.qualifies e then 1 else 0) + pushCount (T.processPulse e) rest

/-- The number of raw elements of a list that change the boxcar as natural numbers by
`natStep`. -/
def natCount : List Nat × Nat → List CwElement → Nat
  | _, [] => 0
  | s, e :: rest =>
    (if e.Mark = true ∧ 0 < e.Length ∧ (8 * e.Length + 8 * (7 * s.1.sum / 160) < s.1.sum ∨
        s.1.sum + 8 * (7 * s.1.sum / 160) < 8 * e.Length) then 1 else 0) +
      natCount (natPulse s e) rest

/-- The boxcar as natural numbers after `k` marks of length `3 * d` were written into a
boxcar whose entries were all `2 * d`: the sum is `(16 + k) * d`, at most 5 marks were
written, and the `8 - k` entries from the write index on are still `2 * d`. -/
def Locked (d k : Nat) (s : List Nat × Nat) : Prop :=
  s.1.length = 8 ∧ s.2 < 8 ∧ s.1.sum = (16 + k) * d ∧ k ≤ 5 ∧
    ∀ m, m < 8 - k → s.1.getD ((s.2 + m) % 8) 0 = 2 * d

/-- Eight dot marks of a stream with the true dot length 1000 ms, separated by gaps of one
dot length: six of 900 ms, one of 912 ms and one of 1100 ms. -/
def dotStream : List CwElement :=
  [ CwElement.mk 900 true, CwElement.mk 1000 false, CwElement.mk 900 true,
    CwElement.mk 1000 false, CwElement.mk 900 true, CwElement.mk 1000 false,
    CwElement.mk 900 true, CwElement.mk 1000 false, CwElement.mk 900 true,
    CwElement.mk 1000 false, CwElement.mk 900 true, CwElement.mk 1000 false,
    CwElement.mk 912 true, CwElement.mk 1000 false, CwElement.mk 1100 true ]

end CwTimingLogic

/-! ## Properties -/

namespace CircularBuffer

variable {α : Type}

theorem addAll_nil (b : CircularBuffer α) : b.addAll [] = b := rfl

theorem addAll_cons (b : CircularBuffer α) (x : α) (xs : List α) :
    b.addAll (x :: xs) = (b.Add x).addAll xs := rfl

theorem addAll_append (b : CircularBuffer α) (xs ys : List α) :
    b.addAll (xs ++ ys) = (b.addAll xs).addAll ys := by
  simp [addAll, List.foldl_append]

theorem capacity_Add (b : CircularBuffer α) (x : α) : (b.Add x).capacity = b.capacity := by
  unfold Add; split <;> rfl

theorem capacity_addAll (b : CircularBuffer α) (xs : List α) :
    (b.addAll xs).capacity = b.capacity := by
  induction xs generalizing b with
  | nil => rfl
  | cons x xs ih => rw [addAll_cons, ih, capacity_Add]

theorem Full_eq_false_iff (b : CircularBuffer α) :
    b.Full = false ↔ b.items.length < b.capacity := by
  simp [Full]

theorem items_Add_of_lt (b : CircularBuffer α) (x : α) (h : b.items.length < b.capacity) :
    (b.Add x).items = b.items ++ [x] := by
  have hf : b.Full = false := (Full_eq_false_iff b).2 h
  simp [Add, hf]

theorem length_items_Add_ge (b : CircularBuffer α) (x : α) :
    b.items.length ≤ (b.Add x).items.length := by
  unfold Add; split <;> simp

theorem length_items_addAll_ge (b : CircularBuffer α) (xs : List α) :
    b.items.length ≤ (b.addAll xs).items.length := by
  induction xs generalizing b with
  | nil => exact le_refl _
  | cons x xs ih => exact le_trans (length_items_Add_ge b x) (ih (b.Add x))

/-- With room for all of them, `addAll` appends the items in order. -/
theorem items_addAll_of_room (b : CircularBuffer α) (xs : List α)
    (h : b.items.length + xs.length ≤ b.capacity) :
    (b.addAll xs).items = b.items ++ xs := by
  induction xs generalizing b with
  | nil => simp [addAll_nil]
  | cons x xs ih =>
    have hlt : b.items.length < b.capacity := by simp at h; omega
    have hx := items_Add_of_lt b x hlt
    rw [addAll_cons, ih (b.Add x) (by rw [hx, capacity_Add]; simp at h ⊢; omega), hx]
    simp

theorem addAll_eq_of_room (b : CircularBuffer α) (xs : List α)
    (h : b.items.length + xs.length ≤ b.capacity) :
    b.addAll xs = { items := b.items ++ xs, capacity := b.capacity } := by
  have h1 := items_addAll_of_room b xs h
  have h2 := capacity_addAll b xs
  cases hb : b.addAll xs with
  | mk items capacity => rw [hb] at h1 h2; simp only at h1 h2; rw [h1, h2]

/-- When the buffer is not full afterwards, `addAll` has appended the items in order. -/
theorem items_addAll_of_not_full (b : CircularBuffer α) (xs : List α)
    (h : (b.addAll xs).Full = false) :
    (b.addAll xs).items = b.items ++ xs := by
  induction xs generalizing b with
  | nil => simp [addAll_nil]
  | cons x xs ih =>
    rw [addAll_cons] at h ⊢
    have h1 := ih (b.Add x) h
    have hlt : b.items.length < b.capacity := by
      have h2 := (Full_eq_false_iff _).1 h
      rw [capacity_addAll, capacity_Add] at h2
      have h3 := length_items_addAll_ge (b.Add x) xs
      have h4 := length_items_Add_ge b x
      omega
    rw [h1, items_Add_of_lt b x hlt]
    simp

end CircularBuffer

/-! ### The constructed table -/

theorem length_tableRows : tableRows.length = 39 := by decide

theorem new_m_Mapping (u : Nat → Row) :
    (CwDecoderLogic.new u).m_Mapping = tableRows ++ (List.range 17).map u := rfl

theorem new_m_MappingLength (u : Nat → Row) : (CwDecoderLogic.new u).m_MappingLength = 56 := rfl

theorem new_ErrorSymbol (u : Nat → Row) : (CwDecoderLogic.new u).ErrorSymbol = '~' := rfl

theorem new_m_MaxElements (u : Nat → Row) :
    (CwDecoderLogic.new u).m_MaxElements =
      computeMaxElements (tableRows ++ (List.range 17).map u) 56 := rfl

theorem new_m_Hashes (u : Nat → Row) :
    (CwDecoderLogic.new u).m_Hashes =
      configureHashes (tableRows ++ (List.range 17).map u) 56
        (List.replicate (CwDecoderLogic.new u).m_MaxElements 0) := rfl

theorem length_new_m_Mapping (u : Nat → Row) : (CwDecoderLogic.new u).m_Mapping.length = 56 := by
  rw [new_m_Mapping, List.length_append, length_tableRows]; simp

theorem le_foldl_maxStep (mapping : List Row) (l : List Nat) (mx : Nat) :
    mx ≤ l.foldl (maxStep mapping) mx := by
  induction l generalizing mx with
  | nil => exact le_refl _
  | cons i l ih =>
    refine le_trans ?_ (ih _)
    unfold maxStep; split <;> omega

theorem len_le_foldl_maxStep (mapping : List Row) (l : List Nat) (mx i : Nat) (h : i ∈ l) :
    (mapping.getD i nullRow).len ≤ l.foldl (maxStep mapping) mx := by
  induction l generalizing mx with
  | nil => simp at h
  | cons j l ih =>
    rcases List.mem_cons.1 h with rfl | h
    · refine le_trans ?_ (le_foldl_maxStep mapping l _)
      unfold maxStep; split <;> omega
    · exact ih _ h

/-- Every slot length is at most the computed maximum. -/
theorem len_le_computeMaxElements (mapping : List Row) (n i : Nat) (h : i < n) :
    (mapping.getD i nullRow).len ≤ computeMaxElements mapping n :=
  len_le_foldl_maxStep mapping (List.range n) 0 i (List.mem_range.2 h)

/-- The maximum element size is at least 6, whatever the unassigned slots hold. -/
theorem six_le_m_MaxElements (u : Nat → Row) : 6 ≤ (CwDecoderLogic.new u).m_MaxElements := by
  have h := len_le_computeMaxElements (tableRows ++ (List.range 17).map u) 56 37 (by omega)
  rw [new_m_MaxElements]
  exact h

theorem take_six_hashStep (mapping : List Row) (hashes : List Nat) (i : Nat) :
    (hashStep mapping hashes i).take 6 = hashStep mapping (hashes.take 6) i := by
  unfold hashStep
  generalize (mapping.getD i nullRow).len = L
  by_cases hlt : L - 1 < 6
  · have hg : (hashes.take 6).getD (L - 1) 0 = hashes.getD (L - 1) 0 := by
      simp only [List.getD_eq_getElem?_getD, List.getElem?_take_of_lt hlt]
    rw [hg]
    split
    · rw [List.set_take]
    · rfl
  · have hlen : (hashes.take 6).length ≤ L - 1 := by
      simp only [List.length_take]; omega
    rw [List.set_eq_of_length_le hlen]
    split
    · rw [List.set_take, List.set_eq_of_length_le hlen]; simp
    · simp

theorem take_six_foldl_hashStep (mapping : List Row) (l : List Nat) (hashes : List Nat) :
    (l.foldl (hashStep mapping) hashes).take 6 = l.foldl (hashStep mapping) (hashes.take 6) := by
  induction l generalizing hashes with
  | nil => rfl
  | cons i l ih => simp only [List.foldl_cons, ih, take_six_hashStep]

theorem hashStep_firstIndex (mapping : List Row) (i : Nat) :
    hashStep mapping firstIndex i = firstIndex := by
  unfold hashStep
  generalize (mapping.getD i nullRow).len = L
  split
  · next h =>
    obtain ⟨h1, h2⟩ := h
    by_cases hlt : L - 1 < 6
    · exfalso
      have : L = 2 ∨ L = 3 ∨ L = 4 ∨ L = 5 ∨ L = 6 := by omega
      rcases this with rfl | rfl | rfl | rfl | rfl <;> simp [firstIndex] at h2
    · exact List.set_eq_of_length_le (by simp [firstIndex]; omega)
  · rfl

theorem foldl_hashStep_firstIndex (mapping : List Row) (l : List Nat) :
    l.foldl (hashStep mapping) firstIndex = firstIndex := by
  induction l with
  | nil => rfl
  | cons i l ih => simp only [List.foldl_cons, hashStep_firstIndex, ih]

theorem getD_append_left (xs ys : List Row) (i : Nat) (h : i < xs.length) :
    (xs ++ ys).getD i nullRow = xs.getD i nullRow := by
  simp only [List.getD_eq_getElem?_getD, List.getElem?_append_left h]

theorem foldl_hashStep_append (xs ys : List Row) (l : List Nat) (hashes : List Nat)
    (h : ∀ i ∈ l, i < xs.length) :
    l.foldl (hashStep (xs ++ ys)) hashes = l.foldl (hashStep xs) hashes := by
  induction l generalizing hashes with
  | nil => rfl
  | cons i l ih =>
    have hi : i < xs.length := h i (List.mem_cons_self _ _)
    have hs : hashStep (xs ++ ys) hashes i = hashStep xs hashes i := by
      unfold hashStep; rw [getD_append_left xs ys i hi]
    simp only [List.foldl_cons, hs]
    exact ih _ (fun j hj => h j (List.mem_cons_of_mem _ hj))

set_option maxRecDepth 100000 in
theorem foldl_hashStep_tableRows :
    (List.range 39).foldl (hashStep tableRows) (List.replicate 6 0) = firstIndex := by
  decide

theorem foldl_hashStep_assigned (u : Nat → Row) :
    (List.range 39).foldl (hashStep (tableRows ++ (List.range 17).map u)) (List.replicate 6 0) =
      firstIndex := by
  rw [foldl_hashStep_append, foldl_hashStep_tableRows]
  intro i hi
  rw [length_tableRows]
  exact List.mem_range.1 hi

/-- The first six entries of the hashes table do not depend on the unassigned slots. -/
theorem take_six_m_Hashes (u : Nat → Row) : (CwDecoderLogic.new u).m_Hashes.take 6 = firstIndex := by
  rw [new_m_Hashes, configureHashes, take_six_foldl_hashStep]
  have h6 : (List.replicate (CwDecoderLogic.new u).m_MaxElements 0).take 6 = List.replicate 6 0 := by
    rw [List.take_replicate, Nat.min_eq_left (six_le_m_MaxElements u)]
  have hr : List.range 56 = List.range 39 ++ (List.range 17).map (fun k => 39 + k) := by decide
  rw [h6, hr, List.foldl_append, foldl_hashStep_assigned, foldl_hashStep_firstIndex]

theorem getD_m_Hashes (u : Nat → Row) (j : Nat) (hj : j < 6) :
    (CwDecoderLogic.new u).m_Hashes.getD j 0 = firstIndex.getD j 0 := by
  rw [← take_six_m_Hashes u]
  simp only [List.getD_eq_getElem?_getD, List.getElem?_take_of_lt hj]

namespace CwDecoderLogic

/-! ### The two lookups -/

theorem lookupLoop_eq (D : CwDecoderLogic) (symbol sLen n i : Nat)
    (h : i + n ≤ D.m_Mapping.length) :
    lookupLoop D symbol sLen n i =
      lookupResult D.ErrorSymbol (lookupIn symbol sLen ((D.m_Mapping.drop i).take n)) := by
  induction n generalizing i with
  | zero => simp [lookupLoop, lookupIn, lookupResult]
  | succ n ih =>
    have hi : i < D.m_Mapping.length := by omega
    rw [lookupLoop, List.drop_eq_getElem_cons hi, List.take_succ_cons, lookupIn,
      List.getD_eq_getElem _ _ hi]
    by_cases h1 : D.m_Mapping[i].len ≠ sLen
    · simp [h1, lookupResult]
    · by_cases h2 : D.m_Mapping[i].pattern = symbol
      · simp [h1, h2, lookupResult]
      · simp only [h1, h2, if_false]
        exact ih (i + 1) (by omega)

theorem lookupIn_append (symbol sLen : Nat) (xs ys : List Row) (r : Option Char)
    (h : lookupIn symbol sLen xs = some r) : lookupIn symbol sLen (xs ++ ys) = some r := by
  induction xs with
  | nil => simp [lookupIn] at h
  | cons x xs ih =>
    rw [List.cons_append, lookupIn]
    rw [lookupIn] at h
    by_cases h1 : x.len ≠ sLen
    · simpa [h1] using h
    · by_cases h2 : x.pattern = symbol
      · simpa [h1, h2] using h
      · simp only [h1, h2, if_false] at h ⊢
        exact ih h

theorem drop_take_new (u : Nat → Row) (h : Nat) (hh : h ≤ 39) :
    ((CwDecoderLogic.new u).m_Mapping.drop h).take (56 - h) =
      tableRows.drop h ++ (List.range 17).map u := by
  rw [new_m_Mapping, List.drop_append_of_le_length (by rw [length_tableRows]; exact hh)]
  apply List.take_of_length_le
  simp [length_tableRows]
  omega

/-- A pattern lookup that is settled within the assigned rows does not depend on the
unassigned slots. -/
theorem Lookup_new_of_lookupIn (u : Nat → Row) (e : Char) (symbol sLen : Nat) (r : Option Char)
    (h1 : 1 ≤ sLen) (h6 : sLen ≤ 6)
    (h : lookupIn symbol sLen (tableRows.drop (firstIndex.getD (sLen - 1) 0)) = some r) :
    Lookup ((CwDecoderLogic.new u).withErrorSymbol e) symbol sLen = lookupResult e (some r) := by
  have hM := six_le_m_MaxElements u
  have hg : ¬ (sLen ≤ 0 ∨ sLen > ((CwDecoderLogic.new u).withErrorSymbol e).m_MaxElements) := by
    simp only [withErrorSymbol]; omega
  have hh : firstIndex.getD (sLen - 1) 0 ≤ 39 := by
    have : sLen = 1 ∨ sLen = 2 ∨ sLen = 3 ∨ sLen = 4 ∨ sLen = 5 ∨ sLen = 6 := by omega
    rcases this with rfl | rfl | rfl | rfl | rfl | rfl <;> simp [firstIndex]
  rw [Lookup, if_neg hg]
  have hH : ((CwDecoderLogic.new u).withErrorSymbol e).m_Hashes.getD (sLen - 1) 0 =
      firstIndex.getD (sLen - 1) 0 := getD_m_Hashes u (sLen - 1) (by omega)
  rw [hH, lookupLoop_eq]
  · have hd := drop_take_new u _ hh
    simp only [withErrorSymbol, new_m_MappingLength] at hd ⊢
    rw [hd, lookupIn_append _ _ _ _ _ h]
  · have := length_new_m_Mapping u
    simp only [withErrorSymbol, new_m_MappingLength] at this ⊢
    omega

theorem lookupCharLoop_eq (D : CwDecoderLogic) (ch : Char) (n i : Nat)
    (h : i + n ≤ D.m_Mapping.length) :
    lookupCharLoop D ch n i = lookupCharIn ch ((D.m_Mapping.drop i).take n) := by
  induction n generalizing i with
  | zero => simp [lookupCharLoop, lookupCharIn]
  | succ n ih =>
    have hi : i < D.m_Mapping.length := by omega
    rw [lookupCharLoop, List.drop_eq_getElem_cons hi, List.take_succ_cons,
      List.getD_eq_getElem _ _ hi]
    by_cases h1 : D.m_Mapping[i].value = ch
    · simp [h1, lookupCharIn]
    · simp only [h1, if_false]
      rw [ih (i + 1) (by omega)]
      simp [lookupCharIn, List.find?_cons, h1]

theorem LookupChar_new (u : Nat → Row) (e : Char) (ch : Char) :
    LookupChar ((CwDecoderLogic.new u).withErrorSymbol e) ch =
      lookupCharIn ch (tableRows ++ (List.range 17).map u) := by
  rw [LookupChar, lookupCharLoop_eq]
  · have hd := drop_take_new u 0 (by omega)
    simp only [withErrorSymbol, new_m_MappingLength, List.drop_zero] at hd ⊢
    rw [hd]
  · have := length_new_m_Mapping u
    simp only [withErrorSymbol, new_m_MappingLength] at this ⊢
    omega

/-- A character lookup that succeeds within the assigned rows does not depend on the
unassigned slots. -/
theorem LookupChar_new_of_lookupCharIn (u : Nat → Row) (e : Char) (ch : Char) (r : Nat × Nat)
    (h : lookupCharIn ch tableRows = some r) :
    LookupChar ((CwDecoderLogic.new u).withErrorSymbol e) ch = some r := by
  rw [LookupChar_new]
  unfold lookupCharIn at h ⊢
  rw [List.find?_append]
  cases hf : tableRows.find? (fun r => decide (r.value = ch)) with
  | none => simp [hf] at h
  | some x => simpa [hf] using h

theorem withErrorSymbol_self (u : Nat → Row) :
    (CwDecoderLogic.new u).withErrorSymbol '~' = CwDecoderLogic.new u := rfl

/-! ### The scan of one pass of `Decode` -/

theorem count_scanElement (x : MorseElements) (s : Scan) : (scanElement x s).count = s.count := by
  cases x <;> rfl

theorem count_scanBody (D : CwDecoderLogic) (x : MorseElements) (s : Scan) :
    (scanBody D x s).count = s.count + 1 := by
  unfold scanBody
  simp only
  split <;> simp [count_scanElement]

theorem scanLoop_count_le (D : CwDecoderLogic) (xs : List MorseElements) (s : Scan) :
    (scanLoop D xs s).count ≤ s.count + xs.length := by
  induction xs generalizing s with
  | nil => simp [scanLoop]
  | cons x xs ih =>
    rw [scanLoop]
    split
    · rw [count_scanBody, List.length_cons]; omega
    · refine le_trans (ih _) ?_
      rw [count_scanBody, List.length_cons]; omega

theorem scanLoop_count_lt (D : CwDecoderLogic) (xs : List MorseElements) (s : Scan)
    (h : (scanLoop D xs s).done = true) (hs : s.done = false) :
    s.count < (scanLoop D xs s).count := by
  induction xs generalizing s with
  | nil => simp [scanLoop, hs] at h
  | cons x xs ih =>
    rw [scanLoop] at h ⊢
    split
    · rw [count_scanBody]; omega
    · next hd =>
      simp only [hd, if_false, Bool.false_eq_true] at h
      have hd' : (scanBody D x s).done = false := by
        cases hb : (scanBody D x s).done
        · rfl
        · exact absurd hb hd
      have := ih _ h hd'
      rw [count_scanBody] at this
      omega

/-! ### Scanning a run of marks and short gaps -/

theorem patternOf_append (xs ys : List MorseElements) (mask symbol : Nat) :
    patternOf (xs ++ ys) mask symbol = patternOf ys (maskOf xs mask) (patternOf xs mask symbol) := by
  induction xs generalizing mask symbol with
  | nil => rfl
  | cons x xs ih => cases x <;> simp [patternOf, maskOf, ih]

theorem markCount_nil : markCount [] = 0 := rfl

theorem markCount_cons (x : MorseElements) (xs : List MorseElements) :
    markCount (x :: xs) = (if isMark x then 1 else 0) + markCount xs := by
  unfold markCount
  cases h : isMark x <;> simp [List.filter_cons, h]; omega

theorem markCount_append (xs ys : List MorseElements) :
    markCount (xs ++ ys) = markCount xs + markCount ys := by
  simp [markCount, List.filter_append]

theorem markCount_le_length (xs : List MorseElements) : markCount xs ≤ xs.length :=
  List.length_filter_le _ _

theorem scanLoop_run (D : CwDecoderLogic) (xs tail : List MorseElements) (s : Scan)
    (hx : ∀ x ∈ xs, isBoundary x = false) (hd : s.done = false)
    (hM : s.bits + markCount xs < D.m_MaxElements) (h256 : s.bits + markCount xs < 256) :
    scanLoop D (xs ++ tail) s =
      scanLoop D tail
        { count := s.count + xs.length
          symbol := patternOf xs s.mask s.symbol
          mask := maskOf xs s.mask
          bits := s.bits + markCount xs
          done := false
          word := s.word } := by
  induction xs generalizing s with
  | nil =>
    obtain ⟨c, sy, m, b, d, w⟩ := s
    simp only at hd
    simp [patternOf, maskOf, markCount_nil, hd]
  | cons x xs ih =>
    have hx' : ∀ y ∈ xs, isBoundary y = false := fun y hy => hx y (List.mem_cons_of_mem _ hy)
    have hb := hx x (List.mem_cons_self _ _)
    rw [markCount_cons] at hM h256
    obtain ⟨c, sy, m, b, d, w⟩ := s
    simp only at hd hM h256
    subst hd
    rw [List.cons_append, scanLoop]
    cases x with
    | DashSpace => simp [isBoundary] at hb
    | WordSpace => simp [isBoundary] at hb
    | DotSpace =>
      simp only [isMark, Bool.false_eq_true, if_false, Nat.zero_add] at hM h256
      have hlt : ¬ (b ≥ D.m_MaxElements) := by omega
      simp only [scanBody, scanElement, hlt, if_false, Bool.false_eq_true]
      rw [ih _ hx' rfl (by simpa using hM) (by simpa using h256)]
      simp [patternOf, maskOf, markCount_cons, isMark, Nat.add_assoc, Nat.add_comm,
        Nat.add_left_comm]
    | Dot =>
      simp only [isMark, if_true] at hM h256
      have hmod : (b + 1) % 256 = b + 1 := Nat.mod_eq_of_lt (by omega)
      have hlt : ¬ (b + 1 ≥ D.m_MaxElements) := by omega
      simp only [scanBody, scanElement, hmod, hlt, if_false, Bool.false_eq_true]
      rw [ih _ hx' rfl (by simp only; omega) (by simp only; omega)]
      simp [patternOf, maskOf, markCount_cons, isMark, Nat.add_assoc, Nat.add_comm,
        Nat.add_left_comm]
    | Dash =>
      simp only [isMark, if_true] at hM h256
      have hmod : (b + 1) % 256 = b + 1 := Nat.mod_eq_of_lt (by omega)
      have hlt : ¬ (b + 1 ≥ D.m_MaxElements) := by omega
      simp only [scanBody, scanElement, hmod, hlt, if_false, Bool.false_eq_true]
      rw [ih _ hx' rfl (by simp only; omega) (by simp only; omega)]
      simp [patternOf, maskOf, markCount_cons, isMark, Nat.add_assoc, Nat.add_comm,
        Nat.add_left_comm]

theorem scanLoop_boundary (D : CwDecoderLogic) (b : MorseElements) (tail : List MorseElements)
    (s : Scan) (hb : isBoundary b = true) :
    scanLoop D (b :: tail) s =
      { s with count := s.count + 1, done := true,
               word := s.word || decide (b = MorseElements.WordSpace) } := by
  rw [scanLoop]
  cases b with
  | DashSpace => simp only [scanBody, scanElement]; split <;> simp
  | WordSpace => simp only [scanBody, scanElement]; split <;> simp
  | DotSpace => simp [isBoundary] at hb
  | Dot => simp [isBoundary] at hb
  | Dash => simp [isBoundary] at hb

theorem scanLoop_forced (D : CwDecoderLogic) (m : MorseElements) (tail : List MorseElements)
    (s : Scan) (hm : isMark m = true) (hM : D.m_MaxElements ≤ s.bits + 1)
    (h256 : s.bits + 1 < 256) :
    scanLoop D (m :: tail) s =
      { count := s.count + 1
        symbol := patternOf [m] s.mask s.symbol
        mask := maskOf [m] s.mask
        bits := s.bits + 1
        done := true
        word := s.word } := by
  have hmod : (s.bits + 1) % 256 = s.bits + 1 := Nat.mod_eq_of_lt h256
  rw [scanLoop]
  cases m with
  | Dot => simp [scanBody, scanElement, hmod, hM, patternOf, maskOf]
  | Dash => simp [scanBody, scanElement, hmod, hM, patternOf, maskOf]
  | DotSpace => simp [isMark] at hm
  | DashSpace => simp [isMark] at hm
  | WordSpace => simp [isMark] at hm

/-! ### The outer loop of `Decode` -/

/-- A pass that reads an entire symbol removes at least one item. -/
theorem length_RemoveItems_scan (D : CwDecoderLogic) (rxBuffer : CircularBuffer MorseElements)
    (h : (scanLoop D rxBuffer.items Scan.reset).done = true) :
    (rxBuffer.RemoveItems (scanLoop D rxBuffer.items Scan.reset).count).items.length + 1 ≤
      rxBuffer.items.length := by
  have hlt := scanLoop_count_lt D rxBuffer.items Scan.reset h rfl
  have hle := scanLoop_count_le D rxBuffer.items Scan.reset
  have h0 : Scan.reset.count = 0 := rfl
  simp only [CircularBuffer.RemoveItems, List.length_drop]
  omega

theorem decodeLoop_fuel (D : CwDecoderLogic) (fuel : Nat) :
    ∀ (rxBuffer : CircularBuffer MorseElements) (buffer : List Char),
      rxBuffer.items.length + 1 ≤ fuel →
        decodeLoop D fuel rxBuffer buffer = decodeRun D rxBuffer buffer := by
  induction fuel using Nat.strong_induction_on with
  | _ fuel ih =>
    intro rxBuffer buffer hf
    cases fuel with
    | zero => omega
    | succ f =>
      rw [decodeRun, decodeLoop, decodeLoop]
      split
      · next hd =>
        have hlen := length_RemoveItems_scan D rxBuffer hd
        rw [ih f (by omega) _ _ (by omega), ih rxBuffer.items.length (by omega) _ _ hlen]
      · rfl

/-- A pass that reads an entire symbol: the scanned items are removed, the characters of
the pass are written, and the loop goes on. -/
theorem decodeRun_done (D : CwDecoderLogic) (rxBuffer : CircularBuffer MorseElements)
    (buffer : List Char) (h : (scanLoop D rxBuffer.items Scan.reset).done = true) :
    decodeRun D rxBuffer buffer =
      decodeRun D (rxBuffer.RemoveItems (scanLoop D rxBuffer.items Scan.reset).count)
        (buffer ++ emit D (scanLoop D rxBuffer.items Scan.reset)) := by
  have hlen := length_RemoveItems_scan D rxBuffer h
  conv_lhs => rw [decodeRun, decodeLoop]
  simp only [h, if_true]
  exact decodeLoop_fuel D _ _ _ hlen

/-- A pass that reads no entire symbol ends the loop. -/
theorem decodeRun_not_done (D : CwDecoderLogic) (rxBuffer : CircularBuffer MorseElements)
    (buffer : List Char) (h : (scanLoop D rxBuffer.items Scan.reset).done = false) :
    decodeRun D rxBuffer buffer = some (buffer.length, buffer, rxBuffer) := by
  rw [decodeRun, decodeLoop]
  simp [h]

theorem Decode_eq (D : CwDecoderLogic) (rxBuffer : CircularBuffer MorseElements) (buflen : Int) :
    Decode D rxBuffer buflen = decodeRun D rxBuffer [] := rfl

/-! ### Passes of `Decode` over a character group -/

theorem decodeRun_nil (D : CwDecoderLogic) (cap : Nat) (buffer : List Char) :
    decodeRun D { items := [], capacity := cap } buffer =
      some (buffer.length, buffer, { items := [], capacity := cap }) :=
  decodeRun_not_done D _ _ rfl

/-- A boundary element at the front of the queue is consumed by one pass, which writes a
space for a `WordSpace` and nothing for a `DashSpace`. -/
theorem decodeRun_boundary (D : CwDecoderLogic) (b : MorseElements) (tail : List MorseElements)
    (cap : Nat) (buffer : List Char) (hb : isBoundary b = true) :
    decodeRun D { items := b :: tail, capacity := cap } buffer =
      decodeRun D { items := tail, capacity := cap }
        (buffer ++ (if b = MorseElements.WordSpace then [' '] else [])) := by
  have hs := scanLoop_boundary D b tail Scan.reset hb
  have hd : (scanLoop D (b :: tail) Scan.reset).done = true := by rw [hs]
  rw [decodeRun_done D _ _ hd]
  simp only [hs, CircularBuffer.RemoveItems, emit]
  by_cases hw : b = MorseElements.WordSpace <;> simp [hw, Scan.reset]

/-- A run of marks and short gaps that ends in a mark, followed by a boundary element: the
passes of `Decode` consume the run and the boundary and write the character looked up for
the marks, then a space if the boundary is a `WordSpace`. -/
theorem decodeRun_group (D : CwDecoderLogic) (pre : List MorseElements) (m b : MorseElements)
    (tail : List MorseElements) (cap : Nat) (buffer : List Char)
    (hpre : ∀ x ∈ pre, isBoundary x = false) (hm : isMark m = true) (hb : isBoundary b = true)
    (hM : markCount (pre ++ [m]) ≤ D.m_MaxElements) (h256 : markCount (pre ++ [m]) < 256) :
    decodeRun D { items := pre ++ m :: b :: tail, capacity := cap } buffer =
      decodeRun D { items := tail, capacity := cap }
        (buffer ++ emitChar D (patternOf (pre ++ [m]) 1 0) (markCount (pre ++ [m])) ++
          (if b = MorseElements.WordSpace then [' '] else [])) := by
  have hmc : markCount (pre ++ [m]) = markCount pre + 1 := by
    rw [markCount_append, markCount_cons, markCount_nil, hm]; rfl
  have hmb : isBoundary m = false := by cases m <;> simp_all [isMark, isBoundary]
  rw [hmc] at hM h256
  by_cases hlt : markCount pre + 1 < D.m_MaxElements
  · -- the scan ends at the boundary element
    have hall : ∀ x ∈ pre ++ [m], isBoundary x = false := by
      intro x hx
      rcases List.mem_append.1 hx with h | h
      · exact hpre x h
      · rw [List.mem_singleton.1 h]; exact hmb
    have h1 := scanLoop_run D (pre ++ [m]) (b :: tail) Scan.reset hall rfl
      (by simp only [Scan.reset, hmc]; omega) (by simp only [Scan.reset, hmc]; omega)
    rw [scanLoop_boundary D b tail _ hb] at h1
    have hitems : pre ++ m :: b :: tail = (pre ++ [m]) ++ b :: tail := by simp
    have hd : (scanLoop D (pre ++ m :: b :: tail) Scan.reset).done = true := by
      rw [hitems, h1]
    rw [decodeRun_done D _ _ hd]
    simp only [hitems, h1, CircularBuffer.RemoveItems, emit]
    simp only [Scan.reset, hmc]
    have hdrop : List.drop (0 + (pre ++ [m]).length + 1) ((pre ++ [m]) ++ b :: tail) = tail := by
      have : 0 + (pre ++ [m]).length + 1 = ((pre ++ [m]) ++ [b]).length := by simp
      rw [this, show (pre ++ [m]) ++ b :: tail = ((pre ++ [m]) ++ [b]) ++ tail by simp,
        List.drop_left]
    rw [hdrop]
    simp [emitChar, List.append_assoc]
  · -- the scan is cut off at the last mark; the next pass consumes the boundary element
    have h1 := scanLoop_run D pre (m :: b :: tail) Scan.reset hpre rfl
      (by simp only [Scan.reset]; omega) (by simp only [Scan.reset]; omega)
    rw [scanLoop_forced D m (b :: tail) _ hm (by simp only [Scan.reset]; omega)
      (by simp only [Scan.reset]; omega)] at h1
    have hd : (scanLoop D (pre ++ m :: b :: tail) Scan.reset).done = true := by rw [h1]
    rw [decodeRun_done D _ _ hd]
    simp only [h1, CircularBuffer.RemoveItems, emit]
    simp only [Scan.reset]
    have hdrop : List.drop (0 + pre.length + 1) (pre ++ m :: b :: tail) = b :: tail := by
      have : 0 + pre.length + 1 = (pre ++ [m]).length := by simp
      rw [this, show pre ++ m :: b :: tail = (pre ++ [m]) ++ b :: tail by simp, List.drop_left]
    rw [hdrop, decodeRun_boundary D b tail cap _ hb, patternOf_append]
    simp [emitChar, hmc, List.append_assoc]

/-! ### Literals of the table -/

theorem gapped_cons_cons (m m' : MorseElements) (ms : List MorseElements) (gaps : List Bool) :
    gapped (m :: m' :: ms) gaps =
      m :: ((if gaps.headD false then [MorseElements.DotSpace] else []) ++
        gapped (m' :: ms) gaps.tail) := by
  cases gaps with
  | nil => simp [gapped]
  | cons g gs => simp [gapped]

theorem isBoundary_of_isMark (x : MorseElements) (h : isMark x = true) : isBoundary x = false := by
  cases x <;> simp_all [isMark, isBoundary]

/-- A gapped run of marks is a run of marks and short gaps that ends in a mark. -/
theorem gapped_decomp (ms : List MorseElements) (gaps : List Bool) (hne : ms ≠ [])
    (hms : ∀ x ∈ ms, isMark x = true) :
    ∃ pre m, gapped ms gaps = pre ++ [m] ∧ (∀ x ∈ pre, isBoundary x = false) ∧
      isMark m = true := by
  induction ms generalizing gaps with
  | nil => exact absurd rfl hne
  | cons m ms ih =>
    cases ms with
    | nil =>
      exact ⟨[], m, by simp [gapped], by simp, hms m (List.mem_cons_self _ _)⟩
    | cons m' ms =>
      obtain ⟨pre, l, h1, h2, h3⟩ := ih gaps.tail (by simp)
        (fun x hx => hms x (List.mem_cons_of_mem _ hx))
      refine ⟨m :: ((if gaps.headD false then [MorseElements.DotSpace] else []) ++ pre), l,
        ?_, ?_, h3⟩
      · rw [gapped_cons_cons, h1]; simp
      · intro x hx
        rcases List.mem_cons.1 hx with rfl | hx
        · exact isBoundary_of_isMark _ (hms _ (List.mem_cons_self _ _))
        · rcases List.mem_append.1 hx with hx | hx
          · split at hx
            · rw [List.mem_singleton.1 hx]; rfl
            · simp at hx
          · exact h2 x hx

theorem patternOf_gapped (ms : List MorseElements) (gaps : List Bool) (mask symbol : Nat) :
    patternOf (gapped ms gaps) mask symbol = patternOf ms mask symbol := by
  induction ms generalizing gaps mask symbol with
  | nil => simp [gapped]
  | cons m ms ih =>
    cases ms with
    | nil => simp [gapped]
    | cons m' ms =>
      rw [gapped_cons_cons]
      have h := fun mask symbol => ih gaps.tail mask symbol
      generalize gaps.headD false = g
      cases g <;> cases m <;> simp [patternOf, h]

theorem markCount_gapped (ms : List MorseElements) (gaps : List Bool) :
    markCount (gapped ms gaps) = markCount ms := by
  induction ms generalizing gaps with
  | nil => simp [gapped]
  | cons m ms ih =>
    cases ms with
    | nil => simp [gapped]
    | cons m' ms =>
      rw [gapped_cons_cons, markCount_cons, markCount_append, ih gaps.tail, markCount_cons m]
      generalize gaps.headD false = g
      cases g <;> simp [markCount, isMark]

theorem patternOf_literalMarks (cs : List Char) (mask symbol : Nat) :
    patternOf (cs.map (fun c => if c = '-' then MorseElements.Dash else MorseElements.Dot))
      mask symbol = makePattern cs mask symbol := by
  induction cs generalizing mask symbol with
  | nil => rfl
  | cons c cs ih =>
    by_cases hc : c = '-' <;> simp [hc, patternOf, makePattern, ih]

theorem markCount_literalMarks (sPattern : String) :
    markCount (literalMarks sPattern) = sPattern.toList.length := by
  unfold markCount literalMarks
  rw [List.filter_eq_self.2]
  · simp
  · intro x hx
    obtain ⟨c, _, rfl⟩ := List.mem_map.1 hx
    split <;> rfl

theorem isMark_literalMarks (sPattern : String) : ∀ x ∈ literalMarks sPattern, isMark x = true := by
  intro x hx
  obtain ⟨c, _, rfl⟩ := List.mem_map.1 hx
  split <;> rfl

set_option maxRecDepth 100000 in
/-- Every literal of the table has 1 to 6 marks and is found by the scan of the assigned
rows that starts at the first index of its length. -/
theorem tableLiterals_lookupIn :
    ∀ p ∈ tableLiterals, 1 ≤ p.1.toList.length ∧ p.1.toList.length ≤ 6 ∧
      lookupIn (makePattern p.1.toList 1 0) p.1.toList.length
        (tableRows.drop (firstIndex.getD (p.1.toList.length - 1) 0)) = some (some p.2) ∧
      p.2 ≠ Char.ofNat 0 := by
  decide

/-! ### The pattern lookup as a search of the table -/

theorem lookupIn_eq_find (symbol sLen : Nat) (rows : List Row)
    (h : ((rows.takeWhile (fun r => decide (r.len = sLen))).find?
        (fun r => decide (r.pattern = symbol))).isSome ∨
      (rows.takeWhile (fun r => decide (r.len = sLen))).length < rows.length) :
    lookupIn symbol sLen rows =
      some (((rows.takeWhile (fun r => decide (r.len = sLen))).find?
        (fun r => decide (r.pattern = symbol))).map Row.value) := by
  induction rows with
  | nil => simp at h
  | cons x rows ih =>
    rw [lookupIn]
    by_cases h1 : x.len = sLen
    · by_cases h2 : x.pattern = symbol
      · simp [h1, h2, List.takeWhile_cons, List.find?_cons]
      · simp only [h1, h2, List.takeWhile_cons, List.find?_cons, decide_True, decide_False,
          if_true, if_false, ne_eq, not_true_eq_false, List.length_cons] at h ⊢
        apply ih
        rcases h with h | h
        · exact Or.inl h
        · exact Or.inr (by omega)
    · simp [h1, List.takeWhile_cons]

set_option maxRecDepth 100000 in
/-- The rows of each length 1 to 6 are contiguous and start at the first index of the
length; for the lengths 1 to 5 a row of another length follows them. -/
theorem tableRows_sections :
    ∀ L ∈ [1, 2, 3, 4, 5, 6],
      (tableRows.drop (firstIndex.getD (L - 1) 0)).takeWhile (fun r => decide (r.len = L)) =
        tableRows.filter (fun r => decide (r.len = L)) ∧
      (L ≤ 5 → (tableRows.filter (fun r => decide (r.len = L))).length <
        (tableRows.drop (firstIndex.getD (L - 1) 0)).length) := by
  decide

theorem find?_filter_rows (rows : List Row) (p q : Row → Bool) :
    (rows.filter p).find? q = rows.find? (fun r => p r && q r) := by
  induction rows with
  | nil => rfl
  | cons x rows ih =>
    by_cases hp : p x = true
    · by_cases hq : q x = true
      · simp [List.filter_cons, List.find?_cons, hp, hq]
      · simp [List.filter_cons, List.find?_cons, hp, hq, ih]
    · simp [List.filter_cons, List.find?_cons, hp, ih]

/-- The pattern lookup for the lengths 1 to 5, and for the patterns of length 6 that are in
the table: the character of the row with that length and pattern, else the error symbol. -/
theorem Lookup_new_eq_findRow (u : Nat → Row) (e : Char) (symbol sLen : Nat) (h1 : 1 ≤ sLen)
    (h : sLen ≤ 5 ∨ (sLen = 6 ∧ (findRow sLen symbol).isSome)) :
    Lookup ((CwDecoderLogic.new u).withErrorSymbol e) symbol sLen =
      ((findRow sLen symbol).map Row.value).getD e := by
  have h6 : sLen ≤ 6 := by omega
  have hmem : sLen ∈ [1, 2, 3, 4, 5, 6] := by
    have : sLen = 1 ∨ sLen = 2 ∨ sLen = 3 ∨ sLen = 4 ∨ sLen = 5 ∨ sLen = 6 := by omega
    rcases this with rfl | rfl | rfl | rfl | rfl | rfl <;> simp
  obtain ⟨hsec, hshort⟩ := tableRows_sections sLen hmem
  have hfind : ((tableRows.drop (firstIndex.getD (sLen - 1) 0)).takeWhile
      (fun r => decide (r.len = sLen))).find? (fun r => decide (r.pattern = symbol)) =
      findRow sLen symbol := by
    rw [hsec, find?_filter_rows]; rfl
  have hl := lookupIn_eq_find symbol sLen (tableRows.drop (firstIndex.getD (sLen - 1) 0))
    (by
      rcases h with h | ⟨_, h⟩
      · right; rw [hsec]; exact hshort h
      · left; rw [hfind]; exact h)
  rw [hfind] at hl
  rw [Lookup_new_of_lookupIn u e symbol sLen _ h1 h6 hl]
  cases findRow sLen symbol <;> rfl

/-! ### The elements of a table row -/

theorem bitElems_succ (pattern n mask : Nat) (marked : Bool) :
    bitElems pattern (n + 1) mask marked =
      (if marked then [MorseElements.DotSpace] else []) ++
        (if pattern &&& mask ≠ 0 then MorseElements.Dash else MorseElements.Dot) ::
          bitElems pattern n ((mask * 2) % 256) true := rfl

theorem length_bitElems_le (pattern n mask : Nat) (marked : Bool) :
    (bitElems pattern n mask marked).length ≤ 2 * n := by
  induction n generalizing mask marked with
  | zero => simp [bitElems]
  | succ n ih =>
    rw [bitElems_succ]
    have := ih ((mask * 2) % 256) true
    cases marked <;> simp <;> omega

theorem markCount_bitElems (pattern n mask : Nat) (marked : Bool) :
    markCount (bitElems pattern n mask marked) = n := by
  induction n generalizing mask marked with
  | zero => simp [bitElems, markCount]
  | succ n ih =>
    have hmk : isMark (if pattern &&& mask ≠ 0 then MorseElements.Dash else MorseElements.Dot)
        = true := by split <;> rfl
    rw [bitElems_succ, markCount_append, markCount_cons, ih, hmk]
    cases marked <;> simp [markCount, isMark] <;> omega

/-- The elements of a pattern with at least one bit are a run of marks and short gaps that
ends in a mark. -/
theorem bitElems_decomp (pattern n mask : Nat) (marked : Bool) (hn : 1 ≤ n) :
    ∃ pre m, bitElems pattern n mask marked = pre ++ [m] ∧
      (∀ x ∈ pre, isBoundary x = false) ∧ isMark m = true := by
  induction n generalizing mask marked with
  | zero => omega
  | succ n ih =>
    rw [bitElems_succ]
    have hmk : isMark (if pattern &&& mask ≠ 0 then MorseElements.Dash else MorseElements.Dot)
        = true := by split <;> rfl
    have hgap : ∀ x ∈ (if marked then [MorseElements.DotSpace] else []), isBoundary x = false := by
      intro x hx
      cases marked
      · simp at hx
      · simp at hx; rw [hx]; rfl
    cases n with
    | zero =>
      refine ⟨(if marked then [MorseElements.DotSpace] else []), _, ?_, hgap, hmk⟩
      simp [bitElems]
    | succ k =>
      obtain ⟨pre, l, h1, h2, h3⟩ := ih ((mask * 2) % 256) true (by omega)
      refine ⟨(if marked then [MorseElements.DotSpace] else []) ++
        (if pattern &&& mask ≠ 0 then MorseElements.Dash else MorseElements.Dot) :: pre, l,
        ?_, ?_, h3⟩
      · rw [h1]; simp
      · intro x hx
        rcases List.mem_append.1 hx with hx | hx
        · exact hgap x hx
        · rcases List.mem_cons.1 hx with hx | hx
          · rw [hx]; exact isBoundary_of_isMark _ hmk
          · exact h2 x hx

set_option maxRecDepth 100000 in
/-- Every assigned row has 1 to 6 bits, is the first row with its character, is found by
the scan that starts at the first index of its length, and its character is not NUL. -/
theorem tableRows_lookups :
    ∀ r ∈ tableRows, 1 ≤ r.len ∧ r.len ≤ 6 ∧
      lookupCharIn r.value tableRows = some (r.pattern, r.len) ∧
      lookupIn r.pattern r.len (tableRows.drop (firstIndex.getD (r.len - 1) 0)) =
        some (some r.value) ∧
      r.value ≠ Char.ofNat 0 := by
  decide

set_option maxRecDepth 100000 in
/-- Scanning the elements `Encode` produces for a row gives back the pattern of the row. -/
theorem tableRows_patternOf :
    ∀ r ∈ tableRows, ∀ marked : Bool,
      patternOf (bitElems r.pattern r.len 1 marked) 1 0 = r.pattern := by
  decide

/-- The passes of `Decode` over the elements `Encode` produces for a row write the character
of the row. -/
theorem decodeRun_row (u : Nat → Row) (r : Row) (hr : r ∈ tableRows) (marked : Bool)
    (tail : List MorseElements) (cap : Nat) (buffer : List Char) :
    decodeRun (CwDecoderLogic.new u)
        { items := bitElems r.pattern r.len 1 marked ++ MorseElements.DashSpace :: tail,
          capacity := cap } buffer =
      decodeRun (CwDecoderLogic.new u) { items := tail, capacity := cap }
        (buffer ++ [r.value]) := by
  obtain ⟨h1, h6, -, hl, h0⟩ := tableRows_lookups r hr
  obtain ⟨pre, m, hg, hpre, hm⟩ := bitElems_decomp r.pattern r.len 1 marked h1
  have hcount : markCount (pre ++ [m]) = r.len := by rw [← hg, markCount_bitElems]
  have hpat : patternOf (pre ++ [m]) 1 0 = r.pattern := by
    rw [← hg]; exact tableRows_patternOf r hr marked
  have hM := six_le_m_MaxElements u
  have hlook : Lookup (CwDecoderLogic.new u) r.pattern r.len = r.value := by
    have := Lookup_new_of_lookupIn u '~' _ _ _ h1 h6 hl
    rw [withErrorSymbol_self] at this
    rw [this]; rfl
  rw [hg, List.append_assoc, List.singleton_append,
    decodeRun_group (CwDecoderLogic.new u) pre m MorseElements.DashSpace tail cap buffer hpre hm
      rfl (by rw [hcount]; omega) (by rw [hcount]; omega),
    hcount, hpat, emitChar, hlook]
  simp [h0]

/-! ### `Encode` as a list of elements -/

theorem encodeBits_eq (pattern n mask : Nat) (txBuffer : CircularBuffer MorseElements)
    (marked : Bool) :
    encodeBits pattern n mask txBuffer marked =
      (txBuffer.addAll (bitElems pattern n mask marked), marked || decide (n ≠ 0)) := by
  induction n generalizing mask txBuffer marked with
  | zero => simp [encodeBits, bitElems, CircularBuffer.addAll_nil]
  | succ n ih =>
    rw [encodeBits, ih, bitElems]
    cases marked <;> simp [CircularBuffer.addAll_cons]

theorem encodeLoop_eq (D : CwDecoderLogic) (text : List Char)
    (txBuffer : CircularBuffer MorseElements) (result : Nat) (marked : Bool) :
    encodeLoop D text txBuffer result marked =
      (result + (text.filter (counted D)).length, txBuffer.addAll (textElems D text marked)) := by
  induction text generalizing txBuffer result marked with
  | nil => simp [encodeLoop, textElems, CircularBuffer.addAll_nil]
  | cons ch rest ih =>
    rw [encodeLoop, textElems]
    by_cases hs : isspace ch = true
    · simp [hs, ih, counted, CircularBuffer.addAll_cons]; omega
    · simp only [hs, Bool.false_eq_true, if_false]
      cases hl : D.LookupChar ch with
      | none => simp [ih, counted, hs, hl]
      | some pl =>
        obtain ⟨pattern, patLen⟩ := pl
        simp only [encodeBits_eq, ih]
        simp [counted, hs, hl, CircularBuffer.addAll_append, CircularBuffer.addAll_cons]
        omega

theorem Encode_eq (D : CwDecoderLogic) (txBuffer : CircularBuffer MorseElements)
    (buffer : List Char) :
    Encode D txBuffer buffer =
      ((buffer.filter (counted D)).length, txBuffer.addAll (textElems D buffer false)) := by
  simp [Encode, encodeLoop_eq]

/-! ### The elements of a text -/

theorem textElems_append (D : CwDecoderLogic) (xs ys : List Char) (marked : Bool) :
    textElems D (xs ++ ys) marked =
      textElems D xs marked ++ textElems D ys (markedAfter D xs marked) := by
  induction xs generalizing marked with
  | nil => rfl
  | cons ch rest ih =>
    rw [List.cons_append, textElems, textElems, markedAfter]
    by_cases hs : isspace ch = true
    · simp [hs, ih]
    · simp only [hs, Bool.false_eq_true, if_false]
      cases hl : D.LookupChar ch with
      | none => simp [ih]
      | some pl => obtain ⟨pattern, patLen⟩ := pl; simp [ih]

theorem any_isMark_bitElems (pattern n mask : Nat) (marked : Bool) :
    (bitElems pattern n mask marked).any isMark = decide (n ≠ 0) := by
  cases n with
  | zero => simp [bitElems]
  | succ k =>
    rw [bitElems_succ]
    have hmk : isMark (if pattern &&& mask ≠ 0 then MorseElements.Dash else MorseElements.Dot)
        = true := by split <;> rfl
    rw [List.any_append, List.any_cons, hmk]
    simp

theorem markedAfter_eq (D : CwDecoderLogic) (text : List Char) (marked : Bool) :
    markedAfter D text marked = (marked || (textElems D text marked).any isMark) := by
  induction text generalizing marked with
  | nil => simp [markedAfter, textElems]
  | cons ch rest ih =>
    rw [markedAfter, textElems]
    by_cases hs : isspace ch = true
    · simp [hs, ih, isMark]
    · simp only [hs, Bool.false_eq_true, if_false]
      cases hl : D.LookupChar ch with
      | none => simp [ih]
      | some pl =>
        obtain ⟨pattern, patLen⟩ := pl
        simp only [ih, List.any_append, List.any_cons, any_isMark_bitElems, isMark]
        cases marked <;> cases decide (patLen ≠ 0) <;> simp

set_option maxRecDepth 100000 in
/-- The elements of every table row: a short gap first if `marked` is set, then the marks of
the pattern, least-significant bit first, with one short gap between successive marks. -/
theorem tableRows_bitElems :
    ∀ r ∈ tableRows, ∀ marked : Bool,
      bitElems r.pattern r.len 1 marked =
        (if marked then [MorseElements.DotSpace] else []) ++
          List.intersperse MorseElements.DotSpace (patternMarks r.pattern r.len) := by
  decide

set_option maxRecDepth 100000 in
theorem roundTripAlphabet_cases :
    ∀ c ∈ roundTripAlphabet, c = ' ' ∨ (isspace c = false ∧ c ∈ tableRows.map Row.value) := by
  decide

theorem textElems_space (D : CwDecoderLogic) (rest : List Char) (marked : Bool) :
    textElems D (' ' :: rest) marked = MorseElements.WordSpace :: textElems D rest marked := by
  rw [textElems]
  have : isspace ' ' = true := by decide
  simp [this]

theorem textElems_row (u : Nat → Row) (r : Row) (hr : r ∈ tableRows)
    (hs : isspace r.value = false) (rest : List Char) (marked : Bool) :
    textElems (CwDecoderLogic.new u) (r.value :: rest) marked =
      bitElems r.pattern r.len 1 marked ++
        MorseElements.DashSpace :: textElems (CwDecoderLogic.new u) rest true := by
  obtain ⟨h1, -, hc, -, -⟩ := tableRows_lookups r hr
  have hlc : LookupChar (CwDecoderLogic.new u) r.value = some (r.pattern, r.len) := by
    have := LookupChar_new_of_lookupCharIn u '~' r.value _ hc
    rwa [withErrorSymbol_self] at this
  rw [textElems]
  have hne : r.len ≠ 0 := by omega
  simp [hs, hlc, hne]

theorem counted_row (u : Nat → Row) (r : Row) (hr : r ∈ tableRows) :
    counted (CwDecoderLogic.new u) r.value = true := by
  obtain ⟨-, -, hc, -, -⟩ := tableRows_lookups r hr
  have hlc : LookupChar (CwDecoderLogic.new u) r.value = some (r.pattern, r.len) := by
    have := LookupChar_new_of_lookupCharIn u '~' r.value _ hc
    rwa [withErrorSymbol_self] at this
  simp [counted, hlc]

/-- The passes of `Decode` over the elements of a text of the round-trip alphabet write the
text. -/
theorem decodeRun_textElems (u : Nat → Row) (text : List Char) (marked : Bool)
    (tail : List MorseElements) (cap : Nat) (buffer : List Char)
    (htext : ∀ c ∈ text, c ∈ roundTripAlphabet) :
    decodeRun (CwDecoderLogic.new u)
        { items := textElems (CwDecoderLogic.new u) text marked ++ tail, capacity := cap } buffer =
      decodeRun (CwDecoderLogic.new u) { items := tail, capacity := cap } (buffer ++ text) := by
  induction text generalizing marked buffer with
  | nil => simp [textElems]
  | cons c rest ih =>
    have hrest : ∀ x ∈ rest, x ∈ roundTripAlphabet := fun x hx => htext x (List.mem_cons_of_mem _ hx)
    rcases roundTripAlphabet_cases c (htext c (List.mem_cons_self _ _)) with rfl | ⟨hs, hc⟩
    · rw [textElems_space, List.cons_append, decodeRun_boundary _ MorseElements.WordSpace _ _ _ rfl,
        ih _ _ hrest]
      simp
    · obtain ⟨r, hr, rfl⟩ := List.mem_map.1 hc
      rw [textElems_row u r hr hs, List.append_assoc, List.cons_append, decodeRun_row u r hr,
        ih _ _ hrest]
      simp

theorem length_textElems_le (u : Nat → Row) (text : List Char) (marked : Bool)
    (htext : ∀ c ∈ text, c ∈ roundTripAlphabet) :
    (textElems (CwDecoderLogic.new u) text marked).length ≤ 13 * text.length := by
  induction text generalizing marked with
  | nil => simp [textElems]
  | cons c rest ih =>
    have hrest : ∀ x ∈ rest, x ∈ roundTripAlphabet := fun x hx => htext x (List.mem_cons_of_mem _ hx)
    rcases roundTripAlphabet_cases c (htext c (List.mem_cons_self _ _)) with rfl | ⟨hs, hc⟩
    · rw [textElems_space]
      have := ih marked hrest
      simp only [List.length_cons]; omega
    · obtain ⟨r, hr, rfl⟩ := List.mem_map.1 hc
      obtain ⟨-, h6, -⟩ := tableRows_lookups r hr
      have hb := length_bitElems_le r.pattern r.len 1 marked
      have := ih true hrest
      rw [textElems_row u r hr hs]
      simp only [List.length_append, List.length_cons]; omega

theorem filter_counted_eq (u : Nat → Row) (text : List Char)
    (htext : ∀ c ∈ text, c ∈ roundTripAlphabet) :
    text.filter (counted (CwDecoderLogic.new u)) = text := by
  rw [List.filter_eq_self]
  intro c hc
  rcases roundTripAlphabet_cases c (htext c hc) with rfl | ⟨-, hc'⟩
  · have : isspace ' ' = true := by decide
    simp [counted, this]
  · obtain ⟨r, hr, rfl⟩ := List.mem_map.1 hc'
    exact counted_row u r hr

/-! ### The assigned rows -/

theorem take_m_Mapping (u : Nat → Row) :
    (CwDecoderLogic.new u).m_Mapping.take tableRows.length = tableRows := by
  rw [new_m_Mapping, List.take_left]

set_option maxRecDepth 100000 in
theorem tableRows_nodup : (tableRows.map (fun r => (r.len, r.pattern))).Nodup := by
  decide

/-! ### What `Decode` leaves behind, and the table as the lookups see it -/

/-- A scan that has not met a boundary and is below the maximum element size stays not done
exactly when the rest of the queue holds no boundary and too few marks to reach the maximum
element size. -/
theorem scanLoop_done_eq_false (D : CwDecoderLogic) (xs : List MorseElements) (s : Scan)
    (hs : s.done = false) (hb : s.bits < D.m_MaxElements) (hM : D.m_MaxElements ≤ 255) :
    (scanLoop D xs s).done = false ↔
      ((∀ x ∈ xs, isBoundary x = false) ∧ s.bits + markCount xs < D.m_MaxElements) := by
  induction xs generalizing s with
  | nil => simp [scanLoop, hs, markCount_nil, hb]
  | cons x xs ih =>
    obtain ⟨c, sy, m, b, d, w⟩ := s
    simp only at hs hb
    subst hs
    rw [scanLoop, markCount_cons]
    have hmod : (b + 1) % 256 = b + 1 := Nat.mod_eq_of_lt (by omega)
    cases x with
    | WordSpace =>
      have hd : (scanBody D .WordSpace ⟨c, sy, m, b, false, w⟩).done = true := by
        simp only [scanBody, scanElement]; split <;> rfl
      simp [hd, isBoundary]
    | DashSpace =>
      have hd : (scanBody D .DashSpace ⟨c, sy, m, b, false, w⟩).done = true := by
        simp only [scanBody, scanElement]; split <;> rfl
      simp [hd, isBoundary]
    | DotSpace =>
      have hlt : ¬ (b ≥ D.m_MaxElements) := by omega
      simp only [scanBody, scanElement, hlt, if_false, Bool.false_eq_true]
      rw [ih _ rfl (by simpa using hb)]
      simp [isBoundary, isMark]
    | Dot =>
      by_cases hf : b + 1 ≥ D.m_MaxElements
      · simp only [scanBody, scanElement, hmod, hf, if_true]
        simp [isMark]
        intro _ _
        omega
      · simp only [scanBody, scanElement, hmod, hf, if_false, Bool.false_eq_true]
        rw [ih _ rfl (by simp only; omega)]
        simp [isBoundary, isMark, Nat.add_assoc]
    | Dash =>
      by_cases hf : b + 1 ≥ D.m_MaxElements
      · simp only [scanBody, scanElement, hmod, hf, if_true]
        simp [isMark]
        intro _ _
        omega
      · simp only [scanBody, scanElement, hmod, hf, if_false, Bool.false_eq_true]
        rw [ih _ rfl (by simp only; omega)]
        simp [isBoundary, isMark, Nat.add_assoc]

/-- One pass writes at most as many characters as it scans items: a character needs a bit,
a space needs a `WordSpace`. -/
theorem scanLoop_emit_le (D : CwDecoderLogic) (xs : List MorseElements) (s : Scan)
    (hw : s.word = false) (hc : s.bits ≠ 0 → 1 ≤ s.count) :
    (if (scanLoop D xs s).bits ≠ 0 then 1 else 0) + (if (scanLoop D xs s).word then 1 else 0) ≤
      (scanLoop D xs s).count := by
  induction xs generalizing s with
  | nil =>
    simp only [scanLoop, hw, Bool.false_eq_true, if_false, Nat.add_zero]
    split
    · next h => exact hc h
    · omega
  | cons x xs ih =>
    obtain ⟨c, sy, m, b, d, w⟩ := s
    simp only at hw hc
    subst hw
    rw [scanLoop]
    split
    · rw [count_scanBody]
      cases x <;> simp only [scanBody, scanElement] <;> split <;> simp <;> split <;> omega
    · next hd =>
      apply ih
      · cases x <;> simp only [scanBody, scanElement] at hd ⊢ <;> split <;> simp_all
      · intro _
        rw [count_scanBody]
        omega

theorem length_emit_le (D : CwDecoderLogic) (xs : List MorseElements) :
    (emit D (scanLoop D xs Scan.reset)).length ≤ (scanLoop D xs Scan.reset).count := by
  refine le_trans ?_ (scanLoop_emit_le D xs Scan.reset rfl (fun h => absurd rfl h))
  unfold emit
  rw [List.length_append]
  apply Nat.add_le_add
  · split
    · split <;> simp
    · simp
  · split <;> simp

/-- The outer loop with enough fuel: it returns; the returned count is the number of
characters written; the queue left behind is the original queue without some front items
and its scan finds no entire symbol; the buffer written so far is kept; no more characters
are written than items are removed; and the number of passes is at most the item count
plus one. -/
theorem decodeLoop_spec (D : CwDecoderLogic) (fuel : Nat) :
    ∀ (rxBuffer : CircularBuffer MorseElements) (buffer : List Char),
      rxBuffer.items.length + 1 ≤ fuel →
        ∃ (out : List Char) (rest : CircularBuffer MorseElements) (k p : Nat),
          decodeLoop D fuel rxBuffer buffer = some (out.length, out, rest) ∧
          rest.capacity = rxBuffer.capacity ∧
          k ≤ rxBuffer.items.length ∧ rest.items = rxBuffer.items.drop k ∧
          (scanLoop D rest.items Scan.reset).done = false ∧
          buffer <+: out ∧
          out.length ≤ buffer.length + k ∧
          passCount D fuel rxBuffer = some p ∧ p ≤ rxBuffer.items.length + 1 := by
  induction fuel with
  | zero => intro rxBuffer buffer h; omega
  | succ f ih =>
    intro rxBuffer buffer hf
    rw [decodeLoop, passCount]
    by_cases hd : (scanLoop D rxBuffer.items Scan.reset).done = true
    · have hlen := length_RemoveItems_scan D rxBuffer hd
      have hle := scanLoop_count_le D rxBuffer.items Scan.reset
      have hem := length_emit_le D rxBuffer.items
      have h0 : Scan.reset.count = 0 := rfl
      obtain ⟨out, rest, k, p, h1, h2, h3, h4, h5, h6, h8, h9, h10⟩ :=
        ih (rxBuffer.RemoveItems (scanLoop D rxBuffer.items Scan.reset).count)
          (buffer ++ emit D (scanLoop D rxBuffer.items Scan.reset)) (by omega)
      simp only [CircularBuffer.RemoveItems, List.length_drop, List.drop_drop,
        List.length_append] at h2 h3 h4 h8 h10 hlen
      refine ⟨out, rest, (scanLoop D rxBuffer.items Scan.reset).count + k, p + 1, ?_, h2,
        by omega, ?_, h5, ?_, by omega, ?_, by omega⟩
      · simp only [hd, if_true]; exact h1
      · rw [h4]
      · exact (List.prefix_append _ _).trans h6
      · simp only [hd, if_true, h9, Option.map_some']
    · have hd' : (scanLoop D rxBuffer.items Scan.reset).done = false := by
        cases h : (scanLoop D rxBuffer.items Scan.reset).done
        · rfl
        · exact absurd h hd
      refine ⟨buffer, rxBuffer, 0, 1, ?_, rfl, by omega, by simp, hd', List.prefix_refl _,
        by omega, ?_, by omega⟩
      · simp [hd']
      · simp [hd']

theorem computeMaxElements_le (mapping : List Row) (n b : Nat)
    (h : ∀ i, i < n → (mapping.getD i nullRow).len ≤ b) : computeMaxElements mapping n ≤ b := by
  unfold computeMaxElements
  have key : ∀ (l : List Nat) (mx : Nat), mx ≤ b → (∀ i ∈ l, i < n) →
      l.foldl (maxStep mapping) mx ≤ b := by
    intro l
    induction l with
    | nil => intro mx hmx _; exact hmx
    | cons i l ih =>
      intro mx hmx hl
      rw [List.foldl_cons]
      apply ih
      · unfold maxStep
        split
        · exact h i (hl i (List.mem_cons_self _ _))
        · exact hmx
      · exact fun j hj => hl j (List.mem_cons_of_mem _ hj)
  exact key _ 0 (Nat.zero_le _) (fun i hi => List.mem_range.1 hi)

set_option maxRecDepth 100000 in
theorem tableRows_len_bounds : ∀ r ∈ tableRows, 1 ≤ r.len ∧ r.len ≤ 6 := by decide

/-- The maximum element size is at most a bound on the lengths in the unassigned slots, when
that bound is at least 6. -/
theorem m_MaxElements_le (u : Nat → Row) (b : Nat) (hb : 6 ≤ b)
    (hu : ∀ k, k < 17 → (u k).len ≤ b) : (CwDecoderLogic.new u).m_MaxElements ≤ b := by
  rw [new_m_MaxElements]
  apply computeMaxElements_le
  intro i hi
  by_cases h39 : i < 39
  · have hlt : i < tableRows.length := by rw [length_tableRows]; exact h39
    rw [List.getD_eq_getElem?_getD, List.getElem?_append_left hlt,
      List.getElem?_eq_getElem hlt, Option.getD_some]
    exact le_trans (tableRows_len_bounds _ (List.getElem_mem _)).2 hb
  · have hge : tableRows.length ≤ i := by rw [length_tableRows]; omega
    rw [List.getD_eq_getElem?_getD, List.getElem?_append_right hge, length_tableRows]
    have h17 : i - 39 < 17 := by omega
    simp [List.getElem?_map, List.getElem?_range h17]
    exact hu _ h17

theorem m_MaxElements_eq_six (u : Nat → Row) (hu : ∀ k, k < 17 → (u k).len ≤ 6) :
    (CwDecoderLogic.new u).m_MaxElements = 6 :=
  le_antisymm (m_MaxElements_le u 6 (le_refl _) hu) (six_le_m_MaxElements u)

/-- The queue `Decode` leaves behind: the original queue without some front items, with no
boundary element and with fewer marks than the maximum element size. -/
theorem Decode_rest (D : CwDecoderLogic) (rxBuffer : CircularBuffer MorseElements)
    (buflen : Int) (h1 : 1 ≤ D.m_MaxElements) (h255 : D.m_MaxElements ≤ 255) :
    ∃ (n : Nat) (out : List Char) (rest : CircularBuffer MorseElements) (k : Nat),
      Decode D rxBuffer buflen = some (n, out, rest) ∧ rest.capacity = rxBuffer.capacity ∧
      k ≤ rxBuffer.items.length ∧ rest.items = rxBuffer.items.drop k ∧
      (∀ x ∈ rest.items, isBoundary x = false) ∧ markCount rest.items < D.m_MaxElements := by
  obtain ⟨out, rest, k, p, g1, g2, g3, g4, g5, -⟩ :=
    decodeLoop_spec D (rxBuffer.Count + 1) rxBuffer [] (le_refl _)
  have hs := (scanLoop_done_eq_false D rest.items Scan.reset rfl
    (by show 0 < D.m_MaxElements; omega) h255).1 g5
  have h0 : Scan.reset.bits = 0 := rfl
  rw [h0, Nat.zero_add] at hs
  exact ⟨out.length, out, rest, k, g1, g2, g3, g4, hs.1, hs.2⟩

/-- A queue that holds a partial character is left as it is: `Decode` returns 0 and writes
nothing. -/
theorem Decode_partial (D : CwDecoderLogic) (rxBuffer : CircularBuffer MorseElements)
    (buflen : Int) (hb : ∀ x ∈ rxBuffer.items, isBoundary x = false)
    (hM : markCount rxBuffer.items < D.m_MaxElements) (h256 : markCount rxBuffer.items < 256) :
    Decode D rxBuffer buflen = some (0, [], rxBuffer) := by
  have hr := scanLoop_run D rxBuffer.items [] Scan.reset hb rfl
    (by show 0 + _ < _; omega) (by show 0 + _ < _; omega)
  rw [List.append_nil] at hr
  rw [Decode_eq, decodeRun_not_done D rxBuffer [] (by rw [hr]; rfl)]
  rfl

set_option maxRecDepth 100000 in
theorem tableRows_sorted : (tableRows.map Row.len).Pairwise (fun a b => a ≤ b) := by
  decide

set_option maxRecDepth 100000 in
theorem firstIndex_findIdx :
    ∀ L ∈ [1, 2, 3, 4, 5, 6],
      firstIndex.getD (L - 1) 0 = tableRows.findIdx (fun r => decide (r.len = L)) := by
  decide

theorem findRow_len (sLen symbol : Nat) (r : Row) (h : findRow sLen symbol = some r) :
    1 ≤ sLen ∧ sLen ≤ 6 := by
  unfold findRow at h
  have hp := List.find?_some h
  have hm := List.mem_of_find?_eq_some h
  simp only [Bool.and_eq_true, decide_eq_true_eq] at hp
  have := tableRows_len_bounds r hm
  omega

theorem Lookup_invalid_length (D : CwDecoderLogic) (symbol sLen : Nat)
    (h : sLen = 0 ∨ D.m_MaxElements < sLen) : D.Lookup symbol sLen = D.ErrorSymbol := by
  unfold Lookup
  rw [if_pos (by omega)]

end CwDecoderLogic

namespace CwTimingLogic

/-! ### The loops of the timing logic -/

theorem track_nil (T : CwTimingLogic) : T.track [] = T := rfl

theorem track_cons (T : CwTimingLogic) (e : CwElement) (rest : List CwElement) :
    T.track (e :: rest) = (T.processPulse e).track rest := rfl

theorem timing_decodeLoop_eq (T : CwTimingLogic) (raw : List CwElement)
    (result : CircularBuffer MorseElements) (space : Bool) :
    decodeLoop T raw result space =
      (T.track (raw.take (min raw.length (result.capacity - result.items.length))),
        raw.drop (min raw.length (result.capacity - result.items.length)),
        { items := result.items ++
            classified T (raw.take (min raw.length (result.capacity - result.items.length)))
          capacity := result.capacity },
        space || spaceAfter T
          (raw.take (min raw.length (result.capacity - result.items.length)))) := by
  induction raw generalizing T result space with
  | nil => simp [decodeLoop, track_nil, classified, spaceAfter]
  | cons e rest ih =>
    rw [decodeLoop]
    by_cases hf : result.Full = true
    · have hle : result.capacity ≤ result.items.length := by simpa [CircularBuffer.Full] using hf
      have hk : min (e :: rest).length (result.capacity - result.items.length) = 0 := by
        rw [Nat.sub_eq_zero_of_le hle]; simp
      rw [if_pos hf, hk]
      simp [track_nil, classified, spaceAfter]
    · have hlt : result.items.length < result.capacity := by
        simpa [CircularBuffer.Full] using hf
      have hadd : ∀ x, result.Add x = { items := result.items ++ [x], capacity := result.capacity } := by
        intro x; simp [CircularBuffer.Add, hf]
      have hk : min (e :: rest).length (result.capacity - result.items.length) =
          min rest.length (result.capacity - (result.items.length + 1)) + 1 := by
        simp only [List.length_cons]; omega
      simp only [hf, Bool.false_eq_true, if_false]
      rw [ih, hadd, hk]
      simp [track_cons, classified, spaceAfter, Bool.or_assoc]

theorem getElem?_classified (T : CwTimingLogic) (pulses : List CwElement) (i : Nat)
    (e : CwElement) (h : pulses[i]? = some e) :
    (classified T pulses)[i]? = some (((T.track (pulses.take (i + 1))).classify e).1) := by
  induction pulses generalizing T i with
  | nil => simp at h
  | cons p rest ih =>
    cases i with
    | zero =>
      simp only [List.getElem?_cons_zero, Option.some.injEq] at h
      subst h
      simp [classified, track_cons, track_nil]
    | succ j =>
      simp only [List.getElem?_cons_succ] at h
      simp only [classified, List.getElem?_cons_succ, List.take_succ_cons, track_cons]
      exact ih _ j h

theorem length_classified (T : CwTimingLogic) (pulses : List CwElement) :
    (classified T pulses).length = pulses.length := by
  induction pulses generalizing T with
  | nil => rfl
  | cons p rest ih => simp [classified, ih]

theorem classify_eq_classifySpec (T : CwTimingLogic) (e : CwElement) :
    (T.classify e).1 =
      classifySpec e.Length e.Mark T.m_RxDotLength T.MaximumDotLength T.MinimumWordSpace := by
  unfold classify classifySpec
  by_cases h1 : (e.Length : ℚ) ≤ T.MaximumDotLength * T.m_RxDotLength
  · simp [h1]
  · by_cases h2 : (e.Length : ℚ) ≥ T.MinimumWordSpace * T.m_RxDotLength
    · cases hm : e.Mark <;> simp [h1, h2]
    · cases hm : e.Mark <;> simp [h1, h2]

theorem refreshSpeeds_eq (T : CwTimingLogic) :
    T.refreshSpeeds =
      { T with
        m_RxDotLength :=
          if T.m_RxSpeedSource = .SpeedAuto then T.m_DotLength else T.m_RxDotLength
        m_TxDotLength :=
          if T.m_TxSpeedSource = .SpeedAuto then T.m_DotLength else T.m_TxDotLength } := by
  unfold refreshSpeeds
  rcases T with ⟨a, b, c, d, e, f, g, h, i, j, tx, rx, k, l, m, n⟩
  cases tx <;> cases rx <;> rfl

theorem processPulse_tunables (T : CwTimingLogic) (e : CwElement) :
    (T.processPulse e).MaximumDotLength = T.MaximumDotLength ∧
      (T.processPulse e).MinimumWordSpace = T.MinimumWordSpace ∧
      (T.processPulse e).MinimumMark = T.MinimumMark ∧
      (T.processPulse e).MaximumMark = T.MaximumMark ∧
      (T.processPulse e).m_MinimumAverageDistance = T.m_MinimumAverageDistance ∧
      (T.processPulse e).m_BoxCarSize = T.m_BoxCarSize ∧
      (T.processPulse e).m_RxSpeedSource = T.m_RxSpeedSource ∧
      (T.processPulse e).m_TxSpeedSource = T.m_TxSpeedSource := by
  rw [processPulse, refreshSpeeds_eq, updateAverage]
  by_cases hq : T.qualifies e = true
  · simp [hq, pushBoxCar]
  · simp [hq]

theorem track_tunables (T : CwTimingLogic) (pulses : List CwElement) :
    (T.track pulses).MaximumDotLength = T.MaximumDotLength ∧
      (T.track pulses).MinimumWordSpace = T.MinimumWordSpace ∧
      (T.track pulses).MinimumMark = T.MinimumMark ∧
      (T.track pulses).MaximumMark = T.MaximumMark ∧
      (T.track pulses).m_MinimumAverageDistance = T.m_MinimumAverageDistance ∧
      (T.track pulses).m_BoxCarSize = T.m_BoxCarSize ∧
      (T.track pulses).m_RxSpeedSource = T.m_RxSpeedSource ∧
      (T.track pulses).m_TxSpeedSource = T.m_TxSpeedSource := by
  induction pulses generalizing T with
  | nil => simp [track_nil]
  | cons e rest ih =>
    rw [track_cons]
    obtain ⟨h1, h2, h3, h4, h5, h6, h7, h8⟩ := processPulse_tunables T e
    obtain ⟨g1, g2, g3, g4, g5, g6, g7, g8⟩ := ih (T.processPulse e)
    exact ⟨g1.trans h1, g2.trans h2, g3.trans h3, g4.trans h4, g5.trans h5, g6.trans h6,
      g7.trans h7, g8.trans h8⟩

theorem track_take_succ (T : CwTimingLogic) (pulses : List CwElement) (i : Nat) (e : CwElement)
    (h : pulses[i]? = some e) :
    T.track (pulses.take (i + 1)) = (T.track (pulses.take i)).processPulse e := by
  induction pulses generalizing T i with
  | nil => simp at h
  | cons p rest ih =>
    cases i with
    | zero =>
      simp only [List.getElem?_cons_zero, Option.some.injEq] at h
      subst h
      simp [track_cons, track_nil]
    | succ j =>
      simp only [List.getElem?_cons_succ] at h
      simp only [List.take_succ_cons, track_cons]
      exact ih _ j h

theorem timing_Decode_eq (T : CwTimingLogic) (raw : CircularBuffer CwElement)
    (result : CircularBuffer MorseElements) :
    T.Decode raw result =
      (T.track (raw.items.take (min raw.Count (result.capacity - result.Count))),
        { raw with items := raw.items.drop (min raw.Count (result.capacity - result.Count)) },
        { items := result.items ++
            classified T (raw.items.take (min raw.Count (result.capacity - result.Count)))
          capacity := result.capacity },
        spaceAfter T (raw.items.take (min raw.Count (result.capacity - result.Count)))) := by
  simp [Decode, timing_decodeLoop_eq, CircularBuffer.Count]

theorem qualifies_iff (T : CwTimingLogic) (e : CwElement) :
    T.qualifies e = true ↔
      (e.Mark = true ∧ T.MinimumMark < (e.Length : ℚ) ∧ (e.Length : ℚ) < T.MaximumMark ∧
        |(e.Length : ℚ) - T.m_BoxCarAverage| > (T.m_SafetyGap : ℚ)) := by
  unfold qualifies
  simp only [Bool.and_eq_true, Bool.or_eq_true, decide_eq_true_eq, gt_iff_lt, lt_abs, neg_sub]
  constructor
  · rintro ⟨⟨⟨h1, h2⟩, h3⟩, h4⟩
    refine ⟨h1, h2, h3, ?_⟩
    rcases h4 with h4 | h4
    · right; linarith
    · left; linarith
  · rintro ⟨h1, h2, h3, h4⟩
    refine ⟨⟨⟨h1, h2⟩, h3⟩, ?_⟩
    rcases h4 with h4 | h4
    · right; linarith
    · left; linarith

theorem processPulse_pushed (T : CwTimingLogic) (e : CwElement) (hq : T.qualifies e = true) :
    (T.processPulse e).m_BoxCar = T.m_BoxCar.set T.m_BoxCarIndex (e.Length : ℚ) ∧
      (T.processPulse e).m_BoxCarIndex = (T.m_BoxCarIndex + 1) % T.m_BoxCarSize ∧
      (T.processPulse e).m_BoxCarSum =
        T.m_BoxCarSum - T.m_BoxCar.getD T.m_BoxCarIndex 0 + (e.Length : ℚ) ∧
      (T.processPulse e).m_BoxCarAverage = (T.processPulse e).m_BoxCarSum / T.m_BoxCarSize ∧
      (T.processPulse e).m_DotLength = (T.processPulse e).m_BoxCarAverage / 2 ∧
      (T.processPulse e).m_SafetyGap =
        truncToInt (T.m_MinimumAverageDistance * (T.processPulse e).m_BoxCarAverage) := by
  rw [processPulse, refreshSpeeds_eq, updateAverage, if_pos hq]
  simp [pushBoxCar]

theorem processPulse_kept (T : CwTimingLogic) (e : CwElement) (hq : ¬ T.qualifies e = true) :
    (T.processPulse e).m_BoxCar = T.m_BoxCar ∧
      (T.processPulse e).m_BoxCarIndex = T.m_BoxCarIndex ∧
      (T.processPulse e).m_BoxCarSum = T.m_BoxCarSum ∧
      (T.processPulse e).m_BoxCarAverage = T.m_BoxCarAverage ∧
      (T.processPulse e).m_DotLength = T.m_DotLength ∧
      (T.processPulse e).m_SafetyGap = T.m_SafetyGap := by
  rw [processPulse, refreshSpeeds_eq, updateAverage, if_neg hq]
  simp

theorem RxWPM_10_fields :
    ((CwTimingLogic.new 1 8 0 0).RxWPM 10).m_BoxCarAverage = 240 ∧
    ((CwTimingLogic.new 1 8 0 0).RxWPM 10).m_SafetyGap = 84 ∧
    ((CwTimingLogic.new 1 8 0 0).RxWPM 10).MinimumMark = 0 ∧
    ((CwTimingLogic.new 1 8 0 0).RxWPM 10).MaximumMark = FLT_MAX ∧
    ((CwTimingLogic.new 1 8 0 0).RxWPM 10).m_BoxCarSum = 1920 ∧
    ((CwTimingLogic.new 1 8 0 0).RxWPM 10).m_BoxCarIndex = 0 ∧
    ((CwTimingLogic.new 1 8 0 0).RxWPM 10).m_BoxCar = List.replicate 8 240 := by
  have h1200 : Int.tdiv 1200 10 = 120 := by decide
  simp only [RxWPM, CwTimingLogic.new, InitializeBoxCar, AllocateBoxCar, h1200]
  norm_num [truncToInt, List.replicate]

theorem truncToInt_of_nonneg (q : ℚ) (h : 0 ≤ q) : truncToInt q = (⌊q⌋₊ : ℤ) := by
  rw [truncToInt, Int.tdiv_eq_ediv (Rat.num_nonneg.2 h) (Int.natCast_nonneg _), ← Rat.floor_def,
    ← Int.floor_toNat, Int.toNat_of_nonneg (Int.floor_nonneg.2 h)]

theorem toUnsigned_natCast (n : Nat) (h : n < 4294967296) : toUnsigned (n : ℤ) = n := by
  unfold toUnsigned
  rw [Int.emod_eq_of_lt (Int.natCast_nonneg _) (by exact_mod_cast h)]
  simp

theorem timing_encodeLoop_eq (dotSpace dashSpace wordSpace : Int) (els : List MorseElements)
    (cwBuffer : CircularBuffer CwElement) (result : Nat) :
    encodeLoop dotSpace dashSpace wordSpace els cwBuffer result =
      (result + els.length,
        cwBuffer.addAll (els.map (encodeElement dotSpace dashSpace wordSpace))) := by
  induction els generalizing cwBuffer result with
  | nil => simp [encodeLoop, CircularBuffer.addAll_nil]
  | cons el rest ih =>
    rw [encodeLoop, ih]
    simp [CircularBuffer.addAll_cons]
    omega

theorem encodeElement_floor (n : Nat) (h : 5 * n < 4294967296) (el : MorseElements) :
    encodeElement (n : ℤ) ((n : ℤ) * 3) ((n : ℤ) * 5) el =
      { Length := dotUnits el * n, Mark := CwDecoderLogic.isMark el } := by
  have h1 := toUnsigned_natCast n (by omega)
  have h3 := toUnsigned_natCast (n * 3) (by omega)
  have h5 := toUnsigned_natCast (n * 5) (by omega)
  push_cast at h3 h5
  cases el <;>
    simp [encodeElement, dotUnits, CwDecoderLogic.isMark, h1, h3, h5, Nat.mul_comm]

theorem TxWPM_10_m_TxDotLength (T : CwTimingLogic) : (T.TxWPM 10).m_TxDotLength = 120 := by
  have h1200 : Int.tdiv 1200 10 = 120 := by decide
  simp [TxWPM, h1200]

theorem processPulse_rx_manual (T : CwTimingLogic) (e : CwElement)
    (h : T.m_RxSpeedSource = SpeedSources.SpeedManual) :
    (T.processPulse e).m_RxDotLength = T.m_RxDotLength := by
  rw [processPulse, refreshSpeeds_eq, updateAverage]
  by_cases hq : T.qualifies e = true
  · simp [hq, pushBoxCar, h]
  · simp [hq, h]

/-- With the RX speed set by hand to a dot length `d ≥ 1` and the default multipliers 2 and
4.5, the pulses of 1, 3 and 5 dot lengths are classified back into their elements. -/
theorem classified_manual (T : CwTimingLogic) (d : Nat) (els : List MorseElements) (hd : 1 ≤ d)
    (hrx : T.m_RxSpeedSource = SpeedSources.SpeedManual) (hR : T.m_RxDotLength = (d : ℚ))
    (hmax : T.MaximumDotLength = 2) (hmin : T.MinimumWordSpace = 45 / 10) :
    classified T (els.map (fun el =>
      { Length := dotUnits el * d, Mark := CwDecoderLogic.isMark el })) = els := by
  induction els generalizing T with
  | nil => rfl
  | cons el rest ih =>
    obtain ⟨t1, t2, -, -, -, -, t7, -⟩ := processPulse_tunables T
      { Length := dotUnits el * d, Mark := CwDecoderLogic.isMark el }
    have hR' := (processPulse_rx_manual T
      { Length := dotUnits el * d, Mark := CwDecoderLogic.isMark el } hrx).trans hR
    have hdq : (1 : ℚ) ≤ (d : ℚ) := by exact_mod_cast hd
    rw [List.map_cons, classified, ih _ (t7.trans hrx) hR' (t1.trans hmax) (t2.trans hmin),
      classify_eq_classifySpec, hR', t1, t2, hmax, hmin]
    congr 1
    cases el
    · simp only [classifySpec, dotUnits, CwDecoderLogic.isMark]
      rw [if_pos (by push_cast; linarith)]; rfl
    · simp only [classifySpec, dotUnits, CwDecoderLogic.isMark]
      rw [if_neg (by push_cast; linarith), if_neg (by push_cast; intro h; linarith [h.2])]; rfl
    · simp only [classifySpec, dotUnits, CwDecoderLogic.isMark]
      rw [if_neg (by push_cast; linarith), if_pos ⟨trivial, by push_cast; linarith⟩]
    · simp only [classifySpec, dotUnits, CwDecoderLogic.isMark]
      rw [if_pos (by push_cast; linarith)]; rfl
    · simp only [classifySpec, dotUnits, CwDecoderLogic.isMark]
      rw [if_neg (by push_cast; linarith), if_neg (by simp)]; rfl

theorem timing_Encode_natCast (T : CwTimingLogic) (d : Nat) (txBuffer : CircularBuffer MorseElements)
    (cwBuffer : CircularBuffer CwElement) (hT : T.m_TxDotLength = (d : ℚ))
    (hd : 5 * d < 4294967296)
    (hroom : cwBuffer.items.length + txBuffer.items.length ≤ cwBuffer.capacity) :
    T.Encode txBuffer cwBuffer =
      (txBuffer.items.length,
        { items := [], capacity := txBuffer.capacity },
        { items := cwBuffer.items ++ txBuffer.items.map (fun el =>
            { Length := dotUnits el * d, Mark := CwDecoderLogic.isMark el })
          capacity := cwBuffer.capacity }) := by
  have htr : truncToInt T.m_TxDotLength = (d : ℤ) := by
    rw [hT, truncToInt_of_nonneg _ (by positivity), Nat.floor_natCast]
  unfold Encode
  simp only [timing_encodeLoop_eq, htr, Nat.zero_add]
  have hmap : txBuffer.items.map (encodeElement (d : ℤ) ((d : ℤ) * 3) ((d : ℤ) * 5)) =
      txBuffer.items.map (fun el =>
        { Length := dotUnits el * d, Mark := CwDecoderLogic.isMark el }) :=
    List.map_congr_left (fun el _ => encodeElement_floor _ hd el)
  rw [hmap, CircularBuffer.addAll_eq_of_room _ _ (by simpa using hroom)]

/-- The state after `RxWPM(w)` and `TxWPM(w)` for `5 ≤ w ≤ 40`: both dot lengths are the
integer `1200 / w`, between 30 and 240, RX is in manual mode, the multipliers are kept. -/
theorem wpm_state (T : CwTimingLogic) (w : Int) (h5 : 5 ≤ w) (h40 : w ≤ 40) :
    ∃ d : Nat, 30 ≤ d ∧ d ≤ 240 ∧
      ((T.RxWPM w).TxWPM w).m_RxDotLength = (d : ℚ) ∧
      ((T.RxWPM w).TxWPM w).m_TxDotLength = (d : ℚ) ∧
      ((T.RxWPM w).TxWPM w).m_RxSpeedSource = SpeedSources.SpeedManual ∧
      ((T.RxWPM w).TxWPM w).MaximumDotLength = T.MaximumDotLength ∧
      ((T.RxWPM w).TxWPM w).MinimumWordSpace = T.MinimumWordSpace := by
  obtain ⟨n, rfl⟩ := Int.eq_ofNat_of_zero_le (by omega : 0 ≤ w)
  have hn5 : 5 ≤ n := by exact_mod_cast h5
  have hn40 : n ≤ 40 := by exact_mod_cast h40
  have htd : Int.tdiv 1200 (n : ℤ) = ((1200 / n : ℕ) : ℤ) := (Int.ofNat_tdiv 1200 n).symm
  refine ⟨1200 / n, ?_, ?_, ?_, ?_, ?_, ?_, ?_⟩
  · exact (Nat.le_div_iff_mul_le (by omega)).2 (by omega)
  · exact Nat.le_of_lt_succ ((Nat.div_lt_iff_lt_mul (by omega)).2 (by omega))
  · simp only [TxWPM, RxWPM, InitializeBoxCar, htd]
    norm_cast
  · simp only [TxWPM, htd]
    norm_cast
  · simp [TxWPM, RxWPM, InitializeBoxCar]
  · simp [TxWPM, RxWPM, InitializeBoxCar]
  · simp [TxWPM, RxWPM, InitializeBoxCar]

theorem new_multipliers (dotLength : ℚ) (bcLength : Nat) (rx0 tx0 : ℚ) :
    (CwTimingLogic.new dotLength bcLength rx0 tx0).MaximumDotLength = 2 ∧
      (CwTimingLogic.new dotLength bcLength rx0 tx0).MinimumWordSpace = 45 / 10 := by
  simp [CwTimingLogic.new, InitializeBoxCar, AllocateBoxCar]

/-! ### The boxcar: invariants and a model in natural numbers -/

theorem RxWPM_10_state :
    ((CwTimingLogic.new 1 8 0 0).RxWPM 10).m_RxDotLength = 120 ∧
    ((CwTimingLogic.new 1 8 0 0).RxWPM 10).m_RxSpeedSource = SpeedSources.SpeedManual ∧
    ((CwTimingLogic.new 1 8 0 0).RxWPM 10).MaximumDotLength = 2 ∧
    ((CwTimingLogic.new 1 8 0 0).RxWPM 10).MinimumWordSpace = 45 / 10 := by
  have h1200 : Int.tdiv 1200 10 = 120 := by decide
  simp only [RxWPM, CwTimingLogic.new, InitializeBoxCar, AllocateBoxCar, h1200]
  norm_num

theorem RxWPM_10_size :
    ((CwTimingLogic.new 1 8 0 0).RxWPM 10).m_BoxCarSize = 8 ∧
    ((CwTimingLogic.new 1 8 0 0).RxWPM 10).m_MinimumAverageDistance = 35 / 100 := by
  simp only [RxWPM, CwTimingLogic.new, InitializeBoxCar, AllocateBoxCar]
  norm_num

theorem processPulse_modes (T : CwTimingLogic) (e : CwElement) :
    ((T.processPulse e).m_RxDotLength =
        if T.m_RxSpeedSource = SpeedSources.SpeedAuto then (T.processPulse e).m_DotLength
        else T.m_RxDotLength) ∧
      ((T.processPulse e).m_TxDotLength =
        if T.m_TxSpeedSource = SpeedSources.SpeedAuto then (T.processPulse e).m_DotLength
        else T.m_TxDotLength) := by
  rw [processPulse, refreshSpeeds_eq, updateAverage]
  by_cases hq : T.qualifies e = true
  · simp [hq, pushBoxCar]
  · simp [hq]

theorem track_manual (T : CwTimingLogic) (pulses : List CwElement) :
    (T.m_RxSpeedSource = SpeedSources.SpeedManual →
        (T.track pulses).m_RxDotLength = T.m_RxDotLength) ∧
      (T.m_TxSpeedSource = SpeedSources.SpeedManual →
        (T.track pulses).m_TxDotLength = T.m_TxDotLength) := by
  induction pulses generalizing T with
  | nil => simp [track_nil]
  | cons e rest ih =>
    obtain ⟨-, -, -, -, -, -, t7, t8⟩ := processPulse_tunables T e
    obtain ⟨m1, m2⟩ := processPulse_modes T e
    obtain ⟨i1, i2⟩ := ih (T.processPulse e)
    rw [track_cons]
    constructor
    · intro h
      rw [i1 (t7.trans h), m1, h]; simp
    · intro h
      rw [i2 (t8.trans h), m2, h]; simp

theorem track_auto (T : CwTimingLogic) (pulses : List CwElement) (hne : pulses ≠ []) :
    (T.m_RxSpeedSource = SpeedSources.SpeedAuto →
        (T.track pulses).m_RxDotLength = (T.track pulses).m_DotLength) ∧
      (T.m_TxSpeedSource = SpeedSources.SpeedAuto →
        (T.track pulses).m_TxDotLength = (T.track pulses).m_DotLength) := by
  induction pulses generalizing T with
  | nil => exact absurd rfl hne
  | cons e rest ih =>
    obtain ⟨-, -, -, -, -, -, t7, t8⟩ := processPulse_tunables T e
    obtain ⟨m1, m2⟩ := processPulse_modes T e
    rw [track_cons]
    cases rest with
    | nil =>
      simp only [track_nil]
      exact ⟨fun h => by rw [m1, if_pos h], fun h => by rw [m2, if_pos h]⟩
    | cons e' rest' =>
      obtain ⟨i1, i2⟩ := ih (T.processPulse e) (by simp)
      exact ⟨fun h => i1 (t7.trans h), fun h => i2 (t8.trans h)⟩

theorem new_default_fields (rx0 tx0 : ℚ) :
    (CwTimingLogic.new 1 8 rx0 tx0).m_BoxCar = List.replicate 8 1 ∧
    (CwTimingLogic.new 1 8 rx0 tx0).m_BoxCarIndex = 0 ∧
    (CwTimingLogic.new 1 8 rx0 tx0).m_BoxCarSize = 8 ∧
    (CwTimingLogic.new 1 8 rx0 tx0).m_BoxCarSum = 8 ∧
    (CwTimingLogic.new 1 8 rx0 tx0).m_BoxCarAverage = 1 ∧
    (CwTimingLogic.new 1 8 rx0 tx0).m_DotLength = 1 / 2 ∧
    (CwTimingLogic.new 1 8 rx0 tx0).m_SafetyGap = 0 ∧
    (CwTimingLogic.new 1 8 rx0 tx0).m_MinimumAverageDistance = 35 / 100 ∧
    (CwTimingLogic.new 1 8 rx0 tx0).MinimumMark = 0 ∧
    (CwTimingLogic.new 1 8 rx0 tx0).MaximumMark = FLT_MAX := by
  simp only [CwTimingLogic.new, InitializeBoxCar, AllocateBoxCar]
  norm_num [truncToInt, List.replicate]
  decide

theorem qualifies_new_100 :
    (CwTimingLogic.new 1 8 0 0).qualifies (CwElement.mk 100 true) = true := by
  obtain ⟨-, -, -, -, h5, -, h7, -, h9, h10⟩ := new_default_fields 0 0
  rw [qualifies_iff, h5, h7, h9, h10]
  refine ⟨rfl, by norm_num, by norm_num [FLT_MAX], ?_⟩
  norm_num [abs_of_pos]

theorem InitializeBoxCar_inv (T : CwTimingLogic) (dotLength : Int) (h : 1 ≤ T.m_BoxCarSize) :
    BoxCarInv (T.InitializeBoxCar dotLength) ∧ GapInv (T.InitializeBoxCar dotLength) := by
  unfold BoxCarInv GapInv InitializeBoxCar
  simp only [List.length_replicate, ← List.sum_eq_foldl]
  exact ⟨⟨h, trivial, trivial, trivial, trivial, by omega⟩, trivial⟩

theorem processPulse_inv (T : CwTimingLogic) (e : CwElement) (hb : BoxCarInv T)
    (hg : GapInv T) : BoxCarInv (T.processPulse e) ∧ GapInv (T.processPulse e) := by
  obtain ⟨h1, h2, h3, h4, h5, h6⟩ := hb
  obtain ⟨-, -, -, -, t5, t6, -, -⟩ := processPulse_tunables T e
  by_cases hq : T.qualifies e = true
  · obtain ⟨p1, p2, p3, p4, p5, p6⟩ := processPulse_pushed T e hq
    refine ⟨⟨by rw [t6]; exact h1, by rw [p1, List.length_set, t6]; exact h2, ?_,
      by rw [p4, t6], p5, by rw [p2, t6]; exact Nat.mod_lt _ (by omega)⟩, ?_⟩
    · have hi : T.m_BoxCarIndex < T.m_BoxCar.length := by rw [h2]; exact h6
      rw [p3, p1, List.sum_set', dif_pos hi, h3, List.getD_eq_getElem _ _ hi]
      ring
    · unfold GapInv
      rw [p6, t5]
  · obtain ⟨p1, p2, p3, p4, p5, p6⟩ := processPulse_kept T e hq
    refine ⟨⟨by rw [t6]; exact h1, by rw [p1, t6]; exact h2, by rw [p3, p1]; exact h3,
      by rw [p4, p3, t6]; exact h4, by rw [p5, p4]; exact h5, by rw [p2, t6]; exact h6⟩, ?_⟩
    unfold GapInv at hg ⊢
    rw [p6, p4, t5]; exact hg

theorem track_inv (T : CwTimingLogic) (pulses : List CwElement) (hb : BoxCarInv T)
    (hg : GapInv T) : BoxCarInv (T.track pulses) ∧ GapInv (T.track pulses) := by
  induction pulses generalizing T with
  | nil => exact ⟨hb, hg⟩
  | cons e rest ih =>
    rw [track_cons]
    obtain ⟨h1, h2⟩ := processPulse_inv T e hb hg
    exact ih _ h1 h2

theorem reachable_inv (T : CwTimingLogic) (h : Reachable T) : BoxCarInv T ∧ GapInv T := by
  induction h with
  | new dotLength bcLength rx0 tx0 h =>
    have := InitializeBoxCar_inv
      (({ m_DotLength := 0, m_TxDotLength := tx0, m_RxDotLength := rx0, m_BoxCar := [],
          m_BoxCarSum := 0, m_BoxCarAverage := 0, m_MinimumAverageDistance := 35 / 100,
          m_BoxCarIndex := 0, m_BoxCarSize := 0, m_SafetyGap := 0,
          m_TxSpeedSource := .SpeedAuto, m_RxSpeedSource := .SpeedAuto,
          MaximumDotLength := 2, MinimumWordSpace := 45 / 10, MinimumMark := 0,
          MaximumMark := FLT_MAX } : CwTimingLogic).AllocateBoxCar bcLength)
      (truncToInt dotLength) h
    exact this
  | Decode T raw result _ ih =>
    rw [timing_Decode_eq]
    exact track_inv T _ ih.1 ih.2
  | RxWPM T wpm _ ih =>
    exact InitializeBoxCar_inv _ _ ih.1.1
  | TxWPM T wpm _ ih => exact ih
  | RxMode T src _ ih => exact ih
  | TxMode T src _ ih => exact ih
  | setMinimumAverageDistance T mad _ ih =>
    exact InitializeBoxCar_inv _ _ ih.1.1
  | setBoxCarLength T bcLength h _ ih =>
    exact InitializeBoxCar_inv (T.AllocateBoxCar bcLength) _ h
  | setTunables T a b c d _ ih => exact ih

theorem truncToInt_gap (n : Nat) :
    truncToInt (35 / 100 * ((n : ℚ) / 8)) = ((7 * n / 160 : ℕ) : ℤ) := by
  have h : (35 / 100 * ((n : ℚ) / 8)) = (((7 * n : ℕ) : ℚ) / ((160 : ℕ) : ℚ)) := by
    push_cast; ring
  rw [truncToInt_of_nonneg _ (by positivity), h, Nat.floor_div_eq_div]

theorem sum_map_natCast (l : List Nat) :
    (l.map (fun (n : Nat) => (n : ℚ))).sum = ((l.sum : ℕ) : ℚ) := by
  induction l with
  | nil => simp
  | cons x xs ih => rw [List.map_cons, List.sum_cons, List.sum_cons, ih, Nat.cast_add]

theorem qualifies_mark_iff (T : CwTimingLogic) (s : List Nat × Nat) (L : Nat) (h : Tracks T s)
    (hL : L < 4294967296) :
    T.qualifies (CwElement.mk L true) = true ↔
      (0 < L ∧ (8 * L + 8 * (7 * s.1.sum / 160) < s.1.sum ∨
        s.1.sum + 8 * (7 * s.1.sum / 160) < 8 * L)) := by
  obtain ⟨h1, h2, h3, h4, h5, h6, h7, h8, h9, h10, h11, h12⟩ := h
  have hLmax : (L : ℚ) < FLT_MAX := by
    have : (L : ℚ) < 4294967296 := by exact_mod_cast hL
    unfold FLT_MAX; linarith
  unfold qualifies
  simp only [Bool.and_eq_true, Bool.or_eq_true, decide_eq_true_eq, h3, h4, h10, h12, hLmax,
    Bool.true_and, gt_iff_lt, Nat.cast_pos, and_true, Int.cast_natCast]
  generalize s.1.sum = S
  generalize hG : 7 * S / 160 = G
  have e1 : (8 * L + 8 * G < S) ↔ ((L : ℚ) < (S : ℚ) / 8 - (G : ℚ)) := by
    rw [← Nat.cast_lt (α := ℚ)]
    push_cast
    constructor <;> intro h <;> linarith
  have e2 : (S + 8 * G < 8 * L) ↔ ((S : ℚ) / 8 + (G : ℚ) < (L : ℚ)) := by
    rw [← Nat.cast_lt (α := ℚ)]
    push_cast
    constructor <;> intro h <;> linarith
  rw [e1, e2]

theorem tracks_mark (T : CwTimingLogic) (s : List Nat × Nat) (L : Nat) (h : Tracks T s)
    (hL : L < 4294967296) : Tracks (T.processPulse (CwElement.mk L true)) (natStep s L) := by
  have hq := qualifies_mark_iff T s L h hL
  obtain ⟨h1, h2, h3, h4, h5, h6, h7, h8, h9, h10, h11, h12⟩ := h
  obtain ⟨-, -, t3, t4, t5, t6, -, -⟩ := processPulse_tunables T (CwElement.mk L true)
  unfold natStep
  by_cases hc : (0 < L ∧ (8 * L + 8 * (7 * s.1.sum / 160) < s.1.sum ∨
        s.1.sum + 8 * (7 * s.1.sum / 160) < 8 * L))
  · rw [if_pos hc]
    obtain ⟨p1, p2, p3, p4, p5, p6⟩ := processPulse_pushed T _ (hq.2 hc)
    have hi : s.2 < s.1.length := by omega
    have hsum : (T.processPulse (CwElement.mk L true)).m_BoxCarSum =
        (((s.1.set s.2 L).sum : ℕ) : ℚ) := by
      rw [p3, h9, h7, h8, ← sum_map_natCast (s.1.set s.2 L), List.map_set, List.sum_set',
        sum_map_natCast]
      simp only [List.length_map, hi, dif_pos, List.getD_eq_getElem?_getD,
        List.getElem?_map, List.getElem?_eq_getElem hi, Option.map_some', Option.getD_some,
        List.getElem_map]
      ring
    refine ⟨t6.trans h1, t5.trans h2, t3.trans h3, t4.trans h4, by simp [h5],
      Nat.mod_lt _ (by norm_num), ?_, ?_, hsum, ?_, ?_, ?_⟩
    · rw [p1, h7, h8, List.map_set]
    · rw [p2, h8, h1]
    · rw [p4, hsum, h1]; norm_num
    · rw [p5, p4, hsum, h1]; norm_num; ring
    · rw [p6, p4, hsum, h2, h1]
      exact truncToInt_gap _
  · rw [if_neg hc]
    obtain ⟨p1, p2, p3, p4, p5, p6⟩ := processPulse_kept T _ (fun hh => hc (hq.1 hh))
    exact ⟨t6.trans h1, t5.trans h2, t3.trans h3, t4.trans h4, h5, h6, p1.trans h7,
      p2.trans h8, p3.trans h9, p4.trans h10, p5.trans h11, p6.trans h12⟩

theorem tracks_gap (T : CwTimingLogic) (s : List Nat × Nat) (L : Nat) (h : Tracks T s) :
    Tracks (T.processPulse (CwElement.mk L false)) s ∧
      T.qualifies (CwElement.mk L false) = false := by
  obtain ⟨h1, h2, h3, h4, h5, h6, h7, h8, h9, h10, h11, h12⟩ := h
  obtain ⟨-, -, t3, t4, t5, t6, -, -⟩ := processPulse_tunables T (CwElement.mk L false)
  have hq : T.qualifies (CwElement.mk L false) = false := by simp [qualifies]
  obtain ⟨p1, p2, p3, p4, p5, p6⟩ := processPulse_kept T (CwElement.mk L false) (by simp [hq])
  exact ⟨⟨t6.trans h1, t5.trans h2, t3.trans h3, t4.trans h4, h5, h6, p1.trans h7,
    p2.trans h8, p3.trans h9, p4.trans h10, p5.trans h11, p6.trans h12⟩, hq⟩

theorem tracks_track (T : CwTimingLogic) (s : List Nat × Nat) (pulses : List CwElement)
    (h : Tracks T s) (hL : ∀ e ∈ pulses, e.Length < 4294967296) :
    Tracks (T.track pulses) (pulses.foldl natPulse s) ∧
      pushCount T pulses = natCount s pulses := by
  induction pulses generalizing T s with
  | nil => exact ⟨h, rfl⟩
  | cons e rest ih =>
    have hrest : ∀ x ∈ rest, x.Length < 4294967296 :=
      fun x hx => hL x (List.mem_cons_of_mem _ hx)
    have he := hL e (List.mem_cons_self _ _)
    rw [track_cons, List.foldl_cons, pushCount, natCount]
    obtain ⟨L, mark⟩ := e
    cases mark with
    | false =>
      obtain ⟨g1, g2⟩ := tracks_gap T s L h
      obtain ⟨i1, i2⟩ := ih _ s g1 hrest
      refine ⟨by simpa [natPulse] using i1, ?_⟩
      rw [g2, i2]
      simp [natPulse]
    | true =>
      have g1 := tracks_mark T s L h he
      obtain ⟨i1, i2⟩ := ih _ _ g1 hrest
      refine ⟨by simpa [natPulse] using i1, ?_⟩
      rw [i2]
      have hq := qualifies_mark_iff T s L h he
      by_cases hc : (0 < L ∧ (8 * L + 8 * (7 * s.1.sum / 160) < s.1.sum ∨
          s.1.sum + 8 * (7 * s.1.sum / 160) < 8 * L))
      · simp [natPulse, hq.2 hc, hc]
      · have : ¬ T.qualifies (CwElement.mk L true) = true := fun hh => hc (hq.1 hh)
        simp [natPulse, this, hc]

theorem tracks_new (rx0 tx0 : ℚ) :
    Tracks (CwTimingLogic.new 1 8 rx0 tx0) (List.replicate 8 1, 0) := by
  obtain ⟨h1, h2, h3, h4, h5, h6, h7, h8, h9, h10⟩ := new_default_fields rx0 tx0
  unfold Tracks
  rw [h1, h2, h3, h4, h5, h6, h7, h8, h9, h10]
  refine ⟨rfl, rfl, rfl, rfl, rfl, by norm_num, by simp [List.replicate], rfl, by norm_num,
    by norm_num, by norm_num, by norm_num⟩

theorem tracks_of_inv (T : CwTimingLogic) (s1 : List Nat) (hb : BoxCarInv T) (hg : GapInv T)
    (hN : T.m_BoxCarSize = 8) (hmad : T.m_MinimumAverageDistance = 35 / 100)
    (hmin : T.MinimumMark = 0) (hmax : T.MaximumMark = FLT_MAX)
    (hbox : T.m_BoxCar = s1.map (fun (n : Nat) => (n : ℚ))) :
    Tracks T (s1, T.m_BoxCarIndex) := by
  obtain ⟨-, b2, b3, b4, b5, b6⟩ := hb
  unfold GapInv at hg
  have hsum : T.m_BoxCarSum = ((s1.sum : ℕ) : ℚ) := by rw [b3, hbox, sum_map_natCast]
  have havg : T.m_BoxCarAverage = ((s1.sum : ℕ) : ℚ) / 8 := by rw [b4, hsum, hN]; norm_num
  refine ⟨hN, hmad, hmin, hmax, ?_, by rw [← hN]; exact b6, hbox, rfl, hsum, havg, ?_, ?_⟩
  · have := b2
    rw [hbox, List.length_map, hN] at this
    exact this
  · rw [b5, havg]; ring
  · rw [hg, hmad, havg]
    exact truncToInt_gap _

theorem mark_of_qualifies (T : CwTimingLogic) (e : CwElement) (h : T.qualifies e = true) :
    e.Mark = true := ((qualifies_iff T e).1 h).1

/-- Once `j` raw elements have been written into the boxcar from the write index 0, the
first `j` entries, and all entries once `j` reaches the boxcar length, are lengths of
marks of the stream. -/
theorem entries_after_pushes (P : ℚ → Prop) (T : CwTimingLogic) (pulses : List CwElement)
    (j : Nat) (hb : BoxCarInv T) (hg : GapInv T)
    (hP : ∀ e ∈ pulses, e.Mark = true → P (e.Length : ℚ))
    (hj : ∀ pos, pos < T.m_BoxCarSize → pos < j → P (T.m_BoxCar.getD pos 0))
    (hi : j < T.m_BoxCarSize → T.m_BoxCarIndex = j) :
    (∀ pos, pos < T.m_BoxCarSize → pos < j + pushCount T pulses →
        P ((T.track pulses).m_BoxCar.getD pos 0)) ∧
      (j + pushCount T pulses < T.m_BoxCarSize →
        (T.track pulses).m_BoxCarIndex = j + pushCount T pulses) := by
  induction pulses generalizing T j with
  | nil =>
    simp only [pushCount, Nat.add_zero]
    exact ⟨hj, hi⟩
  | cons e rest ih =>
    have hrest : ∀ x ∈ rest, x.Mark = true → P (x.Length : ℚ) :=
      fun x hx => hP x (List.mem_cons_of_mem _ hx)
    obtain ⟨hb', hg'⟩ := processPulse_inv T e hb hg
    obtain ⟨b1, b2, -, -, -, b6⟩ := hb
    obtain ⟨-, -, -, -, -, t6, -, -⟩ := processPulse_tunables T e
    rw [track_cons, pushCount]
    by_cases hq : T.qualifies e = true
    · obtain ⟨p1, p2, -⟩ := processPulse_pushed T e hq
      have hPe := hP e (List.mem_cons_self _ _) (mark_of_qualifies T e hq)
      have key := ih (T.processPulse e) (j + 1) hb' hg' hrest
        (by
          intro pos hpos hlt
          rw [t6] at hpos
          rw [p1, List.getD_eq_getElem?_getD, List.getElem?_set]
          by_cases hpi : T.m_BoxCarIndex = pos
          · have : pos < T.m_BoxCar.length := by omega
            simp [hpi, this, hPe]
          · rw [if_neg hpi, ← List.getD_eq_getElem?_getD]
            apply hj pos hpos
            by_cases hjN : j < T.m_BoxCarSize
            · have := hi hjN; omega
            · omega)
        (by
          intro hlt
          rw [t6] at hlt
          rw [p2, hi (by omega), Nat.mod_eq_of_lt hlt])
      rw [t6] at key
      simp only [hq, if_true]
      rw [show j + (1 + pushCount (T.processPulse e) rest) =
        j + 1 + pushCount (T.processPulse e) rest by omega]
      exact key
    · obtain ⟨p1, p2, -⟩ := processPulse_kept T e hq
      have key := ih (T.processPulse e) j hb' hg' hrest
        (by intro pos hpos hlt; rw [t6] at hpos; rw [p1]; exact hj pos hpos hlt)
        (by intro hlt; rw [t6] at hlt; rw [p2]; exact hi hlt)
      rw [t6] at key
      simp only [hq, Bool.false_eq_true, if_false, Nat.zero_add]
      exact key

theorem sum_set_add (l : List Nat) (i : Nat) (h : i < l.length) (a : Nat) :
    (l.set i a).sum + l.getD i 0 = l.sum + a := by
  induction l generalizing i with
  | nil => simp at h
  | cons x xs ih =>
    cases i with
    | zero => simp; omega
    | succ j =>
      have := ih j (by simpa using h)
      simp only [List.set_cons_succ, List.sum_cons, List.getD_cons_succ]
      omega

theorem natStep_locked (d k : Nat) (s : List Nat × Nat) (hd : 2 ≤ d) (h : Locked d k s) :
    ∃ k', Locked d k' (natStep s (3 * d)) := by
  obtain ⟨h1, h2, h3, h4, h5⟩ := h
  unfold natStep
  by_cases hc : (0 < 3 * d ∧ (8 * (3 * d) + 8 * (7 * s.1.sum / 160) < s.1.sum ∨
      s.1.sum + 8 * (7 * s.1.sum / 160) < 8 * (3 * d)))
  · rw [if_pos hc]
    have hk : k < 5 := by
      rw [h3] at hc
      interval_cases k <;> omega
    have h0 : s.1.getD s.2 0 = 2 * d := by
      have := h5 0 (by omega)
      rwa [Nat.add_zero, Nat.mod_eq_of_lt h2] at this
    have hsum := sum_set_add s.1 s.2 (by omega) (3 * d)
    refine ⟨k + 1, by simp [h1], Nat.mod_lt _ (by norm_num), ?_, by omega, ?_⟩
    · have e : (16 + (k + 1)) * d = (16 + k) * d + d := by ring
      simp only
      rw [e, ← h3]
      omega
    · intro m hm
      have hj : ((s.2 + 1) % 8 + m) % 8 = (s.2 + (m + 1)) % 8 := by omega
      have hne : s.2 ≠ (s.2 + (m + 1)) % 8 := by omega
      simp only
      rw [hj, List.getD_eq_getElem?_getD, List.getElem?_set_ne hne,
        ← List.getD_eq_getElem?_getD]
      exact h5 (m + 1) (by omega)
  · rw [if_neg hc]
    exact ⟨k, h1, h2, h3, h4, h5⟩

theorem foldl_natPulse_locked (d : Nat) (hd : 2 ≤ d) (n k : Nat) (s : List Nat × Nat)
    (h : Locked d k s) :
    ∃ k', Locked d k' ((List.replicate n (CwElement.mk (3 * d) true)).foldl natPulse s) := by
  induction n generalizing k s with
  | zero => exact ⟨k, h⟩
  | succ n ih =>
    obtain ⟨k', hk'⟩ := natStep_locked d k s hd h
    rw [List.replicate_succ, List.foldl_cons]
    exact ih k' _ hk'

theorem locked_replicate (d i : Nat) (hi : i < 8) : Locked d 0 (List.replicate 8 (2 * d), i) := by
  refine ⟨by simp, hi, by simp; ring, by norm_num, ?_⟩
  intro m _
  have : (i + m) % 8 < 8 := Nat.mod_lt _ (by norm_num)
  show (List.replicate 8 (2 * d)).getD ((i + m) % 8) 0 = 2 * d
  rw [List.getD_eq_getElem?_getD, List.getElem?_replicate, if_pos this]
  rfl

theorem dotStream_tracked :
    Tracks ((CwTimingLogic.new 1 8 0 0).track dotStream)
        ([900, 900, 900, 900, 900, 900, 912, 1100], 0) ∧
      pushCount (CwTimingLogic.new 1 8 0 0) dotStream = 8 := by
  have hL : ∀ e ∈ dotStream, e.Length < 4294967296 := by decide
  obtain ⟨ht, hc⟩ := tracks_track (CwTimingLogic.new 1 8 0 0) _ dotStream (tracks_new 0 0) hL
  have hfold : dotStream.foldl natPulse (List.replicate 8 1, 0) =
      ([900, 900, 900, 900, 900, 900, 912, 1100], 0) := by decide
  have hcount : natCount (List.replicate 8 1, 0) dotStream = 8 := by decide
  rw [hfold] at ht
  exact ⟨ht, hc.trans hcount⟩

theorem dotStream_take :
    dotStream.take (min (CircularBuffer.mk dotStream 32).Count
        ((CircularBuffer.empty 32 : CircularBuffer MorseElements).capacity -
          (CircularBuffer.empty 32 : CircularBuffer MorseElements).Count)) = dotStream := by
  decide

/-! ### The setters and the classification of encoded pulses -/

theorem foldl_add_replicate (n : Nat) (c : ℚ) :
    (List.replicate n c).foldl (fun acc x => acc + x) 0 = (n : ℚ) * c := by
  rw [← List.sum_eq_foldl, List.sum_replicate, nsmul_eq_mul]

/-- The boxcar after `InitializeBoxCar(dotLength)` on at least one entry: every entry and
the average are `dotLength`, the tracked dot length is half of it. -/
theorem InitializeBoxCar_fields (T : CwTimingLogic) (dotLength : Int)
    (h : 1 ≤ T.m_BoxCarSize) :
    (T.InitializeBoxCar dotLength).m_BoxCar = List.replicate T.m_BoxCarSize (dotLength : ℚ) ∧
    (T.InitializeBoxCar dotLength).m_BoxCarAverage = (dotLength : ℚ) ∧
    (T.InitializeBoxCar dotLength).m_DotLength = (dotLength : ℚ) / 2 := by
  have hN : (T.m_BoxCarSize : ℚ) ≠ 0 := by
    have : (1 : ℚ) ≤ T.m_BoxCarSize := by exact_mod_cast h
    linarith
  have havg : (T.m_BoxCarSize : ℚ) * (dotLength : ℚ) / T.m_BoxCarSize = (dotLength : ℚ) := by
    field_simp
  simp only [InitializeBoxCar, foldl_add_replicate, havg]
  exact ⟨trivial, trivial, trivial⟩

theorem truncToInt_le (q : ℚ) (h : 0 ≤ q) : ((truncToInt q : ℤ) : ℚ) ≤ q := by
  rw [truncToInt_of_nonneg q h]
  exact_mod_cast Nat.floor_le h

/-- The classification of the pulses of 1, 3 and 5 dot lengths `d ≥ 1` with the multipliers
`m` and `s` gives back every element exactly when `1 ≤ m < 3` and `3 < s ≤ 5`. -/
theorem classifySpec_units_iff (d : Nat) (hd : 1 ≤ d) (m s : ℚ) :
    (∀ el : MorseElements,
      classifySpec (dotUnits el * d) (CwDecoderLogic.isMark el) (d : ℚ) m s = el) ↔
      (1 ≤ m ∧ m < 3 ∧ 3 < s ∧ s ≤ 5) := by
  have hdq : (0 : ℚ) < (d : ℚ) := by exact_mod_cast hd
  constructor
  · intro h
    have hDot := h .Dot
    have hDash := h .Dash
    have hDS := h .DashSpace
    have hWS := h .WordSpace
    simp only [classifySpec, dotUnits, CwDecoderLogic.isMark, Nat.cast_mul, Nat.cast_ofNat,
      Nat.cast_one, one_mul] at hDot hDash hDS hWS
    have h1 : 1 ≤ m := by
      by_contra hc
      have : ¬ ((d : ℚ) ≤ m * d) := by
        intro hle
        exact hc ((le_mul_iff_one_le_left hdq).1 hle)
      simp [this] at hDot
    have h3 : m < 3 := by
      by_contra hc
      have : (3 : ℚ) * d ≤ m * d := by nlinarith
      simp [this] at hDash
    have hn3 : ¬ ((3 : ℚ) * d ≤ m * d) := by
      intro hle; nlinarith
    have hs3 : 3 < s := by
      by_contra hc
      have : (3 : ℚ) * d ≥ s * d := by nlinarith
      simp [hn3, this] at hDS
    have hn5 : ¬ ((5 : ℚ) * d ≤ m * d) := by
      intro hle; nlinarith
    have hs5 : s ≤ 5 := by
      by_contra hc
      have : ¬ ((5 : ℚ) * d ≥ s * d) := by
        intro hle; nlinarith
      simp [hn5, this] at hWS
    exact ⟨h1, h3, hs3, hs5⟩
  · rintro ⟨h1, h3, hs3, hs5⟩ el
    have hn3 : ¬ ((3 : ℚ) * d ≤ m * d) := by
      intro hle; nlinarith
    have hn5 : ¬ ((5 : ℚ) * d ≤ m * d) := by
      intro hle; nlinarith
    have hle1 : (d : ℚ) ≤ m * d := by nlinarith
    have hns : ¬ ((3 : ℚ) * d ≥ s * d) := by
      intro hle; nlinarith
    have hs : (5 : ℚ) * d ≥ s * d := by nlinarith
    cases el <;>
      simp [classifySpec, dotUnits, CwDecoderLogic.isMark, hn3, hn5, hle1, hns, hs]

/-- With the RX speed set by hand, the elements `Decode` adds for the pulses of a list of
elements are their classifications at the RX dot length. -/
theorem classified_pulses (T : CwTimingLogic) (d : Nat) (els : List MorseElements)
    (hrx : T.m_RxSpeedSource = SpeedSources.SpeedManual) (hR : T.m_RxDotLength = (d : ℚ)) :
    classified T (els.map (fun el =>
      { Length := dotUnits el * d, Mark := CwDecoderLogic.isMark el })) =
      els.map (fun el => classifySpec (dotUnits el * d) (CwDecoderLogic.isMark el) (d : ℚ)
        T.MaximumDotLength T.MinimumWordSpace) := by
  induction els generalizing T with
  | nil => rfl
  | cons el rest ih =>
    obtain ⟨t1, t2, -, -, -, -, t7, -⟩ := processPulse_tunables T
      { Length := dotUnits el * d, Mark := CwDecoderLogic.isMark el }
    have hR' := (processPulse_rx_manual T
      { Length := dotUnits el * d, Mark := CwDecoderLogic.isMark el } hrx).trans hR
    rw [List.map_cons, classified, ih _ (t7.trans hrx) hR', classify_eq_classifySpec, hR',
      t1, t2, List.map_cons]

/-- The elements `Decode` adds for the pulses `Encode` produces at an integer TX dot
length, with queues that are large enough. -/
theorem Decode_Encode_items (T : CwTimingLogic) (d : Nat) (els : List MorseElements)
    (c0 c1 c2 : Nat) (hT : T.m_TxDotLength = (d : ℚ)) (h5 : 5 * d < 4294967296)
    (hc1 : els.length ≤ c1) (hc2 : els.length ≤ c2) :
    (T.Decode (T.Encode (CircularBuffer.mk els c0) (CircularBuffer.empty c1)).2.2
        (CircularBuffer.empty c2)).2.2.1.items =
      classified T (els.map (fun el =>
        { Length := dotUnits el * d, Mark := CwDecoderLogic.isMark el })) := by
  rw [timing_Encode_natCast T d _ _ hT h5 (by simpa [CircularBuffer.empty] using hc1),
    timing_Decode_eq]
  simp only [CircularBuffer.empty, CircularBuffer.Count, List.nil_append, List.length_nil,
    Nat.sub_zero, List.length_map]
  rw [Nat.min_eq_left hc2, ← List.length_map els (fun el =>
    ({ Length := dotUnits el * d, Mark := CwDecoderLogic.isMark el } : CwElement)),
    List.take_length]

theorem wpm_10_state :
    (((CwTimingLogic.new 1 8 0 0).RxWPM 10).TxWPM 10).m_RxSpeedSource =
      SpeedSources.SpeedManual ∧
    (((CwTimingLogic.new 1 8 0 0).RxWPM 10).TxWPM 10).m_RxDotLength = ((120 : ℕ) : ℚ) ∧
    (((CwTimingLogic.new 1 8 0 0).RxWPM 10).TxWPM 10).m_TxDotLength = ((120 : ℕ) : ℚ) ∧
    (((CwTimingLogic.new 1 8 0 0).RxWPM 10).TxWPM 10).MaximumDotLength = 2 ∧
    (((CwTimingLogic.new 1 8 0 0).RxWPM 10).TxWPM 10).MinimumWordSpace = 45 / 10 := by
  have h1200 : Int.tdiv 1200 10 = 120 := by decide
  simp only [TxWPM, RxWPM, CwTimingLogic.new, InitializeBoxCar, AllocateBoxCar, h1200]
  norm_num

end CwTimingLogic

/-! ## The claims -/

/-- C1: for every text over A-Z, 0-9, space, period and comma, every WPM `w` from 5 to 40,
the default multipliers (the constructor of the timing logic, with any dot length and boxcar
length), RX and TX both set by `RxWPM(w)` and `TxWPM(w)`, and queues with room for 13
elements per character: `CwDecoderLogic.Encode`, then `CwTimingLogic.Encode`, then
`CwTimingLogic.Decode`, then `CwDecoderLogic.Decode` writes exactly the text, both counts
are the length of the text, and the element queue is left empty. This holds whatever the
unassigned table slots hold. -/
theorem round_trip (u : Nat → Row) (dotLength : ℚ) (bcLength : Nat) (rx0 tx0 : ℚ) (w : Int)
    (text : List Char) (capTx capCw capEl : Nat) (buflen : Int)
    (hw5 : 5 ≤ w) (hw40 : w ≤ 40) (htext : ∀ c ∈ text, c ∈ roundTripAlphabet)
    (hTx : 13 * text.length ≤ capTx) (hCw : 13 * text.length ≤ capCw)
    (hEl : 13 * text.length ≤ capEl) :
    ((CwDecoderLogic.new u).Encode (CircularBuffer.empty capTx) text).1 = text.length ∧
    (CwDecoderLogic.new u).Decode
        ((((CwTimingLogic.new dotLength bcLength rx0 tx0).RxWPM w).TxWPM w).Decode
          ((((CwTimingLogic.new dotLength bcLength rx0 tx0).RxWPM w).TxWPM w).Encode
            ((CwDecoderLogic.new u).Encode (CircularBuffer.empty capTx) text).2
            (CircularBuffer.empty capCw)).2.2
          (CircularBuffer.empty capEl)).2.2.1 buflen =
      some (text.length, text, { items := [], capacity := capEl }) := by
  obtain ⟨d, hd30, hd240, hR, hTd, hrx, hmax, hmin⟩ :=
    CwTimingLogic.wpm_state (CwTimingLogic.new dotLength bcLength rx0 tx0) w hw5 hw40
  obtain ⟨hm2, hm45⟩ := CwTimingLogic.new_multipliers dotLength bcLength rx0 tx0
  rw [hm2] at hmax
  rw [hm45] at hmin
  have hlen := CwDecoderLogic.length_textElems_le u text false htext
  -- the elements of the text
  have hE : (CwDecoderLogic.new u).Encode (CircularBuffer.empty capTx) text =
      (text.length,
        { items := CwDecoderLogic.textElems (CwDecoderLogic.new u) text false,
          capacity := capTx }) := by
    rw [CwDecoderLogic.Encode_eq, CwDecoderLogic.filter_counted_eq u text htext,
      CircularBuffer.addAll_eq_of_room _ _ (by simp [CircularBuffer.empty]; omega)]
    simp [CircularBuffer.empty]
  -- the pulses of the elements
  have hP := CwTimingLogic.timing_Encode_natCast
    (((CwTimingLogic.new dotLength bcLength rx0 tx0).RxWPM w).TxWPM w) d
    { items := CwDecoderLogic.textElems (CwDecoderLogic.new u) text false, capacity := capTx }
    (CircularBuffer.empty capCw) hTd (by omega) (by simp [CircularBuffer.empty]; omega)
  -- the elements of the pulses
  have hC := CwTimingLogic.classified_manual
    (((CwTimingLogic.new dotLength bcLength rx0 tx0).RxWPM w).TxWPM w) d
    (CwDecoderLogic.textElems (CwDecoderLogic.new u) text false) (by omega) hrx hR hmax hmin
  refine ⟨by rw [hE], ?_⟩
  rw [hE, hP, CwTimingLogic.timing_Decode_eq]
  simp only [CircularBuffer.empty, CircularBuffer.Count, List.nil_append, List.length_map,
    List.length_nil,
    Nat.sub_zero]
  rw [Nat.min_eq_left (by omega), List.take_of_length_le (by simp), hC,
    CwDecoderLogic.Decode_eq]
  have hD := CwDecoderLogic.decodeRun_textElems u text false [] capEl [] htext
  rw [List.append_nil] at hD
  rw [hD, CwDecoderLogic.decodeRun_nil]
  simp

/-- C1 at the text "CQ 73, K." and 12 WPM, with the queue capacity 128. -/
theorem round_trip_witness :
    ((CwDecoderLogic.new zeroSlots).Encode (CircularBuffer.empty 128) "CQ 73, K.".toList).1 =
      "CQ 73, K.".toList.length ∧
    (CwDecoderLogic.new zeroSlots).Decode
        ((((CwTimingLogic.new 1 8 0 0).RxWPM 12).TxWPM 12).Decode
          ((((CwTimingLogic.new 1 8 0 0).RxWPM 12).TxWPM 12).Encode
            ((CwDecoderLogic.new zeroSlots).Encode (CircularBuffer.empty 128)
              "CQ 73, K.".toList).2
            (CircularBuffer.empty 128)).2.2
          (CircularBuffer.empty 128)).2.2.1 8 =
      some ("CQ 73, K.".toList.length, "CQ 73, K.".toList, { items := [], capacity := 128 }) :=
  round_trip zeroSlots 1 8 0 0 12 "CQ 73, K.".toList 128 128 128 8 (by decide) (by decide)
    (by decide) (by decide) (by decide) (by decide)

namespace CwDecoderLogic

set_option maxRecDepth 100000 in
/-- C2 as stated fails: the line feed is the decoded character of the table row `.-.-`, yet
`Encode` of the text made of one line feed gives a lone `WordSpace`, and `Decode` of that
writes a space, not the line feed. -/
theorem Encode_Decode_linefeed :
    '\n' ∈ tableRows.map Row.value ∧
      (Encode (CwDecoderLogic.new zeroSlots) (CircularBuffer.empty 32) ['\n']).2.items =
        [MorseElements.WordSpace] ∧
      Decode (CwDecoderLogic.new zeroSlots)
          (Encode (CwDecoderLogic.new zeroSlots) (CircularBuffer.empty 32) ['\n']).2 8 =
        some (1, [' '], { items := [], capacity := 32 }) ∧
      [' '] ≠ ['\n'] := by
  refine ⟨by decide, rfl, rfl, by decide⟩

/-- C2, amended: for every character `ch` that is the decoded character of a table row and
is not whitespace (every row but the line feed), `Encode` of the one-character text into an
empty queue with room for 13 elements, followed by `Decode`, writes exactly `ch`, returns 1
and leaves the queue empty, whatever the unassigned slots hold. -/
theorem Encode_Decode_char (u : Nat → Row) (ch : Char) (cap : Nat) (buflen : Int)
    (hch : ch ∈ tableRows.map Row.value) (hs : isspace ch = false) (hcap : 13 ≤ cap) :
    Decode (CwDecoderLogic.new u)
        (Encode (CwDecoderLogic.new u) (CircularBuffer.empty cap) [ch]).2 buflen =
      some (1, [ch], { items := [], capacity := cap }) := by
  obtain ⟨r, hr, rfl⟩ := List.mem_map.1 hch
  obtain ⟨h1, h6, hc, -, -⟩ := tableRows_lookups r hr
  have hlc : LookupChar (CwDecoderLogic.new u) r.value = some (r.pattern, r.len) := by
    have := LookupChar_new_of_lookupCharIn u '~' r.value _ hc
    rwa [withErrorSymbol_self] at this
  have htext : textElems (CwDecoderLogic.new u) [r.value] false =
      bitElems r.pattern r.len 1 false ++ [MorseElements.DashSpace] := by
    simp [textElems, hs, hlc]
  have hlen := length_bitElems_le r.pattern r.len 1 false
  rw [Encode_eq, htext, CircularBuffer.addAll_eq_of_room _ _
    (by simp [CircularBuffer.empty]; omega)]
  simp only [CircularBuffer.empty, List.nil_append]
  rw [Decode_eq, decodeRun_row u r hr false [] cap [], decodeRun_nil]
  simp

/-- C2, amended, at the character 'Q' with the queue capacity 32 of the source. -/
theorem Encode_Decode_char_witness :
    Decode (CwDecoderLogic.new zeroSlots)
        (Encode (CwDecoderLogic.new zeroSlots) (CircularBuffer.empty 32) ['Q']).2 8 =
      some (1, ['Q'], { items := [], capacity := 32 }) :=
  Encode_Decode_char zeroSlots 'Q' 32 8 (by decide) (by decide) (by decide)

/-- C3: for every table row with dot/dash literal `sPattern` and character `c`, `Decode` on
a queue holding the marks of the literal in order, with or without a `DotSpace` between
successive marks (`gaps` says where), followed by one `DashSpace`, returns 1, writes exactly
`c` and leaves the queue empty, whatever the unassigned slots hold. -/
theorem Decode_table_literal (u : Nat → Row) (sPattern : String) (c : Char) (gaps : List Bool)
    (cap : Nat) (buflen : Int) (h : (sPattern, c) ∈ tableLiterals) :
    Decode (CwDecoderLogic.new u)
        { items := gapped (literalMarks sPattern) gaps ++ [MorseElements.DashSpace],
          capacity := cap } buflen =
      some (1, [c], { items := [], capacity := cap }) := by
  obtain ⟨h1, h6, hl, h0⟩ := tableLiterals_lookupIn (sPattern, c) h
  simp only at h1 h6 hl h0
  have hne : literalMarks sPattern ≠ [] := by
    intro hnil
    have := markCount_literalMarks sPattern
    rw [hnil, markCount_nil] at this
    omega
  obtain ⟨pre, m, hg, hpre, hm⟩ :=
    gapped_decomp (literalMarks sPattern) gaps hne (isMark_literalMarks sPattern)
  have hcount : markCount (pre ++ [m]) = sPattern.toList.length := by
    rw [← hg, markCount_gapped, markCount_literalMarks]
  have hpat : patternOf (pre ++ [m]) 1 0 = makePattern sPattern.toList 1 0 := by
    rw [← hg, patternOf_gapped, literalMarks, patternOf_literalMarks]
  have hM := six_le_m_MaxElements u
  have hlook : Lookup (CwDecoderLogic.new u) (makePattern sPattern.toList 1 0)
      sPattern.toList.length = c := by
    have := Lookup_new_of_lookupIn u '~' _ _ _ h1 h6 hl
    rw [withErrorSymbol_self] at this
    rw [this]; rfl
  rw [Decode_eq, hg, List.append_assoc, List.singleton_append,
    decodeRun_group (CwDecoderLogic.new u) pre m MorseElements.DashSpace [] cap [] hpre hm rfl
      (by rw [hcount]; omega)
      (by rw [hcount]; omega),
    decodeRun_nil, hcount, hpat, emitChar, hlook]
  simp [h0]

set_option maxRecDepth 100000 in
/-- The two literal cases of C3: `[Dot, DotSpace, Dash, DashSpace]` gives 'A' and
`[Dash, Dash, Dash, DashSpace]` gives 'O'. -/
theorem Decode_table_literal_witness :
    ((".-", 'A') ∈ tableLiterals ∧
      Decode (CwDecoderLogic.new zeroSlots)
        { items := [.Dot, .DotSpace, .Dash, .DashSpace], capacity := 32 } 8 =
        some (1, ['A'], { items := [], capacity := 32 })) ∧
    (("---", 'O') ∈ tableLiterals ∧
      Decode (CwDecoderLogic.new zeroSlots)
        { items := [.Dash, .Dash, .Dash, .DashSpace], capacity := 32 } 8 =
        some (1, ['O'], { items := [], capacity := 32 })) :=
  ⟨⟨by decide, Decode_table_literal zeroSlots ".-" 'A' [true] 32 8 (by decide)⟩,
   ⟨by decide, Decode_table_literal zeroSlots "---" 'O' [] 32 8 (by decide)⟩⟩

set_option maxRecDepth 100000 in
/-- C4 as stated fails for the placeholder NUL: the four dashes `----` are assembled into a
pattern that is not in the table, and with `ErrorSymbol` set to NUL `Decode` writes no
character for it and returns 0. -/
theorem Decode_unmapped_NUL :
    findRow 4 (patternOf [.Dash, .Dash, .Dash, .Dash] 1 0) = none ∧
      Decode ((CwDecoderLogic.new zeroSlots).withErrorSymbol (Char.ofNat 0))
          { items := [.Dash, .Dash, .Dash, .Dash, .DashSpace], capacity := 32 } 8 =
        some (0, [], { items := [], capacity := 32 }) := by
  refine ⟨by decide, rfl⟩

/-- C4, amended: for every placeholder `e` other than NUL and every run of 1 to 5 marks, or
of 6 marks whose pattern is in the table, with or without short gaps between the marks and
followed by a boundary element `b`, `Decode` writes exactly one character for the pattern:
the character of the row with that length and pattern when there is one, else `e`. After
it comes a space when `b` is `WordSpace`. This holds whatever the unassigned slots hold. -/
theorem Decode_one_character (u : Nat → Row) (e : Char) (ms : List MorseElements)
    (gaps : List Bool) (b : MorseElements) (cap : Nat) (buflen : Int)
    (he : e ≠ Char.ofNat 0) (hms : ∀ x ∈ ms, isMark x = true) (hb : isBoundary b = true)
    (h1 : 1 ≤ ms.length)
    (h5 : ms.length ≤ 5 ∨ (ms.length = 6 ∧ (findRow ms.length (patternOf ms 1 0)).isSome)) :
    Decode ((CwDecoderLogic.new u).withErrorSymbol e)
        { items := gapped ms gaps ++ [b], capacity := cap } buflen =
      some (1 + (if b = MorseElements.WordSpace then 1 else 0),
        ((findRow ms.length (patternOf ms 1 0)).map Row.value).getD e ::
          (if b = MorseElements.WordSpace then [' '] else []),
        { items := [], capacity := cap }) := by
  have hne : ms ≠ [] := by intro h; rw [h] at h1; simp at h1
  obtain ⟨pre, m, hg, hpre, hm⟩ := gapped_decomp ms gaps hne hms
  have hmc : markCount ms = ms.length := by
    unfold markCount; rw [List.filter_eq_self.2 hms]
  have hcount : markCount (pre ++ [m]) = ms.length := by rw [← hg, markCount_gapped, hmc]
  have hpat : patternOf (pre ++ [m]) 1 0 = patternOf ms 1 0 := by rw [← hg, patternOf_gapped]
  have hM : 6 ≤ ((CwDecoderLogic.new u).withErrorSymbol e).m_MaxElements :=
    six_le_m_MaxElements u
  have hlook := Lookup_new_eq_findRow u e (patternOf ms 1 0) ms.length h1 h5
  have hnz : ((findRow ms.length (patternOf ms 1 0)).map Row.value).getD e ≠ Char.ofNat 0 := by
    cases hf : findRow ms.length (patternOf ms 1 0) with
    | none => simpa using he
    | some r =>
      have hr : r ∈ tableRows := List.mem_of_find?_eq_some hf
      simpa using (tableRows_lookups r hr).2.2.2.2
  have h6 : ms.length ≤ 6 := by omega
  rw [Decode_eq, hg, List.append_assoc, List.singleton_append,
    decodeRun_group _ pre m b [] cap [] hpre hm hb (by rw [hcount]; omega)
      (by rw [hcount]; omega),
    decodeRun_nil, hcount, hpat, emitChar, hlook, if_pos hnz]
  by_cases hw : b = MorseElements.WordSpace <;> simp [hw]

set_option maxRecDepth 100000 in
/-- C4, amended, at the unmapped pattern `----` with the default placeholder, and at the
mapped pattern `.-` followed by a `WordSpace`. -/
theorem Decode_one_character_witness :
    Decode (CwDecoderLogic.new zeroSlots)
        { items := [.Dash, .Dash, .Dash, .Dash, .DashSpace], capacity := 32 } 8 =
      some (1, ['~'], { items := [], capacity := 32 }) ∧
    Decode (CwDecoderLogic.new zeroSlots)
        { items := [.Dot, .DotSpace, .Dash, .WordSpace], capacity := 32 } 8 =
      some (2, ['A', ' '], { items := [], capacity := 32 }) :=
  ⟨Decode_one_character zeroSlots '~' [.Dash, .Dash, .Dash, .Dash] [] .DashSpace 32 8
      (by decide) (by decide) rfl (by decide) (Or.inl (by decide)),
   Decode_one_character zeroSlots '~' [.Dot, .Dash] [true] .WordSpace 32 8
      (by decide) (by decide) rfl (by decide) (Or.inl (by decide))⟩

end CwDecoderLogic

namespace CwTimingLogic

/-- C5: the element `Decode` appends for the `i`-th raw element it processes is short (`Dot`
for a mark, `DotSpace` for a gap) if the duration is at most `MaximumDotLength * unit`,
else `WordSpace` if the element is a gap of at least `MinimumWordSpace * unit`, else long
(`Dash` for a mark, `DashSpace` for a gap), where `unit` is the RX dot length after the
average update and the speed refresh for that element. A mark of exactly
`MaximumDotLength * unit` is a `Dot`, and a mark is never a `WordSpace`. -/
theorem Decode_classifies (T : CwTimingLogic) (raw : CircularBuffer CwElement)
    (result : CircularBuffer MorseElements) (i : Nat) (e : CwElement)
    (hi : i < min raw.Count (result.capacity - result.Count)) (he : raw.items[i]? = some e) :
    (T.Decode raw result).2.2.1.items[result.Count + i]? =
        some (classifySpec e.Length e.Mark (T.track (raw.items.take (i + 1))).m_RxDotLength
          T.MaximumDotLength T.MinimumWordSpace) ∧
      (e.Mark = true →
        (e.Length : ℚ) = T.MaximumDotLength * (T.track (raw.items.take (i + 1))).m_RxDotLength →
        (T.Decode raw result).2.2.1.items[result.Count + i]? = some MorseElements.Dot) ∧
      (e.Mark = true →
        (T.Decode raw result).2.2.1.items[result.Count + i]? ≠ some MorseElements.WordSpace) := by
  have hk : (raw.items.take (min raw.Count (result.capacity - result.Count)))[i]? = some e := by
    rw [List.getElem?_take_of_lt hi]; exact he
  have hc := getElem?_classified T _ i e hk
  have ht : (raw.items.take (min raw.Count (result.capacity - result.Count))).take (i + 1) =
      raw.items.take (i + 1) := by
    rw [List.take_take, Nat.min_eq_left (by omega)]
  obtain ⟨t1, t2, -⟩ := track_tunables T (raw.items.take (i + 1))
  have hget : (T.Decode raw result).2.2.1.items[result.Count + i]? =
      some (classifySpec e.Length e.Mark (T.track (raw.items.take (i + 1))).m_RxDotLength
        T.MaximumDotLength T.MinimumWordSpace) := by
    rw [timing_Decode_eq]
    rw [ht] at hc
    simp only [CircularBuffer.Count] at hc ⊢
    rw [List.getElem?_append_right (by omega), Nat.add_sub_cancel_left, hc,
      classify_eq_classifySpec, t1, t2]
  refine ⟨hget, ?_, ?_⟩
  · intro hm hl
    rw [hget, classifySpec, if_pos (le_of_eq hl), hm]; rfl
  · intro hm
    rw [hget, classifySpec, hm]
    split
    · simp
    · simp

/-- C5 at the first raw element of a queue, a mark of 240 ms at 10 WPM (dot length 120):
exactly `MaximumDotLength` units, hence a `Dot`. -/
theorem Decode_classifies_witness :
    (0 < min (CircularBuffer.mk [CwElement.mk 240 true] 32).Count
        ((CircularBuffer.empty 32 : CircularBuffer MorseElements).capacity -
          (CircularBuffer.empty 32 : CircularBuffer MorseElements).Count)) ∧
    (((CwTimingLogic.new 1 8 0 0).RxWPM 10).Decode (CircularBuffer.mk [CwElement.mk 240 true] 32)
        (CircularBuffer.empty 32)).2.2.1.items[0]? =
      some (classifySpec 240 true
        ((((CwTimingLogic.new 1 8 0 0).RxWPM 10).track [CwElement.mk 240 true]).m_RxDotLength)
        ((CwTimingLogic.new 1 8 0 0).RxWPM 10).MaximumDotLength
        ((CwTimingLogic.new 1 8 0 0).RxWPM 10).MinimumWordSpace) :=
  ⟨by decide,
    (Decode_classifies ((CwTimingLogic.new 1 8 0 0).RxWPM 10)
      (CircularBuffer.mk [CwElement.mk 240 true] 32) (CircularBuffer.empty 32) 0
      (CwElement.mk 240 true) (by decide) rfl).1⟩

/-- C6 as stated fails: in the state set up by `RxWPM(10)` (average 240, safety gap 84, the
range left at its default, from 0 to `FLT_MAX`) a mark of duration 0 lies in the closed range and
differs from the average by more than the safety gap, yet it is not written into the
boxcar: the boxcar and its sum are unchanged, while a write would have changed them. -/
theorem zero_mark_not_pushed :
    ((CwTimingLogic.new 1 8 0 0).RxWPM 10).MinimumMark ≤ ((CwElement.mk 0 true).Length : ℚ) ∧
    ((CwElement.mk 0 true).Length : ℚ) ≤ ((CwTimingLogic.new 1 8 0 0).RxWPM 10).MaximumMark ∧
    |((CwElement.mk 0 true).Length : ℚ) - ((CwTimingLogic.new 1 8 0 0).RxWPM 10).m_BoxCarAverage|
      > (((CwTimingLogic.new 1 8 0 0).RxWPM 10).m_SafetyGap : ℚ) ∧
    (((CwTimingLogic.new 1 8 0 0).RxWPM 10).processPulse (CwElement.mk 0 true)).m_BoxCar =
      List.replicate 8 240 ∧
    (((CwTimingLogic.new 1 8 0 0).RxWPM 10).processPulse (CwElement.mk 0 true)).m_BoxCarSum =
      1920 ∧
    (((CwTimingLogic.new 1 8 0 0).RxWPM 10).m_BoxCar.set
      ((CwTimingLogic.new 1 8 0 0).RxWPM 10).m_BoxCarIndex
        ((CwElement.mk 0 true).Length : ℚ)) ≠ List.replicate 8 240 := by
  obtain ⟨h1, h2, h3, h4, h5, h6, h7⟩ := RxWPM_10_fields
  have hno : ¬ ((CwTimingLogic.new 1 8 0 0).RxWPM 10).qualifies (CwElement.mk 0 true) = true := by
    rw [qualifies_iff, h3]; simp
  obtain ⟨g1, -, g3, -⟩ := processPulse_kept _ _ hno
  rw [g1, g3, h1, h2, h3, h4, h5, h6, h7]
  refine ⟨by simp, by simp [FLT_MAX], by norm_num, rfl, rfl, ?_⟩
  simp [List.replicate]

/-- C6, amended: the raw element processed from the state `T` writes its duration into the
boxcar (replacing the entry at the write index, advancing the index, recomputing the sum,
the average, the dot length and the safety gap) if it is a mark whose duration lies
strictly between `MinimumMark` and `MaximumMark` and differs from the average by more than
the safety gap; otherwise boxcar, index, sum, average, dot length and safety gap are
unchanged. -/
theorem processPulse_boxcar (T : CwTimingLogic) (e : CwElement) :
    ((e.Mark = true ∧ T.MinimumMark < (e.Length : ℚ) ∧ (e.Length : ℚ) < T.MaximumMark ∧
        |(e.Length : ℚ) - T.m_BoxCarAverage| > (T.m_SafetyGap : ℚ)) →
      (T.processPulse e).m_BoxCar = T.m_BoxCar.set T.m_BoxCarIndex (e.Length : ℚ) ∧
      (T.processPulse e).m_BoxCarIndex = (T.m_BoxCarIndex + 1) % T.m_BoxCarSize ∧
      (T.processPulse e).m_BoxCarSum =
        T.m_BoxCarSum - T.m_BoxCar.getD T.m_BoxCarIndex 0 + (e.Length : ℚ) ∧
      (T.processPulse e).m_BoxCarAverage = (T.processPulse e).m_BoxCarSum / T.m_BoxCarSize ∧
      (T.processPulse e).m_DotLength = (T.processPulse e).m_BoxCarAverage / 2 ∧
      (T.processPulse e).m_SafetyGap =
        truncToInt (T.m_MinimumAverageDistance * (T.processPulse e).m_BoxCarAverage)) ∧
    (¬ (e.Mark = true ∧ T.MinimumMark < (e.Length : ℚ) ∧ (e.Length : ℚ) < T.MaximumMark ∧
        |(e.Length : ℚ) - T.m_BoxCarAverage| > (T.m_SafetyGap : ℚ)) →
      (T.processPulse e).m_BoxCar = T.m_BoxCar ∧
      (T.processPulse e).m_BoxCarIndex = T.m_BoxCarIndex ∧
      (T.processPulse e).m_BoxCarSum = T.m_BoxCarSum ∧
      (T.processPulse e).m_BoxCarAverage = T.m_BoxCarAverage ∧
      (T.processPulse e).m_DotLength = T.m_DotLength ∧
      (T.processPulse e).m_SafetyGap = T.m_SafetyGap) := by
  constructor
  · intro h
    exact processPulse_pushed T e ((qualifies_iff T e).2 h)
  · intro h
    exact processPulse_kept T e (fun hq => h ((qualifies_iff T e).1 hq))

/-- C6, amended, at a mark of 400 ms in the state set up by `RxWPM(10)`: it is written into
the boxcar and the sum becomes 1920 - 240 + 400. -/
theorem processPulse_boxcar_witness :
    (((CwTimingLogic.new 1 8 0 0).RxWPM 10).processPulse (CwElement.mk 400 true)).m_BoxCarSum =
      ((CwTimingLogic.new 1 8 0 0).RxWPM 10).m_BoxCarSum -
        ((CwTimingLogic.new 1 8 0 0).RxWPM 10).m_BoxCar.getD
          ((CwTimingLogic.new 1 8 0 0).RxWPM 10).m_BoxCarIndex 0 +
        ((CwElement.mk 400 true).Length : ℚ) :=
  ((processPulse_boxcar ((CwTimingLogic.new 1 8 0 0).RxWPM 10) (CwElement.mk 400 true)).1
    (by
      obtain ⟨h1, h2, h3, h4, -⟩ := RxWPM_10_fields
      rw [h1, h2, h3, h4]
      refine ⟨rfl, by norm_num, by norm_num [FLT_MAX], ?_⟩
      norm_num [abs_of_pos])).2.2.1

/-- C7 as stated fails: after the constructor with dot length 3 (average 3) one gap pulse
through `Decode` leaves the automatic TX dot length at 3/2; `Encode` then gives a `Dash`
the duration 3, while 3 times the dot length is 9/2, which no rounding takes to 3. -/
theorem Encode_dash_not_rounded :
    ((CwTimingLogic.new 3 8 0 0).Decode (CircularBuffer.mk [CwElement.mk 1 false] 32)
        (CircularBuffer.empty 32)).1.m_TxDotLength = 3 / 2 ∧
    (((CwTimingLogic.new 3 8 0 0).Decode (CircularBuffer.mk [CwElement.mk 1 false] 32)
        (CircularBuffer.empty 32)).1.Encode (CircularBuffer.mk [.Dash] 32)
          (CircularBuffer.empty 32)).2.2.items = [CwElement.mk 3 true] ∧
    ((3 : ℚ) + 1 < 3 * (3 / 2)) := by
  have hT : ((CwTimingLogic.new 3 8 0 0).Decode (CircularBuffer.mk [CwElement.mk 1 false] 32)
      (CircularBuffer.empty 32)).1.m_TxDotLength = 3 / 2 := by
    rw [timing_Decode_eq]
    norm_num [CircularBuffer.Count, CircularBuffer.empty, track, processPulse, refreshSpeeds_eq,
      updateAverage, qualifies, CwTimingLogic.new, InitializeBoxCar, AllocateBoxCar, truncToInt,
      List.replicate]
  refine ⟨hT, ?_, by norm_num⟩
  have htr : truncToInt (3 / 2) = 1 := by norm_num [truncToInt]; decide
  unfold Encode
  rw [hT, htr]
  rfl

/-- C7, amended: for a TX dot length `d ≥ 0` and an element queue whose elements fit into the
pulse queue, `Encode` empties the element queue and appends exactly one pulse per element,
in order; the pulse is a mark iff the element is `Dot` or `Dash`; its duration is 1, 3 or 5
times the dot length truncated to an integer (`⌊d⌋`), for `Dot`/`DotSpace`, `Dash`/`DashSpace`
and `WordSpace`; the return value is the number of elements. -/
theorem Encode_truncated_units (T : CwTimingLogic) (txBuffer : CircularBuffer MorseElements)
    (cwBuffer : CircularBuffer CwElement)
    (hroom : cwBuffer.Count + txBuffer.Count ≤ cwBuffer.capacity)
    (h0 : 0 ≤ T.m_TxDotLength) (hmax : 5 * ⌊T.m_TxDotLength⌋₊ < 4294967296) :
    T.Encode txBuffer cwBuffer =
      (txBuffer.Count,
        { items := [], capacity := txBuffer.capacity },
        { items := cwBuffer.items ++ txBuffer.items.map (fun el =>
            { Length := dotUnits el * ⌊T.m_TxDotLength⌋₊, Mark := CwDecoderLogic.isMark el })
          capacity := cwBuffer.capacity }) := by
  unfold Encode
  simp only [timing_encodeLoop_eq, truncToInt_of_nonneg _ h0, Nat.zero_add]
  have hmap : txBuffer.items.map (encodeElement (⌊T.m_TxDotLength⌋₊ : ℤ)
      ((⌊T.m_TxDotLength⌋₊ : ℤ) * 3) ((⌊T.m_TxDotLength⌋₊ : ℤ) * 5)) =
      txBuffer.items.map (fun el =>
        { Length := dotUnits el * ⌊T.m_TxDotLength⌋₊, Mark := CwDecoderLogic.isMark el }) :=
    List.map_congr_left (fun el _ => encodeElement_floor _ hmax el)
  rw [hmap, CircularBuffer.addAll_eq_of_room _ _ (by simpa [CircularBuffer.Count] using hroom)]
  rfl

/-- C7, amended, at 10 WPM (dot length 120): the elements of the letter A give the pulses
120 on, 120 off, 360 on, 360 off. -/
theorem Encode_truncated_units_witness :
    ((CwTimingLogic.new 1 8 0 0).TxWPM 10).Encode
        (CircularBuffer.mk [.Dot, .DotSpace, .Dash, .DashSpace] 32) (CircularBuffer.empty 32) =
      (4, { items := [], capacity := 32 },
        { items := [CwElement.mk 120 true, CwElement.mk 120 false, CwElement.mk 360 true,
            CwElement.mk 360 false], capacity := 32 }) := by
  have hd := TxWPM_10_m_TxDotLength (CwTimingLogic.new 1 8 0 0)
  have hf : ⌊((CwTimingLogic.new 1 8 0 0).TxWPM 10).m_TxDotLength⌋₊ = 120 := by
    rw [hd]; exact Nat.floor_natCast 120
  have h := Encode_truncated_units ((CwTimingLogic.new 1 8 0 0).TxWPM 10)
    (CircularBuffer.mk [.Dot, .DotSpace, .Dash, .DashSpace] 32) (CircularBuffer.empty 32)
    (by decide) (by rw [hd]; norm_num) (by rw [hf]; decide)
  rw [hf] at h
  exact h

end CwTimingLogic

namespace CwDecoderLogic

set_option maxRecDepth 100000 in
/-- C8 as stated fails at the second position: `Encode` of "EE" appends a `DotSpace` before
the only mark of the second E, because `marked` is still set from the first E. -/
theorem Encode_EE :
    (Encode (CwDecoderLogic.new zeroSlots) (CircularBuffer.empty 32) ['E']).2.items =
      [.Dot, .DashSpace] ∧
    (Encode (CwDecoderLogic.new zeroSlots) (CircularBuffer.empty 32) ['E', 'E']).2.items =
      [.Dot, .DashSpace, .DotSpace, .Dot, .DashSpace] := by
  refine ⟨rfl, rfl⟩

/-- C8, amended: for every text `pre ++ ch :: post` whose elements leave the queue not full,
and every character `ch` of a table row `r` that is not whitespace, the elements `Encode`
appends for `ch` come right after those of `pre` and are: one `DotSpace` exactly when a mark
was appended for `pre`, then one `Dot` or `Dash` per bit of the pattern, least-significant
bit first, with exactly one `DotSpace` between successive marks, then exactly one
`DashSpace`. This holds whatever the unassigned slots hold. -/
theorem Encode_char_elements (u : Nat → Row) (txBuffer : CircularBuffer MorseElements)
    (pre post : List Char) (r : Row) (hr : r ∈ tableRows) (hs : isspace r.value = false)
    (hfull : (Encode (CwDecoderLogic.new u) txBuffer (pre ++ r.value :: post)).2.Full = false) :
    ∃ rest,
      (Encode (CwDecoderLogic.new u) txBuffer (pre ++ r.value :: post)).2.items =
        (Encode (CwDecoderLogic.new u) txBuffer pre).2.items ++
          ((if ((Encode (CwDecoderLogic.new u) txBuffer pre).2.items.drop
                txBuffer.items.length).any isMark
            then [MorseElements.DotSpace] else []) ++
          List.intersperse MorseElements.DotSpace (patternMarks r.pattern r.len) ++
          [MorseElements.DashSpace]) ++ rest := by
  obtain ⟨-, -, hc, -, -⟩ := tableRows_lookups r hr
  have hlc : LookupChar (CwDecoderLogic.new u) r.value = some (r.pattern, r.len) := by
    have := LookupChar_new_of_lookupCharIn u '~' r.value _ hc
    rwa [withErrorSymbol_self] at this
  rw [Encode_eq] at hfull
  dsimp only at hfull
  simp only [Encode_eq]
  rw [textElems_append, CircularBuffer.addAll_append] at hfull
  have hpre : ((txBuffer.addAll (textElems (CwDecoderLogic.new u) pre false)).Full = false) := by
    rw [CircularBuffer.Full_eq_false_iff] at hfull ⊢
    have h1 := CircularBuffer.length_items_addAll_ge
      (txBuffer.addAll (textElems (CwDecoderLogic.new u) pre false))
      (textElems (CwDecoderLogic.new u) (r.value :: post)
        (markedAfter (CwDecoderLogic.new u) pre false))
    rw [CircularBuffer.capacity_addAll] at hfull
    omega
  have h2 := CircularBuffer.items_addAll_of_not_full _ _ hfull
  rw [textElems_append, CircularBuffer.addAll_append, h2,
    CircularBuffer.items_addAll_of_not_full _ _ hpre, List.drop_left,
    markedAfter_eq, Bool.false_or, textElems]
  simp only [hs, Bool.false_eq_true, if_false, hlc]
  rw [tableRows_bitElems r hr]
  exact ⟨textElems (CwDecoderLogic.new u) post
    ((textElems (CwDecoderLogic.new u) pre false).any isMark || decide (r.len ≠ 0)),
    by simp [List.append_assoc]⟩

set_option maxRecDepth 100000 in
/-- C8, amended, at the second character of "EA": the elements of A come after a
`DotSpace`. -/
theorem Encode_char_elements_witness :
    ∃ rest,
      (Encode (CwDecoderLogic.new zeroSlots) (CircularBuffer.empty 32) (['E'] ++ 'A' :: [])).2.items =
        (Encode (CwDecoderLogic.new zeroSlots) (CircularBuffer.empty 32) ['E']).2.items ++
          ((if ((Encode (CwDecoderLogic.new zeroSlots) (CircularBuffer.empty 32) ['E']).2.items.drop
                (CircularBuffer.empty 32 : CircularBuffer MorseElements).items.length).any isMark
            then [MorseElements.DotSpace] else []) ++
          List.intersperse MorseElements.DotSpace (patternMarks 2 2) ++
          [MorseElements.DashSpace]) ++ rest :=
  Encode_char_elements zeroSlots (CircularBuffer.empty 32) ['E'] [] (MakeTableEntry ".-" 'A')
    (by decide) (by decide) rfl

set_option maxRecDepth 100000 in
/-- C9 at the text "#": the character is neither whitespace nor in a row the constructor
assigns, and the lookup goes on through the slots 39 to 55. When those hold zero bytes the
call returns 0 and adds nothing; when slot 39 holds `{1, 0, '#'}` the call returns 1 and
adds a `Dot` and a `DashSpace`. -/
theorem Encode_unassigned_slot :
    '#' ∉ tableRows.map Row.value ∧ isspace '#' = false ∧
    Encode (CwDecoderLogic.new zeroSlots) (CircularBuffer.empty 32) ['#'] =
      (0, { items := [], capacity := 32 }) ∧
    Encode (CwDecoderLogic.new hashSlots) (CircularBuffer.empty 32) ['#'] =
      (1, { items := [.Dot, .DashSpace], capacity := 32 }) := by
  refine ⟨by decide, by decide, rfl, rfl⟩

end CwDecoderLogic

namespace CwTimingLogic

/-- C10: `Decode` removes exactly `min r f` raw elements from the front of the raw queue
(`r` queued, `f` free slots in the result queue), appends exactly that many elements to the
result queue, one per raw element in order, and leaves the other raw elements queued
unchanged and in order; when the result queue is already full it consumes nothing, returns
false and leaves the whole timing state as it was. -/
theorem Decode_consumes_min (T : CwTimingLogic) (raw : CircularBuffer CwElement)
    (result : CircularBuffer MorseElements) :
    (T.Decode raw result).2.1 =
        { raw with items := raw.items.drop (min raw.Count (result.capacity - result.Count)) } ∧
      (T.Decode raw result).2.2.1 =
        { items := result.items ++
            classified T (raw.items.take (min raw.Count (result.capacity - result.Count)))
          capacity := result.capacity } ∧
      (classified T (raw.items.take (min raw.Count (result.capacity - result.Count)))).length =
        min raw.Count (result.capacity - result.Count) ∧
      (∀ i e, i < min raw.Count (result.capacity - result.Count) → raw.items[i]? = some e →
        (T.Decode raw result).2.2.1.items[result.Count + i]? =
          some (((T.track (raw.items.take (i + 1))).classify e).1)) ∧
      (result.Full = true → T.Decode raw result = (T, raw, result, false)) := by
  rw [timing_Decode_eq]
  refine ⟨rfl, rfl, ?_, ?_, ?_⟩
  · rw [length_classified, List.length_take]
    simp [CircularBuffer.Count]
  · intro i e hi he
    have hk : (raw.items.take (min raw.Count (result.capacity - result.Count)))[i]? = some e := by
      rw [List.getElem?_take_of_lt hi]; exact he
    have := getElem?_classified T _ i e hk
    have ht : (raw.items.take (min raw.Count (result.capacity - result.Count))).take (i + 1) =
        raw.items.take (i + 1) := by
      rw [List.take_take, Nat.min_eq_left (by omega)]
    rw [ht] at this
    simp only [CircularBuffer.Count] at this ⊢
    rw [List.getElem?_append_right (by omega), Nat.add_sub_cancel_left, this]
  · intro hf
    have hle : result.capacity ≤ result.items.length := by simpa [CircularBuffer.Full] using hf
    have hk : min raw.Count (result.capacity - result.Count) = 0 := by
      simp only [CircularBuffer.Count]; rw [Nat.sub_eq_zero_of_le hle]; simp
    rw [hk]
    simp [track_nil, classified, spaceAfter]

end CwTimingLogic

namespace CwTimingLogic

/-- C11 at one gap of 360 ms in the state set up by `RxWPM(10)` (dot length 120): the gap is
longer than 2 dot lengths and shorter than 4.5, so `Decode` adds a `DashSpace` and no
`WordSpace`, and it returns true. -/
theorem Decode_true_without_WordSpace :
    (((CwTimingLogic.new 1 8 0 0).RxWPM 10).Decode
        (CircularBuffer.mk [CwElement.mk 360 false] 32) (CircularBuffer.empty 32)).2.2.1.items =
      [MorseElements.DashSpace] ∧
    (((CwTimingLogic.new 1 8 0 0).RxWPM 10).Decode
        (CircularBuffer.mk [CwElement.mk 360 false] 32) (CircularBuffer.empty 32)).2.2.2 =
      true := by
  obtain ⟨hR, hrx, hmax, hmin⟩ := RxWPM_10_state
  obtain ⟨t1, t2, -, -, -, -, t7, -⟩ :=
    processPulse_tunables ((CwTimingLogic.new 1 8 0 0).RxWPM 10) (CwElement.mk 360 false)
  have hR' := (processPulse_rx_manual _ (CwElement.mk 360 false) hrx).trans hR
  have hc : (((CwTimingLogic.new 1 8 0 0).RxWPM 10).processPulse
      (CwElement.mk 360 false)).classify (CwElement.mk 360 false) =
      (MorseElements.DashSpace, true) := by
    unfold classify
    rw [hR', t1, t2, hmax, hmin]
    norm_num
  rw [timing_Decode_eq]
  simp [CircularBuffer.Count, CircularBuffer.empty, classified, spaceAfter, hc]

end CwTimingLogic

namespace CwDecoderLogic

set_option maxRecDepth 100000 in
/-- C12 at the queue of six dots and a `DashSpace`: the pattern has 6 bits and is not in the
table, the placeholder is '~', and no `WordSpace` is in the queue. The lookup goes past the
rows 37 and 38 into slot 39; when that slot holds `{6, 0, ' '}` the call writes a space,
when it holds zero bytes the call writes the placeholder. -/
theorem Decode_space_from_unassigned_slot :
    findRow 6 (patternOf [.Dot, .Dot, .Dot, .Dot, .Dot, .Dot] 1 0) = none ∧
    (CwDecoderLogic.new spaceSlots).ErrorSymbol = '~' ∧
    Decode (CwDecoderLogic.new spaceSlots)
        { items := [.Dot, .Dot, .Dot, .Dot, .Dot, .Dot, .DashSpace], capacity := 32 } 8 =
      some (1, [' '], { items := [], capacity := 32 }) ∧
    Decode (CwDecoderLogic.new zeroSlots)
        { items := [.Dot, .Dot, .Dot, .Dot, .Dot, .Dot, .DashSpace], capacity := 32 } 8 =
      some (1, ['~'], { items := [], capacity := 32 }) := by
  refine ⟨by decide, rfl, rfl, rfl⟩

end CwDecoderLogic

namespace CwTimingLogic

/-- C13 as stated fails for TX: after the constructor and one mark of 100 ms through
`Decode` the boxcar holds 100 followed by seven 1s and the write index is 1; `TxWPM(10)`
leaves both as they are instead of writing a seed into every entry and resetting the
index. -/
theorem TxWPM_keeps_boxcar :
    (((CwTimingLogic.new 1 8 0 0).Decode (CircularBuffer.mk [CwElement.mk 100 true] 32)
        (CircularBuffer.empty 32)).1.TxWPM 10).m_BoxCar = [100, 1, 1, 1, 1, 1, 1, 1] ∧
    (((CwTimingLogic.new 1 8 0 0).Decode (CircularBuffer.mk [CwElement.mk 100 true] 32)
        (CircularBuffer.empty 32)).1.TxWPM 10).m_BoxCarIndex = 1 := by
  have hT : ((CwTimingLogic.new 1 8 0 0).Decode (CircularBuffer.mk [CwElement.mk 100 true] 32)
      (CircularBuffer.empty 32)).1 =
      (CwTimingLogic.new 1 8 0 0).processPulse (CwElement.mk 100 true) := by
    rw [timing_Decode_eq]
    simp [CircularBuffer.Count, CircularBuffer.empty, track]
  obtain ⟨p1, p2, -⟩ := processPulse_pushed _ _ qualifies_new_100
  obtain ⟨h1, h2, h3, -⟩ := new_default_fields 0 0
  rw [hT]
  simp only [TxWPM]
  rw [p1, p2, h1, h2, h3]
  constructor
  · simp [List.replicate]
  · rfl

/-- C13, amended: for every `wpm > 0`, `RxWPM(wpm)` switches RX to manual mode, sets the RX
dot length to `1200 / wpm` (integer division) and reseeds the boxcar: every entry becomes
twice that dot length and the write index 0. `TxWPM(wpm)` switches TX to manual mode and
sets the TX dot length to `1200 / wpm`; it leaves the boxcar, the write index, the sum, the
average, the tracked dot length and the safety gap as they were. -/
theorem WPM_setters (T : CwTimingLogic) (wpm : Int) (h : 0 < wpm) :
    ((T.RxWPM wpm).m_RxSpeedSource = SpeedSources.SpeedManual ∧
      (T.RxWPM wpm).m_RxDotLength = ((1200 / wpm : ℤ) : ℚ) ∧
      (T.RxWPM wpm).m_BoxCar = List.replicate T.m_BoxCarSize (((1200 / wpm * 2 : ℤ)) : ℚ) ∧
      (T.RxWPM wpm).m_BoxCarIndex = 0) ∧
    ((T.TxWPM wpm).m_TxSpeedSource = SpeedSources.SpeedManual ∧
      (T.TxWPM wpm).m_TxDotLength = ((1200 / wpm : ℤ) : ℚ) ∧
      (T.TxWPM wpm).m_BoxCar = T.m_BoxCar ∧
      (T.TxWPM wpm).m_BoxCarIndex = T.m_BoxCarIndex ∧
      (T.TxWPM wpm).m_BoxCarSum = T.m_BoxCarSum ∧
      (T.TxWPM wpm).m_BoxCarAverage = T.m_BoxCarAverage ∧
      (T.TxWPM wpm).m_DotLength = T.m_DotLength ∧
      (T.TxWPM wpm).m_SafetyGap = T.m_SafetyGap) := by
  have htd : Int.tdiv 1200 wpm = 1200 / wpm :=
    Int.tdiv_eq_ediv (by norm_num) (le_of_lt h)
  simp only [RxWPM, TxWPM, InitializeBoxCar, htd]
  simp

/-- C13, amended, at 10 WPM from the constructed state. -/
theorem WPM_setters_witness :
    (((CwTimingLogic.new 1 8 0 0).RxWPM 10).m_RxSpeedSource = SpeedSources.SpeedManual ∧
      ((CwTimingLogic.new 1 8 0 0).RxWPM 10).m_RxDotLength = ((1200 / 10 : ℤ) : ℚ) ∧
      ((CwTimingLogic.new 1 8 0 0).RxWPM 10).m_BoxCar =
        List.replicate (CwTimingLogic.new 1 8 0 0).m_BoxCarSize (((1200 / 10 * 2 : ℤ)) : ℚ) ∧
      ((CwTimingLogic.new 1 8 0 0).RxWPM 10).m_BoxCarIndex = 0) :=
  (WPM_setters (CwTimingLogic.new 1 8 0 0) 10 (by decide)).1

/-- C14: for every call of `Decode` and each direction separately: in manual mode the dot
length of the direction is the same after the call as before; in automatic mode, when the
call processed at least one raw element, it equals `DotLength()` after the call. -/
theorem Decode_dot_lengths (T : CwTimingLogic) (raw : CircularBuffer CwElement)
    (result : CircularBuffer MorseElements) :
    (T.m_RxSpeedSource = SpeedSources.SpeedManual →
      (T.Decode raw result).1.m_RxDotLength = T.m_RxDotLength) ∧
    (T.m_TxSpeedSource = SpeedSources.SpeedManual →
      (T.Decode raw result).1.m_TxDotLength = T.m_TxDotLength) ∧
    (T.m_RxSpeedSource = SpeedSources.SpeedAuto →
      0 < min raw.Count (result.capacity - result.Count) →
      (T.Decode raw result).1.m_RxDotLength = (T.Decode raw result).1.DotLength) ∧
    (T.m_TxSpeedSource = SpeedSources.SpeedAuto →
      0 < min raw.Count (result.capacity - result.Count) →
      (T.Decode raw result).1.m_TxDotLength = (T.Decode raw result).1.DotLength) := by
  rw [timing_Decode_eq]
  obtain ⟨h1, h2⟩ := track_manual T
    (raw.items.take (min raw.Count (result.capacity - result.Count)))
  refine ⟨h1, h2, ?_, ?_⟩
  · intro ha hk
    have hne : raw.items.take (min raw.Count (result.capacity - result.Count)) ≠ [] := by
      intro h0
      have := congrArg List.length h0
      simp only [List.length_take, List.length_nil, CircularBuffer.Count] at this hk
      omega
    exact (track_auto T _ hne).1 ha
  · intro ha hk
    have hne : raw.items.take (min raw.Count (result.capacity - result.Count)) ≠ [] := by
      intro h0
      have := congrArg List.length h0
      simp only [List.length_take, List.length_nil, CircularBuffer.Count] at this hk
      omega
    exact (track_auto T _ hne).2 ha

/-- C14 at the state set up by `RxWPM(10)` (RX manual) and a `Decode` of one mark of 400 ms,
which changes the tracked dot length: the RX dot length is the same after the call. -/
theorem Decode_dot_lengths_witness :
    ((CwTimingLogic.new 1 8 0 0).RxWPM 10).m_RxSpeedSource = SpeedSources.SpeedManual ∧
    (((CwTimingLogic.new 1 8 0 0).RxWPM 10).Decode
        (CircularBuffer.mk [CwElement.mk 400 true] 32) (CircularBuffer.empty 32)).1.m_RxDotLength =
      ((CwTimingLogic.new 1 8 0 0).RxWPM 10).m_RxDotLength :=
  ⟨RxWPM_10_state.2.1,
    (Decode_dot_lengths ((CwTimingLogic.new 1 8 0 0).RxWPM 10)
      (CircularBuffer.mk [CwElement.mk 400 true] 32) (CircularBuffer.empty 32)).1
      RxWPM_10_state.2.1⟩

/-- C15: in every state reachable from the constructor with a boxcar length of at least 1
through `Decode`, `RxWPM`, `TxWPM`, the mode setters, `MinimumAverageDistance(x)`,
`BoxCarLength(n)` with `n ≥ 1` (and assignments to the public tunables), the boxcar holds
exactly `N = m_BoxCarSize ≥ 1` entries, `m_BoxCarSum` is the sum of the entries,
`m_BoxCarAverage = m_BoxCarSum / N`, `m_DotLength = m_BoxCarAverage / 2`, and the write
index is below `N`. -/
theorem boxcar_invariant (T : CwTimingLogic) (h : Reachable T) :
    1 ≤ T.m_BoxCarSize ∧
    T.m_BoxCar.length = T.m_BoxCarSize ∧
    T.m_BoxCarSum = T.m_BoxCar.sum ∧
    T.m_BoxCarAverage = T.m_BoxCarSum / T.m_BoxCarSize ∧
    T.m_DotLength = T.m_BoxCarAverage / 2 ∧
    T.m_BoxCarIndex < T.m_BoxCarSize :=
  (reachable_inv T h).1

/-- C15 at the state after the constructor, `RxWPM(10)` and a `Decode` of one mark of
400 ms: it is reachable and its boxcar sum is the sum of the boxcar entries. -/
theorem boxcar_invariant_witness :
    Reachable (((CwTimingLogic.new 1 8 0 0).RxWPM 10).Decode
      (CircularBuffer.mk [CwElement.mk 400 true] 32) (CircularBuffer.empty 32)).1 ∧
    (((CwTimingLogic.new 1 8 0 0).RxWPM 10).Decode
      (CircularBuffer.mk [CwElement.mk 400 true] 32) (CircularBuffer.empty 32)).1.m_BoxCarSum =
    (((CwTimingLogic.new 1 8 0 0).RxWPM 10).Decode
      (CircularBuffer.mk [CwElement.mk 400 true] 32)
      (CircularBuffer.empty 32)).1.m_BoxCar.sum :=
  ⟨Reachable.Decode _ _ _ (Reachable.RxWPM _ _ (Reachable.new 1 8 0 0 (by decide))),
    (boxcar_invariant _
      (Reachable.Decode _ _ _ (Reachable.RxWPM _ _ (Reachable.new 1 8 0 0 (by decide))))).2.2.1⟩

/-- C16 as stated fails: the default-constructed state is reachable, its safety gap is 0
(`m_SafetyGap` is an `int`), and `MinimumAverageDistance() * m_BoxCarAverage` is
35/100 * 1. -/
theorem SafetyGap_not_product :
    Reachable (CwTimingLogic.new 1 8 0 0) ∧
    (CwTimingLogic.new 1 8 0 0).m_SafetyGap = 0 ∧
    (CwTimingLogic.new 1 8 0 0).m_MinimumAverageDistance *
      (CwTimingLogic.new 1 8 0 0).m_BoxCarAverage = 35 / 100 ∧
    (((CwTimingLogic.new 1 8 0 0).m_SafetyGap : ℤ) : ℚ) ≠
      (CwTimingLogic.new 1 8 0 0).m_MinimumAverageDistance *
        (CwTimingLogic.new 1 8 0 0).m_BoxCarAverage := by
  obtain ⟨-, -, -, -, h5, -, h7, h8, -⟩ := new_default_fields 0 0
  rw [h5, h7, h8]
  exact ⟨Reachable.new 1 8 0 0 (by decide), rfl, by norm_num, by norm_num⟩

/-- C16, amended: in every reachable state the safety gap is the product of
`MinimumAverageDistance()` and the boxcar average, truncated toward zero to an integer. -/
theorem SafetyGap_truncated (T : CwTimingLogic) (h : Reachable T) :
    T.m_SafetyGap = truncToInt (T.m_MinimumAverageDistance * T.m_BoxCarAverage) :=
  (reachable_inv T h).2

/-- C16, amended, at the state set up by `RxWPM(10)`: the safety gap is the truncation of
35/100 * 240. -/
theorem SafetyGap_truncated_witness :
    Reachable ((CwTimingLogic.new 1 8 0 0).RxWPM 10) ∧
    ((CwTimingLogic.new 1 8 0 0).RxWPM 10).m_SafetyGap =
      truncToInt (((CwTimingLogic.new 1 8 0 0).RxWPM 10).m_MinimumAverageDistance *
        ((CwTimingLogic.new 1 8 0 0).RxWPM 10).m_BoxCarAverage) :=
  ⟨Reachable.RxWPM _ _ (Reachable.new 1 8 0 0 (by decide)),
    SafetyGap_truncated _ (Reachable.RxWPM _ _ (Reachable.new 1 8 0 0 (by decide)))⟩

end CwTimingLogic

namespace CwDecoderLogic

/-- C17: in the table the constructor builds (the 39 assigned slots), no two rows share the
pair of length and bit pattern. -/
theorem table_rows_distinct (u : Nat → Row) :
    (((CwDecoderLogic.new u).m_Mapping.take tableLiterals.length).map
      (fun r => (r.len, r.pattern))).Nodup := by
  have h : tableLiterals.length = tableRows.length := by simp [tableRows]
  rw [h, take_m_Mapping]
  exact tableRows_nodup

/-- C18 at the constructed object: `SymbolCount()` is 56, while the constructor makes 39
calls of `MakeTableEntry` and so puts 39 rows into the table. -/
theorem SymbolCount_stale (u : Nat → Row) :
    (CwDecoderLogic.new u).SymbolCount = 56 ∧ tableLiterals.length = 39 ∧
      tableRows.length = 39 := by
  refine ⟨rfl, by decide, length_tableRows⟩

end CwDecoderLogic

namespace CwTimingLogic

/-- C19 as stated fails: from the default-constructed state, `Decode` processes the stream
`dotStream`, whose eight marks are all within 10% of the dot length 1000 and all qualify;
afterwards `DotLength()` is 1853/4 = 463.25, not within 5% of 1000. -/
theorem dots_only_stream :
    (∀ e ∈ dotStream, e.Mark = true → 900 ≤ e.Length ∧ e.Length ≤ 1100) ∧
    pushCount (CwTimingLogic.new 1 8 0 0) dotStream = 8 ∧
    ((CwTimingLogic.new 1 8 0 0).Decode (CircularBuffer.mk dotStream 32)
      (CircularBuffer.empty 32)).1.DotLength = 1853 / 4 ∧
    ¬ (|(1853 / 4 : ℚ) - 1000| ≤ 5 / 100 * 1000) := by
  obtain ⟨ht, hc⟩ := dotStream_tracked
  refine ⟨by decide, hc, ?_, ?_⟩
  · rw [timing_Decode_eq, dotStream_take, DotLength, ht.2.2.2.2.2.2.2.2.2.2.1]
    norm_num
  · norm_num [abs_le]

/-- C19, amended: from the default-constructed state (boxcar length 8, default tunables),
for every true dot length `d` and every raw queue whose marks are within 10% of `d` or
within 10% of `3 * d`: once `Decode` has written at least 8 qualifying marks into the
boxcar, `DotLength()` lies between `0.45 * d` and `1.65 * d`. -/
theorem DotLength_after_N_marks (rx0 tx0 d : ℚ) (raw : CircularBuffer CwElement)
    (result : CircularBuffer MorseElements)
    (hstream : ∀ e ∈ raw.items, e.Mark = true →
      |(e.Length : ℚ) - d| ≤ d / 10 ∨ |(e.Length : ℚ) - 3 * d| ≤ 3 * d / 10)
    (hN : 8 ≤ pushCount (CwTimingLogic.new 1 8 rx0 tx0)
      (raw.items.take (min raw.Count (result.capacity - result.Count)))) :
    45 / 100 * d ≤ ((CwTimingLogic.new 1 8 rx0 tx0).Decode raw result).1.DotLength ∧
      ((CwTimingLogic.new 1 8 rx0 tx0).Decode raw result).1.DotLength ≤ 165 / 100 * d := by
  obtain ⟨hb, hg⟩ := reachable_inv _ (Reachable.new 1 8 rx0 tx0 (by norm_num))
  obtain ⟨f1, f2, f3, -⟩ := new_default_fields rx0 tx0
  have hP : ∀ e ∈ raw.items.take (min raw.Count (result.capacity - result.Count)),
      e.Mark = true → (9 / 10 * d ≤ (e.Length : ℚ) ∧ (e.Length : ℚ) ≤ 33 / 10 * d) := by
    intro e he hm
    rcases hstream e (List.mem_of_mem_take he) hm with h | h
    · rw [abs_le] at h
      constructor <;> linarith [h.1, h.2]
    · rw [abs_le] at h
      constructor <;> linarith [h.1, h.2]
  obtain ⟨hall, -⟩ := entries_after_pushes
    (fun x => 9 / 10 * d ≤ x ∧ x ≤ 33 / 10 * d) (CwTimingLogic.new 1 8 rx0 tx0) _ 0 hb hg hP
    (by intro pos _ h0; omega) (by intro _; exact f2)
  obtain ⟨c1, c2, c3, c4, c5, -⟩ := (track_inv (CwTimingLogic.new 1 8 rx0 tx0)
    (raw.items.take (min raw.Count (result.capacity - result.Count))) hb hg).1
  obtain ⟨-, -, -, -, -, t6, -, -⟩ := track_tunables (CwTimingLogic.new 1 8 rx0 tx0)
    (raw.items.take (min raw.Count (result.capacity - result.Count)))
  rw [timing_Decode_eq, DotLength, c5, c4, c3, t6, f3]
  rw [t6, f3] at c2
  have hmem : ∀ x ∈ ((CwTimingLogic.new 1 8 rx0 tx0).track
      (raw.items.take (min raw.Count (result.capacity - result.Count)))).m_BoxCar,
      9 / 10 * d ≤ x ∧ x ≤ 33 / 10 * d := by
    intro x hx
    obtain ⟨pos, hpos, rfl⟩ := List.mem_iff_getElem.1 hx
    have := hall pos (by rw [f3]; omega) (by omega)
    rwa [List.getD_eq_getElem _ _ hpos] at this
  have hlo := List.card_nsmul_le_sum _ (9 / 10 * d) (fun x hx => (hmem x hx).1)
  have hhi := List.sum_le_card_nsmul _ (33 / 10 * d) (fun x hx => (hmem x hx).2)
  rw [c2] at hlo hhi
  simp only [nsmul_eq_mul, Nat.cast_ofNat] at hlo hhi
  constructor
  · norm_num; linarith
  · norm_num; linarith

/-- C19, amended, at the stream `dotStream` with the true dot length 1000: its marks are
within 10% of 1000, eight of them are written into the boxcar, and `DotLength()` ends
between 450 and 1650. -/
theorem DotLength_after_N_marks_witness :
    8 ≤ pushCount (CwTimingLogic.new 1 8 0 0)
      (dotStream.take (min (CircularBuffer.mk dotStream 32).Count
        ((CircularBuffer.empty 32 : CircularBuffer MorseElements).capacity -
          (CircularBuffer.empty 32 : CircularBuffer MorseElements).Count))) ∧
    (45 / 100 * 1000 ≤ ((CwTimingLogic.new 1 8 0 0).Decode (CircularBuffer.mk dotStream 32)
        (CircularBuffer.empty 32)).1.DotLength ∧
      ((CwTimingLogic.new 1 8 0 0).Decode (CircularBuffer.mk dotStream 32)
        (CircularBuffer.empty 32)).1.DotLength ≤ 165 / 100 * 1000) :=
  ⟨by rw [dotStream_take, dotStream_tracked.2],
    DotLength_after_N_marks 0 0 1000 (CircularBuffer.mk dotStream 32) (CircularBuffer.empty 32)
      (by
        intro e he hm
        have h := (by decide : ∀ e ∈ dotStream, e.Mark = true →
          900 ≤ e.Length ∧ e.Length ≤ 1100) e he hm
        have h1 : (900 : ℚ) ≤ (e.Length : ℚ) := by exact_mod_cast h.1
        have h2 : (e.Length : ℚ) ≤ 1100 := by exact_mod_cast h.2
        left
        rw [abs_le]
        constructor <;> linarith)
      (by rw [dotStream_take, dotStream_tracked.2])⟩

set_option maxRecDepth 100000 in
/-- C20 as stated fails at the dot length 1: in the state set up by `RxWPM(1200)` every
boxcar entry is 2 and `DotLength()` is 1; the safety gap is the truncation of 0.7, which is
0. After `Decode` has processed a run of 20 marks of length 3, `DotLength()` is 23/16, which
differs from 1 by more than 35/100 * 1. -/
theorem dash_run_drifts :
    ((CwTimingLogic.new 1 8 0 0).RxWPM 1200).m_BoxCar = List.replicate 8 2 ∧
    ((CwTimingLogic.new 1 8 0 0).RxWPM 1200).DotLength = 1 ∧
    ((CwTimingLogic.new 1 8 0 0).RxWPM 1200).m_SafetyGap = 0 ∧
    (((CwTimingLogic.new 1 8 0 0).RxWPM 1200).Decode
      (CircularBuffer.mk (List.replicate 20 (CwElement.mk 3 true)) 32)
      (CircularBuffer.empty 32)).1.DotLength = 23 / 16 ∧
    ¬ (|(23 / 16 : ℚ) - 1| ≤ 35 / 100 * 1) := by
  have h1200 : Int.tdiv 1200 1200 = 1 := by decide
  have hf : ((CwTimingLogic.new 1 8 0 0).RxWPM 1200).m_BoxCar = List.replicate 8 2 ∧
      ((CwTimingLogic.new 1 8 0 0).RxWPM 1200).DotLength = 1 ∧
      ((CwTimingLogic.new 1 8 0 0).RxWPM 1200).m_SafetyGap = 0 := by
    simp only [RxWPM, DotLength, CwTimingLogic.new, InitializeBoxCar, AllocateBoxCar, h1200]
    norm_num [truncToInt, List.replicate]
    decide
  have hr := reachable_inv _ (Reachable.RxWPM _ 1200 (Reachable.new 1 8 0 0 (by decide)))
  have hs : ((CwTimingLogic.new 1 8 0 0).RxWPM 1200).m_BoxCarSize = 8 ∧
      ((CwTimingLogic.new 1 8 0 0).RxWPM 1200).m_MinimumAverageDistance = 35 / 100 ∧
      ((CwTimingLogic.new 1 8 0 0).RxWPM 1200).MinimumMark = 0 ∧
      ((CwTimingLogic.new 1 8 0 0).RxWPM 1200).MaximumMark = FLT_MAX ∧
      ((CwTimingLogic.new 1 8 0 0).RxWPM 1200).m_BoxCarIndex = 0 := by
    simp only [RxWPM, CwTimingLogic.new, InitializeBoxCar, AllocateBoxCar]
    norm_num
  have ht := tracks_of_inv _ (List.replicate 8 2) hr.1 hr.2 hs.1 hs.2.1 hs.2.2.1 hs.2.2.2.1
    (by rw [hf.1]; simp [List.replicate])
  rw [hs.2.2.2.2] at ht
  have hL : ∀ e ∈ List.replicate 20 (CwElement.mk 3 true), e.Length < 4294967296 := by decide
  have hfold : (List.replicate 20 (CwElement.mk 3 true)).foldl natPulse (List.replicate 8 2, 0)
      = ([3, 3, 3, 3, 3, 3, 3, 2], 7) := by decide
  have hk : (List.replicate 20 (CwElement.mk 3 true)).take
      (min (CircularBuffer.mk (List.replicate 20 (CwElement.mk 3 true)) 32).Count
        ((CircularBuffer.empty 32 : CircularBuffer MorseElements).capacity -
          (CircularBuffer.empty 32 : CircularBuffer MorseElements).Count)) =
      List.replicate 20 (CwElement.mk 3 true) := by decide
  have ht2 := (tracks_track _ _ _ ht hL).1
  rw [hfold] at ht2
  refine ⟨hf.1, hf.2.1, hf.2.2, ?_, ?_⟩
  · rw [timing_Decode_eq, hk, DotLength, ht2.2.2.2.2.2.2.2.2.2.2.1]
    norm_num
  · norm_num [abs_le]

/-- C20, amended: from a reachable state with boxcar length 8, minimum average distance
35/100 and the default mark range, in which every boxcar entry is `2 * d` for a dot length
`d ≥ 2` (as seeded by `RxWPM(w)` for `w ≤ 600`): `DotLength()` is `d`, and after `Decode`
has processed a run of any number of marks each of length `3 * d`, `DotLength()` differs
from `d` by at most `35/100 * d`. -/
theorem dash_run_stable (T : CwTimingLogic) (d : Nat) (raw : CircularBuffer CwElement)
    (result : CircularBuffer MorseElements) (n : Nat)
    (hr : Reachable T) (hN : T.m_BoxCarSize = 8)
    (hmad : T.m_MinimumAverageDistance = 35 / 100) (hmin : T.MinimumMark = 0)
    (hmax : T.MaximumMark = FLT_MAX) (hbox : T.m_BoxCar = List.replicate 8 (2 * (d : ℚ)))
    (hd : 2 ≤ d) (hlen : 3 * d < 4294967296)
    (hraw : raw.items = List.replicate n (CwElement.mk (3 * d) true)) :
    T.DotLength = d ∧ |(T.Decode raw result).1.DotLength - d| ≤ 35 / 100 * d := by
  obtain ⟨hb, hg⟩ := reachable_inv T hr
  have ht := tracks_of_inv T (List.replicate 8 (2 * d)) hb hg hN hmad hmin hmax
    (by rw [hbox, List.map_replicate]; push_cast; rfl)
  have hi : T.m_BoxCarIndex < 8 := ht.2.2.2.2.2.1
  have h0 : T.DotLength = d := by
    rw [DotLength, ht.2.2.2.2.2.2.2.2.2.2.1]
    simp only [List.sum_replicate, smul_eq_mul]
    push_cast; ring
  refine ⟨h0, ?_⟩
  rw [timing_Decode_eq, hraw, List.take_replicate]
  generalize min (min raw.Count (result.capacity - result.Count)) n = j
  have hL : ∀ e ∈ List.replicate j (CwElement.mk (3 * d) true), e.Length < 4294967296 := by
    intro e he
    rw [List.eq_of_mem_replicate he]
    exact hlen
  have ht2 := (tracks_track T _ _ ht hL).1
  obtain ⟨k, -, -, hsum, hk, -⟩ := foldl_natPulse_locked d hd j 0 _
    (locked_replicate d T.m_BoxCarIndex hi)
  rw [DotLength, ht2.2.2.2.2.2.2.2.2.2.2.1, hsum]
  have hk' : (k : ℚ) ≤ 5 := by exact_mod_cast hk
  have hd0 : (0 : ℚ) ≤ d := Nat.cast_nonneg d
  have e : (((16 + k) * d : ℕ) : ℚ) / 16 - d = (k : ℚ) * d / 16 := by push_cast; ring
  rw [e, abs_of_nonneg (by positivity)]
  nlinarith

/-- C20, amended, at the state set up by `RxWPM(10)` (dot length 120, every boxcar entry
240) and a run of 20 marks of 360 ms. -/
theorem dash_run_stable_witness :
    Reachable ((CwTimingLogic.new 1 8 0 0).RxWPM 10) ∧
    ((CwTimingLogic.new 1 8 0 0).RxWPM 10).m_BoxCar = List.replicate 8 (2 * ((120 : ℕ) : ℚ)) ∧
    (((CwTimingLogic.new 1 8 0 0).RxWPM 10).DotLength = ((120 : ℕ) : ℚ) ∧
      |(((CwTimingLogic.new 1 8 0 0).RxWPM 10).Decode
          (CircularBuffer.mk (List.replicate 20 (CwElement.mk (3 * 120) true)) 32)
          (CircularBuffer.empty 32)).1.DotLength - ((120 : ℕ) : ℚ)| ≤
        35 / 100 * ((120 : ℕ) : ℚ)) :=
  ⟨Reachable.RxWPM _ _ (Reachable.new 1 8 0 0 (by decide)),
    by rw [RxWPM_10_fields.2.2.2.2.2.2]; norm_num,
    dash_run_stable ((CwTimingLogic.new 1 8 0 0).RxWPM 10) 120
      (CircularBuffer.mk (List.replicate 20 (CwElement.mk (3 * 120) true)) 32)
      (CircularBuffer.empty 32) 20
      (Reachable.RxWPM _ _ (Reachable.new 1 8 0 0 (by decide)))
      RxWPM_10_size.1 RxWPM_10_size.2 RxWPM_10_fields.2.2.1 RxWPM_10_fields.2.2.2.1
      (by rw [RxWPM_10_fields.2.2.2.2.2.2]; norm_num) (by decide) (by decide) rfl⟩

end CwTimingLogic

namespace CwDecoderLogic

set_option maxRecDepth 100000 in
/-- C21: for every content of the unassigned slots (bytes) `Decode` returns, and the queue
it leaves is the original queue without some front items, holds no `DashSpace` and no
`WordSpace` and fewer marks than `m_MaxElements`; a queue without boundary and with fewer
than 6 marks is left as it is, with the count 0 and nothing written; `m_MaxElements` is 6
when no unassigned slot holds a length above 6. It is not 6 in general: with the 7-element
row of '$' in slot 39 it is 7, and a queue of six dots is left as it is, with six marks,
while with zero bytes in the slots the six dots are consumed. -/
theorem Decode_leaves_partial :
    (∀ (u : Nat → Row) (rxBuffer : CircularBuffer MorseElements) (buflen : Int),
      (∀ k, k < 17 → (u k).len ≤ 255) →
      ∃ (n : Nat) (out : List Char) (rest : CircularBuffer MorseElements) (k : Nat),
        Decode (CwDecoderLogic.new u) rxBuffer buflen = some (n, out, rest) ∧
        rest.capacity = rxBuffer.capacity ∧
        k ≤ rxBuffer.items.length ∧ rest.items = rxBuffer.items.drop k ∧
        (∀ x ∈ rest.items, x ≠ MorseElements.DashSpace ∧ x ≠ MorseElements.WordSpace) ∧
        markCount rest.items < (CwDecoderLogic.new u).m_MaxElements) ∧
    (∀ (u : Nat → Row) (rxBuffer : CircularBuffer MorseElements) (buflen : Int),
      (∀ x ∈ rxBuffer.items, x ≠ MorseElements.DashSpace ∧ x ≠ MorseElements.WordSpace) →
      markCount rxBuffer.items < 6 →
      Decode (CwDecoderLogic.new u) rxBuffer buflen = some (0, [], rxBuffer)) ∧
    (∀ (u : Nat → Row), (∀ k, k < 17 → (u k).len ≤ 6) →
      (CwDecoderLogic.new u).m_MaxElements = 6) ∧
    (CwDecoderLogic.new longSlots).m_MaxElements = 7 ∧
    Decode (CwDecoderLogic.new longSlots)
        { items := [.Dot, .Dot, .Dot, .Dot, .Dot, .Dot], capacity := 32 } 8 =
      some (0, [], { items := [.Dot, .Dot, .Dot, .Dot, .Dot, .Dot], capacity := 32 }) ∧
    markCount [.Dot, .Dot, .Dot, .Dot, .Dot, .Dot] = 6 ∧
    Decode (CwDecoderLogic.new zeroSlots)
        { items := [.Dot, .Dot, .Dot, .Dot, .Dot, .Dot], capacity := 32 } 8 =
      some (1, ['~'], { items := [], capacity := 32 }) := by
  have hbd : ∀ x : MorseElements,
      (x ≠ MorseElements.DashSpace ∧ x ≠ MorseElements.WordSpace) ↔ isBoundary x = false := by
    intro x; cases x <;> simp [isBoundary]
  refine ⟨?_, ?_, m_MaxElements_eq_six, rfl, rfl, rfl, rfl⟩
  · intro u rxBuffer buflen hu
    have h6 := six_le_m_MaxElements u
    obtain ⟨n, out, rest, k, g1, g2, g3, g4, g5, g6⟩ :=
      Decode_rest (CwDecoderLogic.new u) rxBuffer buflen (by omega)
        (m_MaxElements_le u 255 (by norm_num) hu)
    exact ⟨n, out, rest, k, g1, g2, g3, g4, fun x hx => (hbd x).2 (g5 x hx), g6⟩
  · intro u rxBuffer buflen hb hm
    have h6 := six_le_m_MaxElements u
    exact Decode_partial _ rxBuffer buflen (fun x hx => (hbd x).1 (hb x hx)) (by omega)
      (by omega)

/-- C22: `Decode` does not read `buflen`: the result is the same for every value of it; and
a queue of nine `WordSpace` elements makes `Decode` with `buflen = 8` write nine spaces and
return 9, which is more than `buflen`. -/
theorem Decode_ignores_buflen :
    (∀ (D : CwDecoderLogic) (rxBuffer : CircularBuffer MorseElements) (b1 b2 : Int),
      Decode D rxBuffer b1 = Decode D rxBuffer b2) ∧
    (∀ (D : CwDecoderLogic) (cap : Nat),
      Decode D { items := List.replicate 9 MorseElements.WordSpace, capacity := cap } 8 =
        some (9, List.replicate 9 ' ', { items := [], capacity := cap })) ∧
    ((8 : Int) < ((9 : Nat) : Int)) := by
  refine ⟨fun _ _ _ _ => rfl, ?_, by decide⟩
  intro D cap
  rw [Decode_eq]
  simp only [List.replicate]
  iterate 9 rw [decodeRun_boundary D MorseElements.WordSpace _ _ _ rfl]
  rw [decodeRun_nil]
  rfl

/-- C23: for every queue `Decode` returns: the loop makes at most `Count + 1` passes (any
fuel of at least `Count + 1` passes gives the same result), every pass that is followed by
another removes at least one item, and the scan of the last pass, over the queue that is
left, reads no entire symbol. -/
theorem Decode_terminates (D : CwDecoderLogic) (rxBuffer : CircularBuffer MorseElements)
    (buflen : Int) :
    (∃ (n : Nat) (out : List Char) (rest : CircularBuffer MorseElements) (p : Nat),
      Decode D rxBuffer buflen = some (n, out, rest) ∧
      passCount D (rxBuffer.Count + 1) rxBuffer = some p ∧ p ≤ rxBuffer.Count + 1 ∧
      (scanLoop D rest.items Scan.reset).done = false) ∧
    (∀ fuel, rxBuffer.Count + 1 ≤ fuel →
      decodeLoop D fuel rxBuffer [] = Decode D rxBuffer buflen) ∧
    (∀ rx : CircularBuffer MorseElements, (scanLoop D rx.items Scan.reset).done = true →
      (rx.RemoveItems (scanLoop D rx.items Scan.reset).count).Count < rx.Count) := by
  obtain ⟨out, rest, k, p, g1, g2, g3, g4, g5, g6, g7, g8, g9⟩ :=
    decodeLoop_spec D (rxBuffer.Count + 1) rxBuffer [] (le_refl _)
  refine ⟨⟨out.length, out, rest, p, g1, g8, g9, g5⟩, ?_, ?_⟩
  · intro fuel hf
    rw [decodeLoop_fuel D fuel rxBuffer [] hf]
    rfl
  · intro rx hd
    have := length_RemoveItems_scan D rx hd
    simp only [CircularBuffer.Count]
    omega

set_option maxRecDepth 100000 in
/-- C24: the 39 assigned rows are sorted by length; for the lengths 1 to 6 the hashes table
holds the index of the first row of the length; the pattern lookup returns the character
of the row with the given length and pattern when there is one, and the error symbol for
the length 0, for a length above `m_MaxElements`, and for a pattern of 1 to 5 bits that is
in no row. For a pattern of 6 bits that is in no row it does not: the scan goes on into
the unassigned slot 39, and with `{6, 0, ' '}` there `Lookup(0, 6)` returns a space, not
the error symbol '~'. -/
theorem Lookup_table_search :
    (∀ u : Nat → Row,
      ((((CwDecoderLogic.new u).m_Mapping.take tableLiterals.length).map Row.len).Pairwise
        (fun a b => a ≤ b))) ∧
    (∀ (u : Nat → Row) (L : Nat), 1 ≤ L → L ≤ 6 →
      (CwDecoderLogic.new u).m_Hashes.getD (L - 1) 0 =
        ((CwDecoderLogic.new u).m_Mapping.take tableLiterals.length).findIdx
          (fun r => decide (r.len = L))) ∧
    (∀ (u : Nat → Row) (e : Char) (symbol sLen : Nat) (r : Row),
      findRow sLen symbol = some r →
      Lookup ((CwDecoderLogic.new u).withErrorSymbol e) symbol sLen = r.value) ∧
    (∀ (u : Nat → Row) (e : Char) (symbol sLen : Nat),
      (sLen = 0 ∨ (CwDecoderLogic.new u).m_MaxElements < sLen ∨
        (sLen ≤ 5 ∧ findRow sLen symbol = none)) →
      Lookup ((CwDecoderLogic.new u).withErrorSymbol e) symbol sLen = e) ∧
    (findRow 6 0 = none ∧ (CwDecoderLogic.new spaceSlots).ErrorSymbol = '~' ∧
      Lookup (CwDecoderLogic.new spaceSlots) 0 6 = ' ' ∧
      Lookup (CwDecoderLogic.new zeroSlots) 0 6 = '~') := by
  have hlen : tableLiterals.length = tableRows.length := by simp [tableRows]
  refine ⟨?_, ?_, ?_, ?_, by decide, rfl, rfl, rfl⟩
  · intro u
    rw [hlen, take_m_Mapping]
    exact tableRows_sorted
  · intro u L h1 h6
    have hmem : L ∈ [1, 2, 3, 4, 5, 6] := by
      have : L = 1 ∨ L = 2 ∨ L = 3 ∨ L = 4 ∨ L = 5 ∨ L = 6 := by omega
      rcases this with rfl | rfl | rfl | rfl | rfl | rfl <;> simp
    rw [hlen, take_m_Mapping, getD_m_Hashes u (L - 1) (by omega)]
    exact firstIndex_findIdx L hmem
  · intro u e symbol sLen r h
    obtain ⟨h1, h6⟩ := findRow_len sLen symbol r h
    rw [Lookup_new_eq_findRow u e symbol sLen h1 (by
      by_cases h5 : sLen ≤ 5
      · exact Or.inl h5
      · exact Or.inr ⟨by omega, by rw [h]; rfl⟩), h]
    rfl
  · intro u e symbol sLen h
    by_cases h0 : sLen = 0 ∨ (CwDecoderLogic.new u).m_MaxElements < sLen
    · exact Lookup_invalid_length _ symbol sLen h0
    · have h5 : sLen ≤ 5 ∧ findRow sLen symbol = none := by
        rcases h with h | h | h
        · exact absurd (Or.inl h) h0
        · exact absurd (Or.inr h) h0
        · exact h
      rw [Lookup_new_eq_findRow u e symbol sLen (by omega) (Or.inl h5.1), h5.2]
      rfl

/-- C25: for every queue, the count `Decode` returns is the number of characters written,
and it is at most the number of items removed from the queue, hence at most the item count
on entry. -/
theorem Decode_count_le_removed (D : CwDecoderLogic)
    (rxBuffer : CircularBuffer MorseElements) (buflen : Int) :
    ∃ (n : Nat) (out : List Char) (rest : CircularBuffer MorseElements),
      Decode D rxBuffer buflen = some (n, out, rest) ∧ n = out.length ∧
      rest.Count ≤ rxBuffer.Count ∧ n ≤ rxBuffer.Count - rest.Count ∧ n ≤ rxBuffer.Count := by
  obtain ⟨out, rest, k, p, g1, g2, g3, g4, g5, g6, g7, g8, g9⟩ :=
    decodeLoop_spec D (rxBuffer.Count + 1) rxBuffer [] (le_refl _)
  have hlen : rest.items.length = rxBuffer.items.length - k := by rw [g4, List.length_drop]
  simp only [List.length_nil, Nat.zero_add] at g7
  refine ⟨out.length, out, rest, g1, rfl, ?_, ?_, ?_⟩ <;>
    simp only [CircularBuffer.Count] <;> omega

set_option maxRecDepth 100000 in
/-- C26 fails at the constructed object: the constructor populates 39 rows, and its two
loops read the slots 0 to 55; with zero bytes in the unassigned slots the character lookup
of '#', which is in no row, reads the slots 0 to 55, and the pattern lookup of six dots,
which is in no row, reads the slots 37, 38 and 39. -/
theorem reads_beyond_rows :
    tableRows.length = 39 ∧
    (∀ u : Nat → Row, constructorReads (CwDecoderLogic.new u) = List.range 56) ∧
    (∀ (u : Nat → Row) (i : Nat), 39 ≤ i → i < 56 →
      i ∈ constructorReads (CwDecoderLogic.new u)) ∧
    lookupCharIn '#' tableRows = none ∧
    LookupCharReads (CwDecoderLogic.new zeroSlots) '#' = List.range 56 ∧
    findRow 6 0 = none ∧
    LookupReads (CwDecoderLogic.new zeroSlots) 0 6 = [37, 38, 39] := by
  refine ⟨length_tableRows, fun _ => rfl, ?_, by decide, by decide, by decide, by decide⟩
  intro u i _ h56
  show i ∈ List.range 56
  exact List.mem_range.2 h56

end CwDecoderLogic

namespace CwTimingLogic

/-- C27 as stated fails for a negative dot length: after the constructor with the dot length
-1 `DotLength()` is -1/2; `BoxCarLength(8)` truncates it to 0 and `DotLength()` becomes 0,
which is more than half of -1/2. -/
theorem BoxCarLength_negative :
    (CwTimingLogic.new (-1) 8 0 0).DotLength = -1 / 2 ∧
    ((CwTimingLogic.new (-1) 8 0 0).setBoxCarLength 8).DotLength = 0 ∧
    ¬ (((CwTimingLogic.new (-1) 8 0 0).setBoxCarLength 8).DotLength ≤
      (CwTimingLogic.new (-1) 8 0 0).DotLength / 2) := by
  have h1 : truncToInt (-1) = -1 := by decide
  have hd : (CwTimingLogic.new (-1) 8 0 0).DotLength = -1 / 2 := by
    simp only [DotLength, CwTimingLogic.new, InitializeBoxCar, AllocateBoxCar, h1,
      foldl_add_replicate]
    norm_num
  have h2 : truncToInt (-1 / 2) = 0 := by
    unfold truncToInt
    norm_num
    decide
  have hs : ((CwTimingLogic.new (-1) 8 0 0).setBoxCarLength 8).DotLength = 0 := by
    have hm : (CwTimingLogic.new (-1) 8 0 0).m_DotLength = -1 / 2 := hd
    simp only [setBoxCarLength, DotLength, hm, h2, InitializeBoxCar, AllocateBoxCar,
      foldl_add_replicate]
    norm_num
  rw [hs, hd]
  exact ⟨rfl, rfl, by norm_num⟩

/-- C27, amended: `BoxCarLength(n)` with `n ≥ 1`, and `MinimumAverageDistance(x)` on a boxcar
of at least one entry, overwrite every boxcar entry and the average with the old
`DotLength()` truncated to an integer, so that `DotLength()` becomes half of that
truncation; this is at most half the old `DotLength()` when the old one is not negative. -/
theorem setters_reseed (T : CwTimingLogic) (n : Nat) (mad : ℚ) (hn : 1 ≤ n)
    (hN : 1 ≤ T.m_BoxCarSize) :
    ((T.setBoxCarLength n).m_BoxCar = List.replicate n ((truncToInt T.DotLength : ℤ) : ℚ) ∧
      (T.setBoxCarLength n).m_BoxCarAverage = ((truncToInt T.DotLength : ℤ) : ℚ) ∧
      (T.setBoxCarLength n).DotLength = ((truncToInt T.DotLength : ℤ) : ℚ) / 2 ∧
      (0 ≤ T.DotLength → (T.setBoxCarLength n).DotLength ≤ T.DotLength / 2)) ∧
    ((T.setMinimumAverageDistance mad).m_BoxCar =
        List.replicate T.m_BoxCarSize ((truncToInt T.DotLength : ℤ) : ℚ) ∧
      (T.setMinimumAverageDistance mad).m_BoxCarAverage = ((truncToInt T.DotLength : ℤ) : ℚ) ∧
      (T.setMinimumAverageDistance mad).DotLength = ((truncToInt T.DotLength : ℤ) : ℚ) / 2 ∧
      (0 ≤ T.DotLength → (T.setMinimumAverageDistance mad).DotLength ≤ T.DotLength / 2)) := by
  obtain ⟨a1, a2, a3⟩ := InitializeBoxCar_fields (T.AllocateBoxCar n) (truncToInt T.m_DotLength)
    (by simpa [AllocateBoxCar] using hn)
  obtain ⟨b1, b2, b3⟩ := InitializeBoxCar_fields { T with m_MinimumAverageDistance := mad }
    (truncToInt T.m_DotLength) hN
  refine ⟨⟨a1, a2, a3, ?_⟩, ⟨b1, b2, b3, ?_⟩⟩
  · intro h0
    have := truncToInt_le T.m_DotLength h0
    show ((T.AllocateBoxCar n).InitializeBoxCar (truncToInt T.m_DotLength)).m_DotLength ≤
      T.m_DotLength / 2
    rw [a3]
    linarith
  · intro h0
    have := truncToInt_le T.m_DotLength h0
    show (InitializeBoxCar { T with m_MinimumAverageDistance := mad }
      (truncToInt T.m_DotLength)).m_DotLength ≤ T.m_DotLength / 2
    rw [b3]
    linarith

/-- C27, amended, at the state set up by `RxWPM(10)` (dot length 120): after
`BoxCarLength(4)` the dot length is half the truncation of 120. -/
theorem setters_reseed_witness :
    (1 ≤ ((CwTimingLogic.new 1 8 0 0).RxWPM 10).m_BoxCarSize) ∧
    (((CwTimingLogic.new 1 8 0 0).RxWPM 10).setBoxCarLength 4).DotLength =
      ((truncToInt ((CwTimingLogic.new 1 8 0 0).RxWPM 10).DotLength : ℤ) : ℚ) / 2 :=
  ⟨by rw [RxWPM_10_size.1]; decide,
    (setters_reseed ((CwTimingLogic.new 1 8 0 0).RxWPM 10) 4 (35 / 100) (by decide)
      (by rw [RxWPM_10_size.1]; decide)).1.2.2.1⟩

/-- C28: with RX in manual mode at an integer dot length `d ≥ 1` that is also the TX dot
length, and queues that are large enough, `Decode` applied to the pulses `Encode` produces
gives back every element list exactly when `1 ≤ MaximumDotLength < 3` and
`3 < MinimumWordSpace ≤ 5`; and when `MaximumDotLength < 5 < MinimumWordSpace`, the pulse
of an encoded `WordSpace` is decoded as `DashSpace`. -/
theorem Encode_Decode_elements_iff (T : CwTimingLogic) (d : Nat) (hd : 1 ≤ d)
    (h5 : 5 * d < 4294967296) (hrx : T.m_RxSpeedSource = SpeedSources.SpeedManual)
    (hR : T.m_RxDotLength = (d : ℚ)) (hT : T.m_TxDotLength = (d : ℚ)) :
    ((∀ (els : List MorseElements) (c0 c1 c2 : Nat), els.length ≤ c1 → els.length ≤ c2 →
        (T.Decode (T.Encode (CircularBuffer.mk els c0) (CircularBuffer.empty c1)).2.2
          (CircularBuffer.empty c2)).2.2.1.items = els) ↔
      (1 ≤ T.MaximumDotLength ∧ T.MaximumDotLength < 3 ∧
        3 < T.MinimumWordSpace ∧ T.MinimumWordSpace ≤ 5)) ∧
    (T.MaximumDotLength < 5 → 5 < T.MinimumWordSpace →
      (T.Decode (T.Encode (CircularBuffer.mk [MorseElements.WordSpace] 32)
          (CircularBuffer.empty 32)).2.2 (CircularBuffer.empty 32)).2.2.1.items =
        [MorseElements.DashSpace]) := by
  have hdq : (0 : ℚ) < (d : ℚ) := by exact_mod_cast hd
  refine ⟨⟨?_, ?_⟩, ?_⟩
  · intro h
    apply (classifySpec_units_iff d hd _ _).1
    intro el
    have h1 := h [el] 1 1 1 (by simp) (by simp)
    rw [Decode_Encode_items T d [el] 1 1 1 hT h5 (by simp) (by simp),
      classified_pulses T d [el] hrx hR] at h1
    simpa using h1
  · intro hb els c0 c1 c2 hc1 hc2
    have hall := (classifySpec_units_iff d hd _ _).2 hb
    rw [Decode_Encode_items T d els c0 c1 c2 hT h5 hc1 hc2, classified_pulses T d els hrx hR]
    conv_rhs => rw [← List.map_id els]
    exact List.map_congr_left (fun el _ => hall el)
  · intro hm hs
    rw [Decode_Encode_items T d [.WordSpace] 32 32 32 hT h5 (by simp) (by simp),
      classified_pulses T d [.WordSpace] hrx hR]
    have hn5 : ¬ ((5 : ℚ) * d ≤ T.MaximumDotLength * d) := by
      intro hle; nlinarith
    have hns : ¬ ((5 : ℚ) * d ≥ T.MinimumWordSpace * d) := by
      intro hle; nlinarith
    simp [classifySpec, dotUnits, CwDecoderLogic.isMark, hn5, hns]

/-- C28 at 10 WPM: with the default multipliers 2 and 4.5 the five elements come back; with
`MinimumWordSpace = 15`, the value `main` sets, an encoded `WordSpace` comes back as a
`DashSpace`. -/
theorem Encode_Decode_elements_iff_witness :
    ((((CwTimingLogic.new 1 8 0 0).RxWPM 10).TxWPM 10).Decode
        ((((CwTimingLogic.new 1 8 0 0).RxWPM 10).TxWPM 10).Encode
          (CircularBuffer.mk [.Dot, .DotSpace, .Dash, .DashSpace, .WordSpace] 32)
          (CircularBuffer.empty 32)).2.2 (CircularBuffer.empty 32)).2.2.1.items =
      [.Dot, .DotSpace, .Dash, .DashSpace, .WordSpace] ∧
    (((((CwTimingLogic.new 1 8 0 0).RxWPM 10).TxWPM 10).setTunables 2 15 0 FLT_MAX).Decode
        (((((CwTimingLogic.new 1 8 0 0).RxWPM 10).TxWPM 10).setTunables 2 15 0 FLT_MAX).Encode
          (CircularBuffer.mk [.WordSpace] 32)
          (CircularBuffer.empty 32)).2.2 (CircularBuffer.empty 32)).2.2.1.items =
      [.DashSpace] :=
  ⟨((Encode_Decode_elements_iff (((CwTimingLogic.new 1 8 0 0).RxWPM 10).TxWPM 10) 120
      (by decide) (by decide) wpm_10_state.1 wpm_10_state.2.1 wpm_10_state.2.2.1).1.2
      (by rw [wpm_10_state.2.2.2.1, wpm_10_state.2.2.2.2]; norm_num))
      [.Dot, .DotSpace, .Dash, .DashSpace, .WordSpace] 32 32 32 (by decide) (by decide),
    (Encode_Decode_elements_iff
      ((((CwTimingLogic.new 1 8 0 0).RxWPM 10).TxWPM 10).setTunables 2 15 0 FLT_MAX) 120
      (by decide) (by decide) wpm_10_state.1 wpm_10_state.2.1 wpm_10_state.2.2.1).2
      (by show (2 : ℚ) < 5; norm_num) (by show (5 : ℚ) < 15; norm_num)⟩

end CwTimingLogic

end CW
